import Mathlib

/-!
Verification of the resilient JSON extraction, repair and schema-normalization
engine of the erd-SchemaFlow repository (src/server/main.py).

Python strings are modeled as List Char.  Python regular-expression rewrites
are modeled by explicit scan-and-replace functions that reproduce the
leftmost-match, greedy backtracking semantics of the re module on the exact
patterns appearing in the source.  Unicode-dependent behavior (str.lower,
str.strip, the \s and \w classes) is modeled at ASCII scope; every property
proved below is insensitive to that restriction because sanitize_identifier
maps all characters outside [a-z0-9_] to underscores.
-/

namespace SchemaFlow

/-- Model of the Python whitespace class at ASCII scope (space, tab,
newline, carriage return, vertical tab, form feed). -/
def isPyWs (c : Char) : Bool :=
  c = ' ' || c = '\t' || c = '\n' || c = '\r' || c = '\x0b' || c = '\x0c'

/-- Model of str.strip with no argument: drop whitespace on both ends. -/
def pyStripWs (l : List Char) : List Char :=
  ((l.dropWhile isPyWs).reverse.dropWhile isPyWs).reverse

/-- Model of str.lower at ASCII scope. -/
def lowerL (l : List Char) : List Char :=
  l.map Char.toLower

/-- Characters allowed by the sanitizer: lowercase letters, digits, underscore. -/
def isSanChar (c : Char) : Bool :=
  ('a' ≤ c && c ≤ 'z') || ('0' ≤ c && c ≤ '9') || c = '_'

/-- Model of re.sub applied to pattern backslash-s-plus with replacement
underscore: every maximal whitespace run becomes a single underscore.
The boolean argument records whether the previous character was part of a
whitespace run already rewritten. -/
def squashWsGo : Bool → List Char → List Char
  | _, [] => []
  | prevWs, c :: rest =>
    if isPyWs c then
      if prevWs then squashWsGo true rest else '_' :: squashWsGo true rest
    else c :: squashWsGo false rest

/-- Model of re.sub replacing every character outside [a-z0-9_] by underscore. -/
def mapNonSan (l : List Char) : List Char :=
  l.map (fun c => if isSanChar c then c else '_')

/-- Model of re.sub collapsing underscore runs to a single underscore. -/
def squashUsGo : Bool → List Char → List Char
  | _, [] => []
  | prevUs, c :: rest =>
    if c = '_' then
      if prevUs then squashUsGo true rest else '_' :: squashUsGo true rest
    else c :: squashUsGo false rest

/-- Model of str.strip applied with the underscore argument. -/
def stripUs (l : List Char) : List Char :=
  ((l.dropWhile (fun c => c = '_')).reverse.dropWhile (fun c => c = '_')).reverse

/-- Body of sanitize_identifier before the final or-fallback. -/
def sanitizeCore (l : List Char) : List Char :=
  stripUs (squashUsGo false (mapNonSan (squashWsGo false (lowerL (pyStripWs l)))))

/-- Embedding of sanitize_identifier (src/server/main.py lines 419-424):
strip, lowercase, whitespace runs to underscore, non-identifier characters
to underscore, collapse underscore runs, strip underscores, with the fixed
fallback "col" when nothing remains. -/
def sanitize_identifier (l : List Char) : List Char :=
  let s := sanitizeCore l
  if s = [] then "col".toList else s

/-- Detects two adjacent underscores. -/
def hasDoubleUs : List Char → Bool
  | [] => false
  | [_] => false
  | a :: b :: rest => (a = '_' && b = '_') || hasDoubleUs (b :: rest)

/-! Balanced-value scanner: embedding of extract_first_json_value
(src/server/main.py lines 239-287). -/

/-- Model of str.find for one character, returning the lowest index. -/
def pyFindChar (l : List Char) (c : Char) : Option Nat :=
  match l with
  | [] => none
  | a :: rest => if a = c then some 0 else (pyFindChar rest c).map (· + 1)

/-- The start index computed at lines 243-249: the minimum of the first
indices of the open brace and the open bracket, when either is present. -/
def findScanStart (text : List Char) : Option Nat :=
  match pyFindChar text '{', pyFindChar text '[' with
  | none, none => none
  | some i, none => some i
  | none, some j => some j
  | some i, some j => some (min i j)

/-- Character loop of extract_first_json_value (lines 254-287).  The state is
the remaining input, the stack of open brackets, the in-string flag and the
escape-pending flag.  A successful scan returns the number of characters
consumed up to and including the closing bracket; a mismatch, a close on an
empty stack, or running out of input returns none. -/
def scanGo : List Char → List Char → Bool → Bool → Option Nat
  | [], _, _, _ => none
  | c :: rest, stack, inStr, esc =>
    if inStr then
      if esc then (scanGo rest stack true false).map (· + 1)
      else if c = '\\' then (scanGo rest stack true true).map (· + 1)
      else if c = '"' then (scanGo rest stack false false).map (· + 1)
      else (scanGo rest stack true false).map (· + 1)
    else if c = '"' then (scanGo rest stack true false).map (· + 1)
    else if c = '{' ∨ c = '[' then (scanGo rest (c :: stack) false false).map (· + 1)
    else if c = '}' ∨ c = ']' then
      match stack with
      | [] => none
      | top :: stk =>
        if (top = '{' ∧ c = '}') ∨ (top = '[' ∧ c = ']') then
          if stk = [] then some 1 else (scanGo rest stk false false).map (· + 1)
        else none
    else (scanGo rest stack false false).map (· + 1)

/-- Embedding of extract_first_json_value: locate the lowest index of an
open brace or bracket, then run the balanced scan from there; the candidate
is the consumed slice, inclusive of the closing character. -/
def extract_first_json_value (text : List Char) : Option (List Char) :=
  if text = [] then none
  else
    match findScanStart text with
    | none => none
    | some start =>
      match scanGo (text.drop start) [] false false with
      | some n => some ((text.drop start).take n)
      | none => none

/-- Embedding of extract_first_json_object_from_array (lines 303-313). -/
def extract_first_json_object_from_array (a : List Char) : Option (List Char) :=
  if a = [] then none
  else
    let s := a.dropWhile isPyWs
    if s.head? = some '[' then
      match extract_first_json_value (s.drop 1) with
      | some obj =>
        if (obj.dropWhile isPyWs).head? = some '{' then some obj else none
      | none => none
    else none

/-! Well-formed JSON grammar (json.org), used to state the scanner claims.
Number tokens are over-approximated by their character class, so the
predicate contains every strict JSON value. -/

/-- Grammar kinds: value, string body, object interior, array interior,
member list, element list, single element. -/
inductive GK where
  | val
  | strBody
  | objIn
  | arrIn
  | members
  | elems
  | elem

/-- Characters a JSON number token can contain. -/
def numChar (c : Char) : Bool :=
  c.isDigit || c = '-' || c = '+' || c = '.' || c = 'e' || c = 'E'

/-- JSON structural whitespace. -/
def jsonWs (c : Char) : Bool :=
  c = ' ' || c = '\t' || c = '\n' || c = '\r'

/-- Well-formed JSON text, indexed by grammar kind.  A strBody is the
interior of a string literal: plain characters and backslash escape pairs. -/
inductive Gram : GK → List Char → Prop where
  | nul : Gram .val ("null".toList)
  | tru : Gram .val ("true".toList)
  | fls : Gram .val ("false".toList)
  | num : ∀ l, l ≠ [] → (∀ c ∈ l, numChar c = true) → Gram .val l
  | str : ∀ b, Gram .strBody b → Gram .val ('"' :: b ++ ['"'])
  | obj : ∀ l, Gram .objIn l → Gram .val ('{' :: l ++ ['}'])
  | arr : ∀ l, Gram .arrIn l → Gram .val ('[' :: l ++ [']'])
  | sbNil : Gram .strBody []
  | sbPlain : ∀ c b, c ≠ '"' → c ≠ '\\' → Gram .strBody b → Gram .strBody (c :: b)
  | sbEsc : ∀ c b, Gram .strBody b → Gram .strBody ('\\' :: c :: b)
  | objEmpty : ∀ w, (∀ c ∈ w, jsonWs c = true) → Gram .objIn w
  | objMem : ∀ l, Gram .members l → Gram .objIn l
  | memOne : ∀ w1 s w2 e, (∀ c ∈ w1, jsonWs c = true) → Gram .strBody s →
      (∀ c ∈ w2, jsonWs c = true) → Gram .elem e →
      Gram .members (w1 ++ '"' :: s ++ '"' :: w2 ++ ':' :: e)
  | memCons : ∀ w1 s w2 e rest, (∀ c ∈ w1, jsonWs c = true) → Gram .strBody s →
      (∀ c ∈ w2, jsonWs c = true) → Gram .elem e → Gram .members rest →
      Gram .members (w1 ++ '"' :: s ++ '"' :: w2 ++ ':' :: e ++ ',' :: rest)
  | arrEmpty : ∀ w, (∀ c ∈ w, jsonWs c = true) → Gram .arrIn w
  | arrElems : ∀ l, Gram .elems l → Gram .arrIn l
  | elOne : ∀ e, Gram .elem e → Gram .elems e
  | elCons : ∀ e rest, Gram .elem e → Gram .elems rest → Gram .elems (e ++ ',' :: rest)
  | elemMk : ∀ w1 v w2, (∀ c ∈ w1, jsonWs c = true) → Gram .val v →
      (∀ c ∈ w2, jsonWs c = true) → Gram .elem (w1 ++ v ++ w2)

/-- Characters that do not affect the scanner state outside a string. -/
def scanNeutral (c : Char) : Bool :=
  !(c = '"' || c = '{' || c = '[' || c = '}' || c = ']')

/-- Statement proved by induction over the grammar: a string body is consumed
inside string state through its closing quote; any other production is
consumed from any non-empty stack without changing the scanner state. -/
def GramMotive : GK → List Char → Prop
  | .strBody, b => ∀ stack rest,
      scanGo (b ++ '"' :: rest) stack true false
        = (scanGo rest stack false false).map (· + (b.length + 1))
  | _, l => ∀ stack rest, stack ≠ [] →
      scanGo (l ++ rest) stack false false
        = (scanGo rest stack false false).map (· + l.length)

/-! Model of decoded Python values produced by json.loads.  Numbers without
fraction or exponent decode to int; fractional, exponent and NaN/Infinity
tokens are kept as their source token text (the flt constructor), which
preserves distinctness and truthiness without modeling binary floats. -/

/-- A decoded Python value: None, bool, int, float token, str, list, dict.
Dict entries keep insertion order, as Python dicts do. -/
inductive JsonV where
  | null
  | bool (b : Bool)
  | int (n : Int)
  | flt (tok : List Char)
  | str (s : List Char)
  | arr (xs : List JsonV)
  | obj (kvs : List (List Char × JsonV))

mutual

def beqJ : JsonV → JsonV → Bool
  | .null, .null => true
  | .bool a, .bool b => a = b
  | .int a, .int b => a = b
  | .flt a, .flt b => a = b
  | .str a, .str b => a = b
  | .arr a, .arr b => beqLJ a b
  | .obj a, .obj b => beqPJ a b
  | _, _ => false

def beqLJ : List JsonV → List JsonV → Bool
  | [], [] => true
  | a :: at1, b :: bt => beqJ a b && beqLJ at1 bt
  | _, _ => false

def beqPJ : List (List Char × JsonV) → List (List Char × JsonV) → Bool
  | [], [] => true
  | (k1, v1) :: at1, (k2, v2) :: bt => k1 = k2 && beqJ v1 v2 && beqPJ at1 bt
  | _, _ => false

end

mutual

def eqOfBeqJ : ∀ a b, beqJ a b = true → a = b
  | .null, .null, _ => rfl
  | .bool a, .bool b, h => by
    have hab : a = b := by simpa [beqJ] using h
    rw [hab]
  | .int a, .int b, h => by
    have hab : a = b := by simpa [beqJ] using h
    rw [hab]
  | .flt a, .flt b, h => by
    have hab : a = b := by simpa [beqJ] using h
    rw [hab]
  | .str a, .str b, h => by
    have hab : a = b := by simpa [beqJ] using h
    rw [hab]
  | .arr a, .arr b, h => by
    have hab : beqLJ a b = true := by simpa [beqJ] using h
    rw [eqOfBeqLJ a b hab]
  | .obj a, .obj b, h => by
    have hab : beqPJ a b = true := by simpa [beqJ] using h
    rw [eqOfBeqPJ a b hab]

def eqOfBeqLJ : ∀ a b, beqLJ a b = true → a = b
  | [], [], _ => rfl
  | a :: at1, b :: bt, h => by
    have h2 : beqJ a b = true ∧ beqLJ at1 bt = true := by simpa [beqLJ] using h
    rw [eqOfBeqJ a b h2.1, eqOfBeqLJ at1 bt h2.2]

def eqOfBeqPJ : ∀ a b, beqPJ a b = true → a = b
  | [], [], _ => rfl
  | (k1, v1) :: at1, (k2, v2) :: bt, h => by
    have h2 : k1 = k2 ∧ beqJ v1 v2 = true ∧ beqPJ at1 bt = true := by
      simpa [beqPJ, and_assoc] using h
    rw [h2.1, eqOfBeqJ v1 v2 h2.2.1, eqOfBeqPJ at1 bt h2.2.2]

end

mutual

def beqJRefl : ∀ a, beqJ a a = true
  | .null => rfl
  | .bool a => by simp [beqJ]
  | .int a => by simp [beqJ]
  | .flt a => by simp [beqJ]
  | .str a => by simp [beqJ]
  | .arr a => by simp [beqJ, beqLJRefl a]
  | .obj a => by simp [beqJ, beqPJRefl a]

def beqLJRefl : ∀ a, beqLJ a a = true
  | [] => rfl
  | a :: at1 => by simp [beqLJ, beqJRefl a, beqLJRefl at1]

def beqPJRefl : ∀ a, beqPJ a a = true
  | [] => rfl
  | (k, v) :: at1 => by simp [beqPJ, beqJRefl v, beqPJRefl at1]

end

instance : DecidableEq JsonV := fun a b =>
  if h : beqJ a b = true then .isTrue (eqOfBeqJ a b h)
  else .isFalse (fun he => h (he ▸ beqJRefl a))

/-- Decimal digits of a positive number, most significant first, by fuel
recursion (structural, so the kernel can evaluate it). -/
def natStrGo : Nat → Nat → List Char
  | _, 0 => []
  | 0, _ + 1 => []
  | fuel + 1, n + 1 =>
    natStrGo fuel ((n + 1) / 10) ++ [Nat.digitChar ((n + 1) % 10)]

/-- Decimal digit string of a natural number, most significant digit
first. -/
def natStr (n : Nat) : List Char :=
  if n = 0 then ['0'] else natStrGo n n

/-- Model of Python str of an int. -/
def intStr (n : Int) : List Char :=
  if n < 0 then '-' :: natStr n.natAbs else natStr n.toNat

/-- Python dict lookup on an ordered association list: first matching key. -/
def lookupJ : List (List Char × JsonV) → List Char → Option JsonV
  | [], _ => none
  | (k, v) :: rest, key => if k = key then some v else lookupJ rest key

/-- Python dict item assignment: replace in place when the key exists,
append otherwise. -/
def setJ : List (List Char × JsonV) → List Char → JsonV → List (List Char × JsonV)
  | [], key, v => [(key, v)]
  | (k, w) :: rest, key, v =>
    if k = key then (k, v) :: rest else (k, w) :: setJ rest key v

/-- Model of a Python dict literal that splices an existing dict and then
lists explicit entries: the explicit entries are assigned in order. -/
def mergeJ (kvs ov : List (List Char × JsonV)) : List (List Char × JsonV) :=
  ov.foldl (fun acc kv => setJ acc kv.1 kv.2) kvs

/-- Model of dict.get with no default (None when the key is absent or the
receiver is not a dict). -/
def pyGet (v : JsonV) (key : List Char) : Option JsonV :=
  match v with
  | .obj kvs => lookupJ kvs key
  | _ => none

/-- Whether a float token denotes zero: every mantissa digit is 0 and the
token is not NaN or Infinity. -/
def isZeroFloatTok (t : List Char) : Bool :=
  let t1 := if t.head? = some '-' || t.head? = some '+' then t.drop 1 else t
  if t1.head? = some 'N' || t1.head? = some 'I' then false
  else (t1.takeWhile (fun c => !(c = 'e' || c = 'E'))).all
    (fun c => !c.isDigit || c = '0')

/-- Model of Python truthiness (bool applied to a value). -/
def pyTruthy : JsonV → Bool
  | .null => false
  | .bool b => b
  | .int n => !(n = 0)
  | .flt t => !isZeroFloatTok t
  | .str s => !(s = [])
  | .arr xs => !(xs = [])
  | .obj kvs => !(kvs = [])

/-- Truthiness of a dict.get result (None is falsy). -/
def pyTruthyO : Option JsonV → Bool
  | none => false
  | some v => pyTruthy v

/-- Model of the or-chain a or b on a get result: the value when truthy,
otherwise the fallback. -/
def pyOrO (a : Option JsonV) (b : JsonV) : JsonV :=
  match a with
  | some v => if pyTruthy v then v else b
  | none => b

/-- Escape a character sequence for Python repr of a str, given the chosen
quote character.  Control characters other than newline, carriage return and
tab are kept verbatim (an abstraction of the hex escapes Python would print;
no property proved below depends on their exact spelling). -/
def pyReprStrEsc (q : Char) : List Char → List Char
  | [] => []
  | c :: rest =>
    if c = '\\' then '\\' :: '\\' :: pyReprStrEsc q rest
    else if c = q then '\\' :: q :: pyReprStrEsc q rest
    else if c = '\n' then '\\' :: 'n' :: pyReprStrEsc q rest
    else if c = '\r' then '\\' :: 'r' :: pyReprStrEsc q rest
    else if c = '\t' then '\\' :: 't' :: pyReprStrEsc q rest
    else c :: pyReprStrEsc q rest

/-- Model of Python repr of a str: single quotes unless the content holds a
single quote and no double quote. -/
def pyReprStr (s : List Char) : List Char :=
  if '\'' ∈ s ∧ '"' ∉ s then '"' :: pyReprStrEsc '"' s ++ ['"']
  else '\'' :: pyReprStrEsc '\'' s ++ ['\'']

mutual

/-- Model of Python repr of a decoded value. -/
def pyRepr : JsonV → List Char
  | .null => "None".toList
  | .bool true => "True".toList
  | .bool false => "False".toList
  | .int n => intStr n
  | .flt t => t
  | .str s => pyReprStr s
  | .arr xs => '[' :: (List.intercalate (", ".toList) (pyReprList xs)) ++ [']']
  | .obj kvs => '{' :: (List.intercalate (", ".toList) (pyReprPairs kvs)) ++ ['}']

def pyReprList : List JsonV → List (List Char)
  | [] => []
  | v :: rest => pyRepr v :: pyReprList rest

def pyReprPairs : List (List Char × JsonV) → List (List Char)
  | [] => []
  | (k, v) :: rest => (pyReprStr k ++ ": ".toList ++ pyRepr v) :: pyReprPairs rest

end

/-- Model of Python str applied to a decoded value. -/
def pyStr (v : JsonV) : List Char :=
  match v with
  | .str s => s
  | _ => pyRepr v

/-! Model of json.loads: a strict JSON parser.  Error values carry the
CPython message text without position information.  A fuel parameter bounds
recursion; it is chosen ample for the input length, and any exhaustion
surfaces as a parse error. -/

def hexVal (c : Char) : Option Nat :=
  if c.isDigit then some (c.toNat - 48)
  else if 'a' ≤ c ∧ c ≤ 'f' then some (c.toNat - 87)
  else if 'A' ≤ c ∧ c ≤ 'F' then some (c.toNat - 55)
  else none

/-- Decode four hex digits to a code unit. -/
def hex4 (h1 h2 h3 h4 : Char) : Option Nat :=
  match hexVal h1, hexVal h2, hexVal h3, hexVal h4 with
  | some a, some b, some c, some d => some (a * 4096 + b * 256 + c * 16 + d)
  | _, _, _, _ => none

/-- Turn a scalar code point into a Char, replacing surrogate code units by
the replacement character (Python would keep a lone surrogate; Lean chars
cannot, and no property proved below depends on that case). -/
def codeToChar (n : Nat) : Char :=
  if n < 0xd800 ∨ (0xe000 ≤ n ∧ n < 0x110000) then
    Char.ofNat n
  else
    Char.ofNat 0xfffd

/-- String-literal scanner of json.loads, after the opening quote: strict
escape handling, rejection of unescaped control characters, surrogate pair
combination for backslash-u escapes. -/
def parseStrGo (fuel : Nat) (l : List Char) (acc : List Char) :
    Except (List Char) (List Char × List Char) :=
  match fuel with
  | 0 => .error ("Unterminated string starting at".toList)
  | fuel + 1 =>
    match l with
    | [] => .error ("Unterminated string starting at".toList)
    | c :: rest =>
      if c = '"' then .ok (acc.reverse, rest)
      else if c = '\\' then
        match rest with
        | [] => .error ("Unterminated string starting at".toList)
        | e :: rest2 =>
          if e = '"' then parseStrGo fuel rest2 ('"' :: acc)
          else if e = '\\' then parseStrGo fuel rest2 ('\\' :: acc)
          else if e = '/' then parseStrGo fuel rest2 ('/' :: acc)
          else if e = 'b' then parseStrGo fuel rest2 ('\x08' :: acc)
          else if e = 'f' then parseStrGo fuel rest2 ('\x0c' :: acc)
          else if e = 'n' then parseStrGo fuel rest2 ('\n' :: acc)
          else if e = 'r' then parseStrGo fuel rest2 ('\r' :: acc)
          else if e = 't' then parseStrGo fuel rest2 ('\t' :: acc)
          else if e = 'u' then
            match rest2 with
            | h1 :: h2 :: h3 :: h4 :: rest3 =>
              match hex4 h1 h2 h3 h4 with
              | none => .error ("Invalid \\uXXXX escape".toList)
              | some n =>
                if 0xd800 ≤ n ∧ n < 0xdc00 then
                  match rest3 with
                  | '\\' :: 'u' :: g1 :: g2 :: g3 :: g4 :: rest4 =>
                    match hex4 g1 g2 g3 g4 with
                    | some m =>
                      if 0xdc00 ≤ m ∧ m < 0xe000 then
                        parseStrGo fuel rest4
                          (codeToChar (0x10000 + (n - 0xd800) * 0x400 + (m - 0xdc00)) :: acc)
                      else parseStrGo fuel rest3 (codeToChar n :: acc)
                    | none => parseStrGo fuel rest3 (codeToChar n :: acc)
                  | _ => parseStrGo fuel rest3 (codeToChar n :: acc)
                else parseStrGo fuel rest3 (codeToChar n :: acc)
            | _ => .error ("Invalid \\uXXXX escape".toList)
          else .error ("Invalid \\escape".toList)
      else if c.toNat < 32 then .error ("Invalid control character".toList)
      else parseStrGo fuel rest (c :: acc)

/-- Numeric value of a digit string. -/
def digitsToNat (l : List Char) : Nat :=
  l.foldl (fun a c => a * 10 + (c.toNat - 48)) 0

/-- Number scanner of json.loads, mirroring its NUMBER_RE: optional minus,
integer part 0 or nonzero-led digits, optional fraction, optional exponent.
A match with fraction or exponent yields a float token; otherwise an int. -/
def parseNumber (l : List Char) : Option (JsonV × List Char) :=
  let (neg, l1) := if l.head? = some '-' then (true, l.drop 1) else (false, l)
  let intPart : Option (List Char × List Char) :=
    match l1 with
    | '0' :: rest => some (['0'], rest)
    | c :: rest =>
      if c.isDigit then some (c :: rest.takeWhile Char.isDigit,
        rest.dropWhile Char.isDigit)
      else none
    | [] => none
  match intPart with
  | none => none
  | some (ip, r1) =>
    let fracPart : Option (List Char × List Char) :=
      match r1 with
      | '.' :: d :: rest =>
        if d.isDigit then some ('.' :: d :: rest.takeWhile Char.isDigit,
          rest.dropWhile Char.isDigit)
        else none
      | _ => none
    let (fp, r2) := match fracPart with
      | some (fp, r2) => (fp, r2)
      | none => (([] : List Char), r1)
    let expPart : Option (List Char × List Char) :=
      match r2 with
      | e :: rest =>
        if e = 'e' ∨ e = 'E' then
          match rest with
          | s :: rest2 =>
            if s = '+' ∨ s = '-' then
              match rest2 with
              | d :: _ =>
                if d.isDigit then
                  some (e :: s :: rest2.takeWhile Char.isDigit,
                    rest2.dropWhile Char.isDigit)
                else none
              | [] => none
            else if s.isDigit then
              some (e :: rest.takeWhile Char.isDigit,
                rest.dropWhile Char.isDigit)
            else none
          | [] => none
        else none
      | [] => none
    let (ep, r3) := match expPart with
      | some (ep, r3) => (ep, r3)
      | none => (([] : List Char), r2)
    if fp = [] ∧ ep = [] then
      let v : Int := Int.ofNat (digitsToNat ip)
      some (.int (if neg then -v else v), r1)
    else
      some (.flt ((if neg then ['-'] else []) ++ ip ++ fp ++ ep), r3)

/-- Drop the JSON whitespace the json module skips between tokens. -/
def skipJWs (l : List Char) : List Char :=
  l.dropWhile jsonWs

mutual

/-- Value parser of json.loads. -/
def parseVal (fuel : Nat) (l : List Char) :
    Except (List Char) (JsonV × List Char) :=
  match fuel with
  | 0 => .error ("Expecting value".toList)
  | fuel + 1 =>
    match l with
    | [] => .error ("Expecting value".toList)
    | c :: rest =>
      if c = '{' then
        let r1 := skipJWs rest
        match r1 with
        | '}' :: r2 => .ok (.obj [], r2)
        | _ => parseMembers fuel r1 []
      else if c = '[' then
        let r1 := skipJWs rest
        match r1 with
        | ']' :: r2 => .ok (.arr [], r2)
        | _ => parseItems fuel r1 []
      else if c = '"' then
        match parseStrGo (rest.length + 1) rest [] with
        | .ok (s, r2) => .ok (.str s, r2)
        | .error e => .error e
      else if "true".toList.isPrefixOf l then .ok (.bool true, l.drop 4)
      else if "false".toList.isPrefixOf l then .ok (.bool false, l.drop 5)
      else if "null".toList.isPrefixOf l then .ok (.null, l.drop 4)
      else if "NaN".toList.isPrefixOf l then .ok (.flt "NaN".toList, l.drop 3)
      else if "Infinity".toList.isPrefixOf l then
        .ok (.flt "Infinity".toList, l.drop 8)
      else if "-Infinity".toList.isPrefixOf l then
        .ok (.flt "-Infinity".toList, l.drop 9)
      else
        match parseNumber l with
        | some (v, r2) => .ok (v, r2)
        | none => .error ("Expecting value".toList)

/-- Object member loop of json.loads: key string, colon, element, then a
comma continuing the loop or a closing brace.  Duplicate keys overwrite in
place, as Python dict assignment does. -/
def parseMembers (fuel : Nat) (l : List Char)
    (acc : List (List Char × JsonV)) :
    Except (List Char) (JsonV × List Char) :=
  match fuel with
  | 0 => .error ("Expecting property name enclosed in double quotes".toList)
  | fuel + 1 =>
    match l with
    | '"' :: r1 =>
      match parseStrGo (r1.length + 1) r1 [] with
      | .error e => .error e
      | .ok (key, r2) =>
        match skipJWs r2 with
        | ':' :: r3 =>
          match parseVal fuel (skipJWs r3) with
          | .error e => .error e
          | .ok (v, r4) =>
            let acc2 := setJ acc key v
            match skipJWs r4 with
            | ',' :: r5 => parseMembers fuel (skipJWs r5) acc2
            | '}' :: r5 => .ok (.obj acc2, r5)
            | _ => .error ("Expecting delimiter".toList)
        | _ => .error ("Expecting colon delimiter".toList)
    | _ => .error ("Expecting property name enclosed in double quotes".toList)

/-- Array element loop of json.loads. -/
def parseItems (fuel : Nat) (l : List Char) (acc : List JsonV) :
    Except (List Char) (JsonV × List Char) :=
  match fuel with
  | 0 => .error ("Expecting value".toList)
  | fuel + 1 =>
    match parseVal fuel l with
    | .error e => .error e
    | .ok (v, r1) =>
      let acc2 := acc ++ [v]
      match skipJWs r1 with
      | ',' :: r2 => parseItems fuel (skipJWs r2) acc2
      | ']' :: r2 => .ok (.arr acc2, r2)
      | _ => .error ("Expecting delimiter".toList)

end

/-- Model of json.loads: skip leading whitespace, parse one value, require
only whitespace to follow. -/
def pyJsonLoads (s : List Char) : Except (List Char) JsonV :=
  match parseVal (2 * s.length + 8) (skipJWs s) with
  | .error e => .error e
  | .ok (v, rest) =>
    if skipJWs rest = [] then .ok v else .error ("Extra data".toList)

/-! Scan-and-replace engine reproducing re.sub semantics for the concrete
patterns of the source: leftmost match, non-overlapping, continuing after
each match.  Each matcher returns the replacement text and the input
remaining after the matched span, and always consumes at least one
character on success. -/

def subScan (m : List Char → Option (List Char × List Char)) :
    Nat → List Char → List Char
  | 0, l => l
  | _ + 1, [] => []
  | fuel + 1, c :: rest =>
    match m (c :: rest) with
    | some (rep, rest2) => rep ++ subScan m fuel rest2
    | none => c :: subScan m fuel rest

/-- Replace every leftmost non-overlapping match of m in l. -/
def subAll (m : List Char → Option (List Char × List Char))
    (l : List Char) : List Char :=
  subScan m l.length l

/-- Matcher for the pattern close-brace, whitespace, open-brace, rewritten
with a comma (first rewrite of repair_common_json_issues, line 292). -/
def mBraceComma (l : List Char) : Option (List Char × List Char) :=
  match l with
  | '}' :: rest =>
    match rest.dropWhile isPyWs with
    | '{' :: r3 => some ("\x7d,\x7b".toList, r3)
    | _ => none
  | _ => none

/-- Matcher for close-bracket, whitespace, open-bracket (line 293). -/
def mBracketComma (l : List Char) : Option (List Char × List Char) :=
  match l with
  | ']' :: rest =>
    match rest.dropWhile isPyWs with
    | '[' :: r3 => some ("],[".toList, r3)
    | _ => none
  | _ => none

/-- Matcher for the number alternative of the value-terminator group:
optional minus, digits, optional fraction. -/
def mNumber (l : List Char) : Option (List Char × List Char) :=
  let (sign, l1) : List Char × List Char :=
    match l with
    | '-' :: rest => (['-'], rest)
    | _ => ([], l)
  let ds := l1.takeWhile Char.isDigit
  if ds = [] then none
  else
    let r1 := l1.dropWhile Char.isDigit
    match r1 with
    | '.' :: d :: _ =>
      if d.isDigit then
        let r2 := (r1.drop 1).dropWhile Char.isDigit
        some (sign ++ ds ++ '.' :: (r1.drop 1).takeWhile Char.isDigit, r2)
      else some (sign ++ ds, r1)
    | _ => some (sign ++ ds, r1)

/-- Matcher for the string-literal alternative: quote, non-special run,
escape pairs (the escaped character may not be a newline, as the regex dot
does not match one), closing quote. -/
def mStrLit (fuel : Nat) (l : List Char) : Option (List Char × List Char) :=
  match fuel with
  | 0 => none
  | fuel + 1 =>
    let seg := l.takeWhile (fun c => !(c = '"' || c = '\\'))
    match l.dropWhile (fun c => !(c = '"' || c = '\\')) with
    | '"' :: r2 => some (seg ++ ['"'], r2)
    | '\\' :: e :: r2 =>
      if e = '\n' then none
      else
        match mStrLit fuel r2 with
        | some (body, r3) => some (seg ++ '\\' :: e :: body, r3)
        | none => none
    | _ => none

/-- Group one of the value-then-quote pattern (line 295), alternatives in
regex order: true, false, null, number, close bracket, close brace,
string literal. -/
def matchG1 (l : List Char) : Option (List Char × List Char) :=
  if "true".toList.isPrefixOf l then some ("true".toList, l.drop 4)
  else if "false".toList.isPrefixOf l then some ("false".toList, l.drop 5)
  else if "null".toList.isPrefixOf l then some ("null".toList, l.drop 4)
  else
    match mNumber l with
    | some r => some r
    | none =>
      match l with
      | ']' :: rest => some ([']'], rest)
      | '}' :: rest => some (['}'], rest)
      | '"' :: rest =>
        match mStrLit (rest.length + 1) rest with
        | some (body, r2) => some ('"' :: body, r2)
        | none => none
      | _ => none

/-- Matcher for a value terminator followed by whitespace and a double
quote; the rewrite inserts a comma and keeps the quote, and scanning
continues after the quote, exactly as re.sub does since the quote belongs
to the matched span. -/
def mValueQuote (l : List Char) : Option (List Char × List Char) :=
  match matchG1 l with
  | some (g, r) =>
    match r.dropWhile isPyWs with
    | '"' :: r3 => some (g ++ [','] ++ ['"'], r3)
    | _ => none
  | none => none

/-- Matcher removing a comma (and the whitespace after it) directly before
a closing brace or bracket (line 299). -/
def mTrailingComma (l : List Char) : Option (List Char × List Char) :=
  match l with
  | ',' :: rest =>
    match rest.dropWhile isPyWs with
    | b :: r3 => if b = '}' ∨ b = ']' then some ([b], r3) else none
    | [] => none
  | _ => none

/-- Embedding of repair_common_json_issues (lines 290-300): the four
re.sub rewrites in source order. -/
def repair_common_json_issues (t : List Char) : List Char :=
  subAll mTrailingComma (subAll mValueQuote (subAll mBracketComma
    (subAll mBraceComma t)))

/-- Model of the regex word class at ASCII scope. -/
def isWordChar (c : Char) : Bool :=
  c.isAlpha || c.isDigit || c = '_'

/-- Number of consecutive copies of x at the head of l. -/
def countReps (x : List Char) : Nat → List Char → Nat
  | 0, _ => 0
  | fuel + 1, l =>
    if x ≠ [] ∧ x.isPrefixOf l then 1 + countReps x fuel (l.drop x.length)
    else 0

/-- Try the corrupted-token pattern with a fixed group x at the head of l:
x, an underscore, then at least three consecutive copies of x taken
greedily. -/
def mRepTokTry (l x : List Char) : Option (List Char × List Char) :=
  match l.drop x.length with
  | '_' :: tail =>
    let k := countReps x tail.length tail
    if 3 ≤ k then some (x, tail.drop (k * x.length)) else none
  | _ => none

/-- Backtrack over the group length, longest first, as the greedy word-run
group of the regex engine does. -/
def mRepTokLen (l : List Char) : Nat → Option (List Char × List Char)
  | 0 => none
  | n + 1 =>
    match mRepTokTry l (l.take (n + 1)) with
    | some r => some r
    | none => mRepTokLen l n

/-- Matcher for the corrupted-repeated-token pattern of line 338: a word
run, an underscore, then the same run repeated three or more times with no
separator, replaced by the run alone. -/
def mRepTok (l : List Char) : Option (List Char × List Char) :=
  let run := l.takeWhile isWordChar
  if run = [] then none else mRepTokLen l run.length

/-- Replace every occurrence of a non-empty literal pattern. -/
def replaceSub (l pat rep : List Char) : List Char :=
  if pat = [] then l
  else subAll (fun s => if pat.isPrefixOf s then some (rep, s.drop pat.length)
    else none) l

/-- Count occurrences of a character, modeling str.count. -/
def countChar (l : List Char) (c : Char) : Nat :=
  (l.filter (fun a => a = c)).length

/-- Embedding of validate_and_repair_json (lines 332-352): raise on empty
text, collapse corrupted repeated tokens, replace unresolved template
placeholders by quoted sentinels, then append the close-brace deficit. -/
def validate_and_repair_json (t : List Char) : Except (List Char) (List Char) :=
  if t = [] then .error ("Empty response text".toList)
  else
    let t1 := subAll mRepTok t
    let t2 := replaceSub t1 "{table_name}".toList "\"unknown_table\"".toList
    let t3 := replaceSub t2 "{column_name}".toList "\"unknown_column\"".toList
    let ob := countChar t3 '{'
    let cb := countChar t3 '}'
    .ok (if cb < ob then t3 ++ List.replicate (ob - cb) '}' else t3)

/-- Whether a character terminates a line for str.splitlines; the \x85 and
the u2028 and u2029 separators are included, and a carriage return followed
by a newline is handled as one break by the splitter itself. -/
def isLineTerm (c : Char) : Bool :=
  c = '\n' || c = '\r' || c = '\x0b' || c = '\x0c' || c = '\x1c' ||
  c = '\x1d' || c = '\x1e' || c = '\x85' || c = '\u2028' || c = '\u2029'

/-- Model of str.splitlines: split on line terminators, treating a carriage
return followed by a newline as one break, with no trailing empty line. -/
def splitLinesGo (fuel : Nat) (l : List Char) (acc : List Char) :
    List (List Char) :=
  match fuel with
  | 0 => if acc = [] then [] else [acc.reverse]
  | fuel + 1 =>
    match l with
    | [] => if acc = [] then [] else [acc.reverse]
    | c :: rest =>
      if c = '\r' then
        match rest with
        | '\n' :: r2 => acc.reverse :: splitLinesGo fuel r2 []
        | _ => acc.reverse :: splitLinesGo fuel rest []
      else if isLineTerm c then acc.reverse :: splitLinesGo fuel rest []
      else splitLinesGo fuel rest (c :: acc)

def splitLinesPy (l : List Char) : List (List Char) :=
  splitLinesGo (l.length + 1) l []

/-- Whether the pattern occurs anywhere in the text (Python in operator). -/
def containsSub (l pat : List Char) : Bool :=
  match l with
  | [] => pat.isPrefixOf []
  | _ :: rest => pat.isPrefixOf l || containsSub rest pat

/-- Suffix after the first occurrence of the pattern (the text itself when
the pattern does not occur; callers establish occurrence first). -/
def afterSub (l pat : List Char) : List Char :=
  match l with
  | [] => []
  | _ :: rest => if pat.isPrefixOf l then l.drop pat.length else afterSub rest pat

/-- Prefix before the first occurrence of the pattern (the whole text when
the pattern does not occur), modeling split-then-take-first. -/
def takeUntilSub (l pat : List Char) : List Char :=
  match l with
  | [] => []
  | c :: rest => if pat.isPrefixOf l then [] else c :: takeUntilSub rest pat

/-- The noise line markers of line 382. -/
def noiseMarkers : List (List Char) :=
  ["Number of tokens".toList, "Model response:".toList,
   "exceeded maximum context".toList]

/-- The minimal last-resort structure returned when both strict parses fail
(lines 411-416). -/
def errorTable (msg : List Char) : JsonV :=
  .obj [("label".toList, .str ("error_table".toList)),
        ("columns".toList, .arr []),
        ("suggested_relationships".toList, .arr []),
        ("error".toList, .str ("Failed to parse JSON: ".toList ++ msg))]

/-- Cleaning and pre-repair prefix of parse_model_json_response
(lines 356-391): strip, unescape underscores, unwrap a double-encoded JSON
string, strip markdown fences, fix the two known line-join corruptions,
drop noise lines, then run validate_and_repair_json with its error
swallowed.  The token-limit check of lines 359-360 only logs. -/
def cleanedPre (raw : List Char) : List Char :=
  let text := pyStripWs raw
  let text := replaceSub text "\\_".toList "_".toList
  let text :=
    if text.head? = some '"' ∧ containsSub text ("\\\"".toList) then
      match pyJsonLoads text with
      | .ok (.str s) => s
      | _ => text
    else text
  let text :=
    if containsSub text ("```json".toList) then
      pyStripWs (takeUntilSub (afterSub text ("```json".toList)) ("```".toList))
    else if containsSub text ("```".toList) then
      pyStripWs (takeUntilSub (afterSub text ("```".toList)) ("```".toList))
    else text
  let text := replaceSub text "\x7d\n    \x7b".toList "\x7d,\n    \x7b".toList
  let text := replaceSub text "]\n   \x7d".toList "]\n  \x7d".toList
  let kept := (splitLinesPy text).filter
    (fun ln => !(noiseMarkers.any (fun p => p.isPrefixOf (pyStripWs ln))))
  let text := pyStripWs (List.intercalate ['\n'] kept)
  match validate_and_repair_json text with
  | .ok t2 => t2
  | .error _ => text

/-- Array-head unwrap of lines 396-398: prefer the first object of an
array-shaped candidate when present and non-empty (the truthiness test of
the source). -/
def unwrapCand (cand : List Char) : List Char :=
  match extract_first_json_object_from_array cand with
  | some o => if o = [] then cand else o
  | none => cand

/-- Embedding of parse_model_json_response (lines 354-416).  The one raise
is the JSONDecodeError with message No JSON object found; every other path
returns a value, with the last-resort errorTable when the strict parse and
the single post-repair strict parse both fail. -/
def parse_model_json_response (raw : List Char) : Except (List Char) JsonV :=
  match extract_first_json_value (cleanedPre raw) with
  | none => .error ("No JSON object found".toList)
  | some cand =>
    match pyJsonLoads (unwrapCand cand) with
    | .ok v => .ok v
    | .error _ =>
      match pyJsonLoads (repair_common_json_issues (unwrapCand cand)) with
      | .ok v => .ok v
      | .error e2 => .ok (errorTable e2)

/-- Claim C1: parse_model_json_response raises its NoJsonFound signal (the
JSONDecodeError message No JSON object found) exactly when the balanced
scanner finds no candidate in the cleaned, pre-repaired text; every other
input yields a returned value; and when the strict parse and the single
post-repair strict parse both fail, the returned value is the last-resort
structure with label error_table, empty columns, empty
suggested_relationships and a non-empty error string. -/
instance {ε α : Type} [DecidableEq ε] [DecidableEq α] :
    DecidableEq (Except ε α) := fun a b =>
  match a, b with
  | .ok x, .ok y =>
    if h : x = y then .isTrue (by rw [h]) else .isFalse (fun he => h (by injection he))
  | .error x, .error y =>
    if h : x = y then .isTrue (by rw [h]) else .isFalse (fun he => h (by injection he))
  | .ok _, .error _ => .isFalse Except.noConfusion
  | .error _, .ok _ => .isFalse Except.noConfusion

/-! Schema normalizer: embedding of infer_table_label_from_prompt,
extract_schema_table_names, normalize_column_type and
normalize_table_result (lines 323-329, 427-463 and 466-640). -/

def isAsciiWordStart (c : Char) : Bool :=
  ('a' ≤ c && c ≤ 'z') || ('A' ≤ c && c ≤ 'Z') || c = '_'

def isAsciiWordChar (c : Char) : Bool :=
  isAsciiWordStart c || c.isDigit

/-- Case-insensitive literal prefix test; the pattern is given lowercase. -/
def isPrefixCI (pat l : List Char) : Bool :=
  lowerL (l.take pat.length) = pat

/-- One match attempt of the label pattern: a word run starting with a
letter or underscore, mandatory whitespace, then the word table,
case-insensitively.  The greedy run cannot backtrack usefully because a
shorter run would leave a word character where whitespace is required. -/
def inferMatchAt (l : List Char) : Option (List Char) :=
  match l with
  | [] => none
  | c :: _ =>
    if isAsciiWordStart c then
      let run := l.takeWhile isAsciiWordChar
      let r1 := l.drop run.length
      let ws := r1.takeWhile isPyWs
      if ws = [] then none
      else if isPrefixCI ("table".toList) (r1.drop ws.length) then some run
      else none
    else none

/-- Leftmost-match search, one position at a time, as re.search does. -/
def searchGo (f : List Char → Option (List Char)) : List Char → Option (List Char)
  | [] => none
  | l@(_ :: rest) =>
    match f l with
    | some r => some r
    | none => searchGo f rest

/-- Embedding of infer_table_label_from_prompt (lines 323-329). -/
def infer_table_label_from_prompt (prompt : List Char) : List Char :=
  if prompt = [] then "generated_table".toList
  else
    match searchGo inferMatchAt prompt with
    | some g => lowerL (pyStripWs g)
    | none => "generated_table".toList

/-- One line of extract_schema_table_names: leading whitespace, the word
Table case-insensitively, mandatory whitespace, a non-empty run of
non-colon characters, then a colon; the captured run is sanitized. -/
def lineTableName (ln : List Char) : Option (List Char) :=
  let r1 := ln.dropWhile isPyWs
  if isPrefixCI ("table".toList) r1 then
    let r2 := r1.drop 5
    let ws := r2.takeWhile isPyWs
    if ws = [] then none
    else
      let r3 := r2.drop ws.length
      let g := r3.takeWhile (fun c => !(c = ':'))
      if g = [] then none
      else
        match r3.drop g.length with
        | ':' :: _ => some (sanitize_identifier g)
        | _ => none
  else none

/-- Embedding of extract_schema_table_names (lines 455-463). -/
def extract_schema_table_names (schema : List Char) : List (List Char) :=
  if schema = [] then []
  else (splitLinesPy schema).filterMap lineTableName

/-- Embedding of normalize_column_type (lines 427-452): strip, default
empty to varchar(255), canonicalize known lowercase names, pass anything
else through unchanged in its original case. -/
def normalize_column_type (raw : List Char) : List Char :=
  let t := pyStripWs raw
  if t = [] then "varchar(255)".toList
  else
    let tl := lowerL t
    if tl = "int".toList then "int".toList
    else if tl = "integer".toList then "int".toList
    else if tl = "bigint".toList then "bigint".toList
    else if tl = "smallint".toList then "smallint".toList
    else if tl = "uuid".toList then "uuid".toList
    else if tl = "text".toList then "text".toList
    else if tl = "string".toList then "varchar(255)".toList
    else if tl = "varchar".toList then "varchar(255)".toList
    else if tl = "bool".toList then "boolean".toList
    else if tl = "boolean".toList then "boolean".toList
    else if tl = "datetime".toList then "timestamp".toList
    else if tl = "timestamp".toList then "timestamp".toList
    else if tl = "date".toList then "date".toList
    else if tl = "float".toList then "float".toList
    else if tl = "double".toList then "double".toList
    else if tl = "decimal".toList then "decimal(10,2)".toList
    else t

/-- Occurrence counter map used for name and id de-duplication: bump the
count for a key and return the new count. -/
def bumpCount (m : List (List Char × Nat)) (k : List Char) :
    Nat × List (List Char × Nat) :=
  match m with
  | [] => (1, [(k, 1)])
  | (k1, n) :: rest =>
    if k1 = k then (n + 1, (k1, n + 1) :: rest)
    else
      let r := bumpCount rest k
      (r.1, (k1, n) :: r.2)

/-- Collision suffixing of lines 492-493 and 498-499: append an underscore
and the occurrence count when it exceeds one. -/
def suffixIf (base : List Char) (n : Nat) : List Char :=
  if 1 < n then base ++ '_' :: natStr n else base

/-- The sanitized base name of a column before de-duplication: name, then
id, then the positional fallback, first truthy value (lines 489-490). -/
def colNameBase (idx : Nat) (col : List (List Char × JsonV)) : List Char :=
  sanitize_identifier (pyStr (pyOrO (lookupJ col ("name".toList))
    (pyOrO (lookupJ col ("id".toList)) (.str ("column_".toList ++ natStr (idx + 1))))))

/-- The sanitized base id of a column before de-duplication, falling back
to the already de-duplicated name (lines 495-496). -/
def colIdBase (name : List Char) (col : List (List Char × JsonV)) : List Char :=
  sanitize_identifier (pyStr (pyOrO (lookupJ col ("id".toList)) (.str name)))

/-- Foreign-key reference inference of lines 520-526: when the column is a
foreign key without a truthy referencedTable and tables were parsed from
the schema, probe the de-suffixed name and its plural forms against the
table list, setting referencedTable and defaulting referencedColumn. -/
def fkRefFill (tables : List (List Char)) (name : List Char) (is_fk : Bool)
    (normalized : List (List Char × JsonV)) : List (List Char × JsonV) :=
  if is_fk && !(pyTruthyO (lookupJ normalized ("referencedTable".toList)))
      && !(tables = []) then
    let base := sanitize_identifier (name.take (name.length - 3))
    match [base, base ++ "s".toList, base ++ "es".toList].find?
        (fun c => decide (c ∈ tables)) with
    | some ref =>
      let n1 := setJ normalized ("referencedTable".toList) (.str ref)
      let rc := pyOrO (lookupJ n1 ("referencedColumn".toList)) (.str ("id".toList))
      setJ n1 ("referencedColumn".toList) rc
    | none => normalized
  else normalized

/-- The candidate list probed by the reference fill (lines 521-524): the
de-suffixed sanitized name and its plural forms, first member of the
table list. -/
def fkProbe (tables : List (List Char)) (name : List Char) :
    Option (List Char) :=
  let base := sanitize_identifier (name.take (name.length - 3))
  [base, base ++ "s".toList, base ++ "es".toList].find?
    (fun c => decide (c ∈ tables))

/-- Whether a normalized column qualifies for relationship synthesis
(lines 620-625): a truthy isForeignKey and a truthy referencedTable. -/
def synthQual (c : JsonV) : Bool :=
  match c with
  | .obj kvs => pyTruthyO (lookupJ kvs ("isForeignKey".toList))
      && pyTruthyO (lookupJ kvs ("referencedTable".toList))
  | _ => false

/-- Normalization of one mapping column (lines 489-528). -/
def normOneCol (tables : List (List Char)) (idx : Nat)
    (col : List (List Char × JsonV)) (un ui : List (List Char × Nat)) :
    JsonV × List (List Char × Nat) × List (List Char × Nat) :=
  let name0 := colNameBase idx col
  let r1 := bumpCount un name0
  let name := suffixIf name0 r1.1
  let id0 := colIdBase name col
  let r2 := bumpCount ui id0
  let colId := suffixIf id0 r2.1
  let is_pk := pyTruthyO (lookupJ col ("isPrimaryKey".toList))
  let inferred_fk := ("_id".toList.isSuffixOf name) && !(name = "id".toList)
  let is_fk := match lookupJ col ("isForeignKey".toList) with
    | some v => pyTruthy v
    | none => inferred_fk
  let nullable_default := !(is_pk || is_fk)
  let is_nullable0 := match lookupJ col ("isNullable".toList) with
    | some v => pyTruthy v
    | none => nullable_default
  let is_nullable := if is_pk then false else is_nullable0
  let typeV := match lookupJ col ("type".toList) with
    | some v => v
    | none => .str []
  let normalized := mergeJ col
    [("id".toList, .str colId), ("name".toList, .str name),
     ("type".toList, .str (normalize_column_type (pyStr typeV))),
     ("isPrimaryKey".toList, .bool is_pk),
     ("isForeignKey".toList, .bool is_fk),
     ("isNullable".toList, .bool is_nullable)]
  (.obj (fkRefFill tables name is_fk normalized), r1.2, r2.2)

/-- Column loop of lines 485-528: non-mapping entries are skipped, the
enumerate index advances for every entry. -/
def normColsGo (tables : List (List Char)) :
    Nat → List (List Char × Nat) → List (List Char × Nat) → List JsonV →
    List JsonV
  | _, _, _, [] => []
  | idx, un, ui, col :: rest =>
    match col with
    | .obj kvs =>
      let r := normOneCol tables idx kvs un ui
      r.1 :: normColsGo tables (idx + 1) r.2.1 r.2.2 rest
    | _ => normColsGo tables (idx + 1) un ui rest

/-- The name value of a normalized column (always a string by
construction; the empty default can never equal a constructed name). -/
def colNameStr (c : JsonV) : List Char :=
  match pyGet c ("name".toList) with
  | some (.str s) => s
  | _ => []

/-- The id value of a normalized column. -/
def colIdStr (c : JsonV) : List Char :=
  match pyGet c ("id".toList) with
  | some (.str s) => s
  | _ => []

/-- Whether a column value carries a truthy isPrimaryKey entry (the
predicate of lines 533 and 501). -/
def pkPred (c : JsonV) : Bool :=
  pyTruthyO (pyGet c ("isPrimaryKey".toList))

/-- The while loops of lines 537-543 and 566-568: advance through
generated candidates until one is free of the used set.  The fuel is
chosen beyond the pigeonhole bound, so the loop always exits on a fresh
candidate. -/
def whileFresh (mk : Nat → List Char) (used : List (List Char)) :
    Nat → List Char → Nat → List Char
  | 0, cur, _ => cur
  | fuel + 1, cur, suffix =>
    if decide (cur ∈ used) then whileFresh mk used fuel (mk suffix) (suffix + 1)
    else cur

/-- The primary-key column inserted at the front (lines 545-555). -/
def mkPkCol (pk_id pk_name : List Char) : JsonV :=
  .obj [("id".toList, .str pk_id), ("name".toList, .str pk_name),
        ("type".toList, .str ("uuid".toList)),
        ("isPrimaryKey".toList, .bool true),
        ("isForeignKey".toList, .bool false),
        ("isNullable".toList, .bool false)]

/-- A timestamp column appended at the back (line 569). -/
def mkTsCol (ts_id ts_name : List Char) : JsonV :=
  .obj [("id".toList, .str ts_id), ("name".toList, .str ts_name),
        ("type".toList, .str ("timestamp".toList)),
        ("isPrimaryKey".toList, .bool false),
        ("isForeignKey".toList, .bool false),
        ("isNullable".toList, .bool false)]

/-- The fresh timestamp id chosen by the loop of lines 566-568. -/
def tsFreshId (ts_name : List Char) (ids : List (List Char)) : List Char :=
  whileFresh (fun s => ts_name ++ '_' :: natStr s) ids (ids.length + 2) ts_name 2

/-- One timestamp name of the loop at lines 561-571. -/
def tsStep (ts_name : List Char)
    (st : List JsonV × List (List Char) × List (List Char)) :
    List JsonV × List (List Char) × List (List Char) :=
  if decide (ts_name ∈ st.2.1) then st
  else
    (st.1 ++ [mkTsCol (tsFreshId ts_name st.2.2) ts_name],
     st.2.1 ++ [ts_name], st.2.2 ++ [tsFreshId ts_name st.2.2])

/-- The relationship 5-tuple key. -/
def RelKey : Type :=
  List Char × List Char × List Char × List Char × List Char

instance : DecidableEq RelKey := by
  unfold RelKey
  infer_instance

/-- Truthiness of the five required suggestion fields (lines 589-590). -/
def relCond (kvs : List (List Char × JsonV)) : Bool :=
  pyTruthyO (lookupJ kvs ("from_table".toList))
    && pyTruthyO (lookupJ kvs ("from_column".toList))
    && pyTruthyO (lookupJ kvs ("to_table".toList))
    && pyTruthyO (lookupJ kvs ("to_column".toList))
    && pyTruthyO (lookupJ kvs ("relationship_type".toList))

/-- The sanitized 5-tuple key of a suggestion (lines 591-597). -/
def relKeyOf (kvs : List (List Char × JsonV)) : RelKey :=
  (sanitize_identifier (pyStr ((lookupJ kvs ("from_table".toList)).getD .null)),
   sanitize_identifier (pyStr ((lookupJ kvs ("from_column".toList)).getD .null)),
   sanitize_identifier (pyStr ((lookupJ kvs ("to_table".toList)).getD .null)),
   sanitize_identifier (pyStr ((lookupJ kvs ("to_column".toList)).getD .null)),
   lowerL (pyStr ((lookupJ kvs ("relationship_type".toList)).getD .null)))

/-- The normalized confidence of a suggestion (line 607). -/
def relConf (kvs : List (List Char × JsonV)) : List Char :=
  match lookupJ kvs ("confidence".toList) with
  | some v => if pyTruthy v then lowerL (pyStr v) else "medium".toList
  | none => "medium".toList

/-- The normalized reason of a suggestion (line 608). -/
def relRsn (kvs : List (List Char × JsonV)) : List Char :=
  match lookupJ kvs ("reason".toList) with
  | some v => if pyTruthy v then pyStr v else "Inferred relationship".toList
  | none => "Inferred relationship".toList

/-- The normalized suggestion entry (lines 601-609). -/
def relEntry (kvs : List (List Char × JsonV)) : JsonV :=
  .obj [("from_table".toList, .str (relKeyOf kvs).1),
    ("from_column".toList, .str (relKeyOf kvs).2.1),
    ("to_table".toList, .str (relKeyOf kvs).2.2.1),
    ("to_column".toList, .str (relKeyOf kvs).2.2.2.1),
    ("relationship_type".toList, .str (relKeyOf kvs).2.2.2.2),
    ("confidence".toList, .str (relConf kvs)),
    ("reason".toList, .str (relRsn kvs))]

/-- The 5-tuple key a relationship entry re-normalizes to. -/
def entryKey (e : JsonV) : RelKey :=
  match e with
  | .obj kvs => relKeyOf kvs
  | _ => ([], [], [], [], [])

/-- Canonical shape of an emitted relationship entry: the seven fixed keys
in order, with sanitizer-fixed nonempty endpoints, lowercase-fixed nonempty
type and confidence, and a nonempty reason. -/
def canonRel (e : JsonV) : Prop :=
  ∃ a b c d t f g, e = JsonV.obj [("from_table".toList, .str a),
      ("from_column".toList, .str b), ("to_table".toList, .str c),
      ("to_column".toList, .str d), ("relationship_type".toList, .str t),
      ("confidence".toList, .str f), ("reason".toList, .str g)]
    ∧ ¬ (a = []) ∧ sanitize_identifier a = a
    ∧ ¬ (b = []) ∧ sanitize_identifier b = b
    ∧ ¬ (c = []) ∧ sanitize_identifier c = c
    ∧ ¬ (d = []) ∧ sanitize_identifier d = d
    ∧ ¬ (t = []) ∧ lowerL t = t
    ∧ ¬ (f = []) ∧ lowerL f = f
    ∧ ¬ (g = [])

/-- Relationship loop of lines 578-612: keep suggestions whose five
required fields are all truthy, sanitize them, and de-duplicate on the
5-tuple key. -/
def normRelsGo (acc : List JsonV) (keys : List RelKey) :
    List JsonV → List JsonV × List RelKey
  | [] => (acc, keys)
  | s :: rest =>
    match s with
    | .obj kvs =>
      if relCond kvs then
        if decide (relKeyOf kvs ∈ keys) then normRelsGo acc keys rest
        else normRelsGo (acc ++ [relEntry kvs]) (keys ++ [relKeyOf kvs]) rest
      else normRelsGo acc keys rest
    | _ => normRelsGo acc keys rest

/-- The from-column of a synthesized relationship (lines 626 and 631). -/
def synthFromCol (kvs : List (List Char × JsonV)) : List Char :=
  sanitize_identifier (pyStr (pyOrO (lookupJ kvs ("name".toList))
    (pyOrO (lookupJ kvs ("id".toList)) (.str []))))

/-- The 5-tuple key of a synthesized relationship (line 626). -/
def synthKey (tl2 : List Char) (kvs : List (List Char × JsonV)) : RelKey :=
  (tl2, synthFromCol kvs,
   sanitize_identifier (pyStr ((lookupJ kvs ("referencedTable".toList)).getD .null)),
   sanitize_identifier (pyStr (pyOrO (lookupJ kvs ("referencedColumn".toList))
     (.str ("id".toList)))),
   "one_to_many".toList)

/-- A synthesized relationship entry (lines 629-637). -/
def synthEntry (tl2 : List Char) (kvs : List (List Char × JsonV)) : JsonV :=
  .obj [("from_table".toList, .str tl2),
    ("from_column".toList, .str (synthFromCol kvs)),
    ("to_table".toList, .str (synthKey tl2 kvs).2.2.1),
    ("to_column".toList, .str (synthKey tl2 kvs).2.2.2.1),
    ("relationship_type".toList, .str ("one_to_many".toList)),
    ("confidence".toList, .str ("medium".toList)),
    ("reason".toList,
      .str ("Inferred from *_id column pattern and existing schema".toList))]

/-- Synthesis loop of lines 614-637: one relationship per foreign-key
column with a truthy referencedTable, de-duplicated against the key set. -/
def synthRelsGo (tl2 : List Char) (acc : List JsonV) (keys : List RelKey) :
    List JsonV → List JsonV
  | [] => acc
  | col :: rest =>
    match col with
    | .obj kvs =>
      if pyTruthyO (lookupJ kvs ("isForeignKey".toList)) then
        if pyTruthyO (lookupJ kvs ("referencedTable".toList)) then
          if decide (synthKey tl2 kvs ∈ keys) then synthRelsGo tl2 acc keys rest
          else synthRelsGo tl2 (acc ++ [synthEntry tl2 kvs])
            (keys ++ [synthKey tl2 kvs]) rest
        else synthRelsGo tl2 acc keys rest
      else synthRelsGo tl2 acc keys rest
    | _ => synthRelsGo tl2 acc keys rest

/-- The dict entries normalize_table_result works on, after the
list-head and non-dict coercions of lines 467-470. -/
def coerceKvs (result0 : JsonV) : List (List Char × JsonV) :=
  match (match result0 with
    | .arr xs => (match xs with | x :: _ => x | [] => .obj [])
    | v => v) with
  | .obj kvs => kvs
  | _ => []

/-- The resolved table label of lines 472-473. -/
def tableLabelOf (result0 : JsonV) (prompt : List Char) : List Char :=
  match lookupJ (coerceKvs result0) ("label".toList) with
  | some lv =>
    if pyTruthy lv then sanitize_identifier (pyStr lv)
    else infer_table_label_from_prompt prompt
  | none => infer_table_label_from_prompt prompt

/-- The fresh primary-key name or id chosen by the loops of lines
533-543. -/
def pkFreshName (used : List (List Char)) : List Char :=
  whileFresh (fun s => "id_pk_".toList ++ natStr s) used (used.length + 2)
    (if decide (("id".toList) ∈ used) then "id_pk".toList else "id".toList) 2

/-- Primary-key insertion of lines 530-557, on the normalized column list
together with the name and id sets. -/
def pkInsert (ncols : List JsonV) :
    List JsonV × List (List Char) × List (List Char) :=
  if ncols.any pkPred then
    (ncols, ncols.map colNameStr, ncols.map colIdStr)
  else
    (mkPkCol (pkFreshName (ncols.map colIdStr)) (pkFreshName (ncols.map colNameStr))
       :: ncols,
     ncols.map colNameStr ++ [pkFreshName (ncols.map colNameStr)],
     ncols.map colIdStr ++ [pkFreshName (ncols.map colIdStr)])

/-- Timestamp injection of lines 559-571, guarded by the opt-out phrases. -/
def tsInsert (prompt : List Char)
    (st : List JsonV × List (List Char) × List (List Char)) :
    List JsonV × List (List Char) × List (List Char) :=
  if !(containsSub (lowerL prompt) ("no timestamp".toList))
      && !(containsSub (lowerL prompt) ("without timestamp".toList)) then
    tsStep ("updated_at".toList) (tsStep ("created_at".toList) st)
  else st

/-- The column list read out of the coerced value after the label write of
line 474 (which cannot affect the columns key). -/
def colsIn (result0 : JsonV) (prompt : List Char) : List JsonV :=
  match lookupJ (setJ (coerceKvs result0) ("label".toList)
      (.str (tableLabelOf result0 prompt))) ("columns".toList) with
  | some (.arr xs) => xs
  | _ => []

/-- The fully normalized column list of a request. -/
def finalColumns (result0 : JsonV) (prompt cur_schema : List Char) :
    List JsonV :=
  (tsInsert prompt (pkInsert
    (normColsGo (extract_schema_table_names cur_schema) 0 [] []
      (colsIn result0 prompt)))).1

/-- The suggestion list read at line 578, after the label and columns
writes of lines 474 and 573 (which cannot affect this key). -/
def suggIn (result0 : JsonV) (prompt cur_schema : List Char) : List JsonV :=
  match lookupJ (setJ (setJ (coerceKvs result0) ("label".toList)
      (.str (tableLabelOf result0 prompt))) ("columns".toList)
      (.arr (finalColumns result0 prompt cur_schema)))
      ("suggested_relationships".toList) with
  | some (.arr xs) => xs
  | _ => []

/-- The synthesis-time table label of line 615. -/
def tl2Of (result0 : JsonV) (prompt cur_schema : List Char) : List Char :=
  sanitize_identifier (pyStr (pyOrO (lookupJ (setJ (setJ (coerceKvs result0)
    ("label".toList) (.str (tableLabelOf result0 prompt))) ("columns".toList)
    (.arr (finalColumns result0 prompt cur_schema))) ("label".toList))
    (.str (infer_table_label_from_prompt prompt))))

/-- The final suggested-relationships list of lines 578-639: the kept
suggestions, or the synthesized relationships when none survive. -/
def finalSugs (result0 : JsonV) (prompt cur_schema : List Char) : List JsonV :=
  if (normRelsGo [] [] (suggIn result0 prompt cur_schema)).1 = [] then
    synthRelsGo (tl2Of result0 prompt cur_schema) []
      (normRelsGo [] [] (suggIn result0 prompt cur_schema)).2
      (finalColumns result0 prompt cur_schema)
  else (normRelsGo [] [] (suggIn result0 prompt cur_schema)).1

/-- Embedding of normalize_table_result (lines 466-640). -/
def normalize_table_result (result0 : JsonV) (prompt cur_schema : List Char) :
    JsonV :=
  .obj (setJ (setJ (setJ (coerceKvs result0) ("label".toList)
    (.str (tableLabelOf result0 prompt))) ("columns".toList)
    (.arr (finalColumns result0 prompt cur_schema)))
    ("suggested_relationships".toList)
    (.arr (finalSugs result0 prompt cur_schema)))

/-- The columns list of a normalized table value. -/
def columnsOf (t : JsonV) : List JsonV :=
  match pyGet t ("columns".toList) with
  | some (.arr xs) => xs
  | _ => []

/-- The suggested relationships list of a normalized table value. -/
def relsOf (t : JsonV) : List JsonV :=
  match pyGet t ("suggested_relationships".toList) with
  | some (.arr xs) => xs
  | _ => []

/-- The supplied columns a decoded value carries into normalization: the
head of a list-shaped value, then its columns entry when it is a list. -/
def suppliedCols (result0 : JsonV) : List JsonV :=
  let result1 := match result0 with
    | .arr xs => (match xs with | x :: _ => x | [] => .obj [])
    | v => v
  match pyGet result1 ("columns".toList) with
  | some (.arr xs) => xs
  | _ => []

/-- Whether a supplied entry is a mapping column marked primary key under
the truthiness rule of line 501. -/
def isSuppliedPk (c : JsonV) : Bool :=
  match c with
  | .obj kvs => pyTruthyO (lookupJ kvs ("isPrimaryKey".toList))
  | _ => false

/-- Number of supplied mapping columns marked primary key. -/
def suppliedPkCount (result0 : JsonV) : Nat :=
  (suppliedCols result0).countP isSuppliedPk

/-- Number of columns of a normalized table marked primary key. -/
def pkCount (t : JsonV) : Nat :=
  (columnsOf t).countP pkPred

/-- Occurrence count held by a counter map, zero when absent. -/
def getCount (un : List (List Char × Nat)) (b : List Char) : Nat :=
  match un with
  | [] => 0
  | (k, n) :: rest => if k = b then n else getCount rest b

/-- Whether a string ends with an underscore followed by one or more
digits, the shape of generated collision suffixes. -/
def endsUD (s : List Char) : Bool :=
  !(s.reverse.takeWhile Char.isDigit = [])
    && ((s.reverse.drop (s.reverse.takeWhile Char.isDigit).length).head? = some '_')

/-- The raw model output of the claimed scenario. -/
def c7input : List Char :=
  "Here is the table: \x7b\"label\":\"Order\",\"columns\":[\x7b\"name\":\"user_id\"\x7d]\x7d".toList

/-- The decoded value of the scenario input. -/
def c7decoded : JsonV :=
  .obj [("label".toList, .str ("Order".toList)),
        ("columns".toList, .arr [.obj [("name".toList, .str ("user_id".toList))]])]

/-- The normalized scenario output. -/
def c7out : JsonV :=
  normalize_table_result c7decoded ("create orders table".toList)
    ("Table users:\n  id".toList)

/-- The normalized user_id foreign-key column of the scenario. -/
def c7fkcol : JsonV :=
  .obj [("name".toList, .str ("user_id".toList)),
        ("id".toList, .str ("user_id".toList)),
        ("type".toList, .str ("varchar(255)".toList)),
        ("isPrimaryKey".toList, .bool false),
        ("isForeignKey".toList, .bool true),
        ("isNullable".toList, .bool false),
        ("referencedTable".toList, .str ("users".toList)),
        ("referencedColumn".toList, .str ("id".toList))]

/-- The final de-duplicated name produced for one column. -/
def colFinalName (idx : Nat) (col : List (List Char × JsonV))
    (un : List (List Char × Nat)) : List Char :=
  suffixIf (colNameBase idx col) (bumpCount un (colNameBase idx col)).1

/-- The final de-duplicated id produced for one column. -/
def colFinalId (idx : Nat) (col : List (List Char × JsonV))
    (un ui : List (List Char × Nat)) : List Char :=
  suffixIf (colIdBase (colFinalName idx col un) col)
    (bumpCount ui (colIdBase (colFinalName idx col un) col)).1

/-- A supplied column value whose name resolution is positional-fallback
free and whose sanitized name base carries no trailing underscore-digit
suffix (non-mappings vacuously qualify). -/
def goodNameCol (c : JsonV) : Bool :=
  match c with
  | .obj col => (pyTruthyO (lookupJ col ("name".toList))
      || pyTruthyO (lookupJ col ("id".toList)))
      && !(endsUD (colNameBase 0 col))
  | _ => true

/-- A supplied column value carrying no truthy id entry. -/
def noIdCol (c : JsonV) : Bool :=
  match c with
  | .obj col => !(pyTruthyO (lookupJ col ("id".toList)))
  | _ => true

/-- A supplied column value carrying a truthy id entry whose sanitized id
base has no trailing underscore-digit suffix. -/
def goodIdCol (c : JsonV) : Bool :=
  match c with
  | .obj col => pyTruthyO (lookupJ col ("id".toList))
      && !(endsUD (colIdBase [] col))
  | _ => true

theorem squashWsGo_mem {c : Char} : ∀ (b : Bool) (l : List Char),
    c ∈ squashWsGo b l → c ∈ l ∨ c = '_' := by
  intro b l
  induction l generalizing b with
  | nil => simp [squashWsGo]
  | cons a rest ih =>
    intro h
    by_cases hw : isPyWs a
    · rcases b with _ | _
      · simp only [squashWsGo, hw, if_true, Bool.false_eq_true, if_false] at h
        rcases List.mem_cons.mp h with h1 | h2
        · right; exact h1
        · rcases ih true h2 with h3 | h3
          · left; exact List.mem_cons_of_mem _ h3
          · right; exact h3
      · simp only [squashWsGo, hw, if_true] at h
        rcases ih true h with h3 | h3
        · left; exact List.mem_cons_of_mem _ h3
        · right; exact h3
    · simp only [squashWsGo, hw, Bool.false_eq_true, if_false] at h
      rcases List.mem_cons.mp h with h1 | h2
      · left; simp [h1]
      · rcases ih false h2 with h3 | h3
        · left; exact List.mem_cons_of_mem _ h3
        · right; exact h3

theorem mapNonSan_all (l : List Char) : ∀ c ∈ mapNonSan l, isSanChar c = true := by
  intro c hc
  rcases List.mem_map.mp hc with ⟨a, _, ha⟩
  by_cases h : isSanChar a
  · rw [if_pos h] at ha; rw [← ha]; exact h
  · rw [if_neg h] at ha; rw [← ha]; rfl

theorem squashUsGo_mem {c : Char} : ∀ (b : Bool) (l : List Char),
    c ∈ squashUsGo b l → c ∈ l := by
  intro b l
  induction l generalizing b with
  | nil => simp [squashUsGo]
  | cons a rest ih =>
    intro h
    by_cases hu : a = '_'
    · rcases b with _ | _
      · simp only [squashUsGo, hu, if_pos rfl, Bool.false_eq_true, if_false] at h
        rcases List.mem_cons.mp h with h1 | h2
        · simp [hu, h1]
        · exact List.mem_cons_of_mem _ (ih true h2)
      · simp only [squashUsGo, hu, if_pos rfl, if_true] at h
        exact List.mem_cons_of_mem _ (ih true h)
    · simp only [squashUsGo, if_neg hu] at h
      rcases List.mem_cons.mp h with h1 | h2
      · simp [h1]
      · exact List.mem_cons_of_mem _ (ih false h2)

theorem squashUsGo_true_head : ∀ l : List Char,
    (squashUsGo true l).head? ≠ some '_' := by
  intro l
  induction l with
  | nil => simp [squashUsGo]
  | cons a rest ih =>
    by_cases hu : a = '_'
    · simpa [squashUsGo, hu] using ih
    · simp only [squashUsGo, if_neg hu, List.head?]
      intro h
      exact hu (by injection h)

theorem hasDoubleUs_cons_of (a : Char) (l : List Char)
    (h1 : a = '_' → l.head? ≠ some '_') (h2 : hasDoubleUs l = false) :
    hasDoubleUs (a :: l) = false := by
  cases l with
  | nil => rfl
  | cons b rest =>
    show (decide (a = '_') && decide (b = '_') || hasDoubleUs (b :: rest)) = false
    rw [h2, Bool.or_false]
    by_cases ha : a = '_'
    · have hh := h1 ha
      have hb : ¬ b = '_' := by
        intro hb
        exact hh (by simp [hb])
      simp [hb]
    · simp [ha]

theorem squashUsGo_noDouble : ∀ (l : List Char) (b : Bool),
    hasDoubleUs (squashUsGo b l) = false := by
  intro l
  induction l with
  | nil => intro b; rfl
  | cons a rest ih =>
    intro b
    by_cases hu : a = '_'
    · rcases b with _ | _
      · simp only [squashUsGo, hu, if_pos rfl, Bool.false_eq_true, if_false]
        exact hasDoubleUs_cons_of _ _ (fun _ => squashUsGo_true_head rest) (ih true)
      · simpa [squashUsGo, hu] using ih true
    · simp only [squashUsGo, if_neg hu]
      exact hasDoubleUs_cons_of _ _ (fun h => absurd h hu) (ih false)

theorem hasDoubleUs_tail (a : Char) (l : List Char)
    (h : hasDoubleUs (a :: l) = false) : hasDoubleUs l = false := by
  cases l with
  | nil => rfl
  | cons b rest =>
    have : (decide (a = '_') && decide (b = '_') || hasDoubleUs (b :: rest)) = false := h
    exact (Bool.or_eq_false_iff.mp this).2

theorem hasDoubleUs_dropWhile (p : Char → Bool) (l : List Char)
    (h : hasDoubleUs l = false) : hasDoubleUs (l.dropWhile p) = false := by
  induction l with
  | nil => exact h
  | cons a rest ih =>
    by_cases hp : p a
    · simpa [List.dropWhile, hp] using ih (hasDoubleUs_tail a rest h)
    · simpa [List.dropWhile, hp] using h

theorem hasDoubleUs_reverse (l : List Char) :
    hasDoubleUs l.reverse = hasDoubleUs l := by
  have key : ∀ (n : Nat) (l : List Char), l.length ≤ n →
      hasDoubleUs l.reverse = hasDoubleUs l := by
    intro n
    induction n with
    | zero =>
      intro l hl
      have : l = [] := List.length_eq_zero.mp (Nat.le_zero.mp hl)
      simp [this]
    | succ n ih =>
      intro l hl
      cases l with
      | nil => rfl
      | cons a rest =>
        cases rest with
        | nil => rfl
        | cons b rest2 =>
          have hsplit : (a :: b :: rest2).reverse
              = (b :: rest2).reverse ++ [a] := by simp
          rw [hsplit]
          have hrev : (b :: rest2).reverse ≠ [] := by simp
          -- hasDoubleUs over an append with a singleton
          have happ : ∀ (m : List Char), m ≠ [] →
              hasDoubleUs (m ++ [a])
                = (hasDoubleUs m || (decide (m.getLast? = some '_') && decide (a = '_'))) := by
            intro m
            induction m with
            | nil => intro h; exact absurd rfl h
            | cons x xs ihm =>
              intro _
              cases xs with
              | nil => simp [hasDoubleUs, List.getLast?, Bool.and_comm]
              | cons y ys =>
                have := ihm (by simp)
                show (decide (x = '_') && decide (y = '_')
                    || hasDoubleUs ((y :: ys) ++ [a])) = _
                rw [this]
                have hlast : ((x :: y :: ys) : List Char).getLast? = (y :: ys).getLast? := by
                  simp [List.getLast?_cons_cons]
                rw [hlast]
                show _ = ((decide (x = '_') && decide (y = '_') || hasDoubleUs (y :: ys)) || _)
                rw [Bool.or_assoc]
          rw [happ _ hrev]
          have h1 : hasDoubleUs (b :: rest2).reverse = hasDoubleUs (b :: rest2) := by
            apply ih
            simpa using Nat.le_of_succ_le_succ hl
          rw [h1]
          have h2 : ((b :: rest2).reverse : List Char).getLast? = some b := by
            rw [List.getLast?_reverse]
            rfl
          rw [h2]
          show _ = (decide (a = '_') && decide (b = '_') || hasDoubleUs (b :: rest2))
          rw [Bool.or_comm]
          congr 1
          simp [Bool.and_comm]
  exact key l.length l (Nat.le_refl _)

theorem head?_dropWhile (p : Char → Bool) (l : List Char) :
    ∀ c, (l.dropWhile p).head? = some c → p c = false := by
  induction l with
  | nil => intro c h; simp [List.dropWhile] at h
  | cons a rest ih =>
    intro c h
    by_cases hp : p a
    · rw [List.dropWhile_cons_of_pos hp] at h
      exact ih c h
    · rw [List.dropWhile_cons_of_neg hp] at h
      have : a = c := by injection h
      rw [← this]
      exact Bool.eq_false_iff.mpr hp

theorem getLast?_dropWhile (p : Char → Bool) (l : List Char)
    (h : l.dropWhile p ≠ []) : (l.dropWhile p).getLast? = l.getLast? := by
  induction l with
  | nil => simp [List.dropWhile] at h
  | cons a rest ih =>
    by_cases hp : p a
    · rw [List.dropWhile_cons_of_pos hp] at h ⊢
      have hrest : rest ≠ [] := by
        intro he; rw [he] at h; simp [List.dropWhile] at h
      cases rest with
      | nil => exact absurd rfl hrest
      | cons b r2 =>
        rw [List.getLast?_cons_cons]
        exact ih h
    · rw [List.dropWhile_cons_of_neg hp]

theorem mem_of_mem_dropWhile {c : Char} (p : Char → Bool) (l : List Char)
    (h : c ∈ l.dropWhile p) : c ∈ l := by
  induction l with
  | nil => simp [List.dropWhile] at h
  | cons a rest ih =>
    by_cases hp : p a
    · rw [List.dropWhile_cons_of_pos hp] at h
      exact List.mem_cons_of_mem _ (ih h)
    · rwa [List.dropWhile_cons_of_neg hp] at h

theorem stripUs_mem {c : Char} (l : List Char) (h : c ∈ stripUs l) : c ∈ l := by
  unfold stripUs at h
  rw [List.mem_reverse] at h
  have h2 := mem_of_mem_dropWhile _ _ h
  rw [List.mem_reverse] at h2
  exact mem_of_mem_dropWhile _ _ h2

theorem stripUs_noDouble (l : List Char) (h : hasDoubleUs l = false) :
    hasDoubleUs (stripUs l) = false := by
  unfold stripUs
  rw [hasDoubleUs_reverse]
  apply hasDoubleUs_dropWhile
  rw [hasDoubleUs_reverse]
  exact hasDoubleUs_dropWhile _ _ h

theorem stripUs_last (l : List Char) : (stripUs l).getLast? ≠ some '_' := by
  unfold stripUs
  rw [List.getLast?_reverse]
  intro h
  have := head?_dropWhile _ _ _ h
  simp at this

theorem stripUs_head (l : List Char) : (stripUs l).head? ≠ some '_' := by
  unfold stripUs
  rw [List.head?_reverse]
  intro h
  by_cases hy : ((l.dropWhile fun c => c = '_').reverse.dropWhile fun c => c = '_') = []
  · rw [hy] at h; simp at h
  · rw [getLast?_dropWhile _ _ hy, List.getLast?_reverse] at h
    have := head?_dropWhile _ _ _ h
    simp at this

theorem sanitizeCore_mem {c : Char} (l : List Char) (h : c ∈ sanitizeCore l) :
    isSanChar c = true := by
  unfold sanitizeCore at h
  have h2 := squashUsGo_mem _ _ (stripUs_mem _ h)
  exact mapNonSan_all _ _ h2

/-- Claim C9 (implicit): for every input string (including empty,
all-whitespace and all-punctuation strings), sanitize_identifier returns a
non-empty string whose characters are all in [a-z0-9_], with underscore runs
collapsed (no two adjacent underscores) and no leading or trailing
underscore; when sanitization leaves nothing, the fixed fallback identifier
"col" is returned. -/
theorem sanitize_identifier_spec (l : List Char) :
    sanitize_identifier l ≠ [] ∧
    (∀ c ∈ sanitize_identifier l, isSanChar c = true) ∧
    hasDoubleUs (sanitize_identifier l) = false ∧
    (sanitize_identifier l).head? ≠ some '_' ∧
    (sanitize_identifier l).getLast? ≠ some '_' ∧
    (sanitizeCore l = [] → sanitize_identifier l = "col".toList) := by
  unfold sanitize_identifier
  by_cases he : sanitizeCore l = []
  · rw [if_pos he]
    refine ⟨by decide, by decide, by decide, by decide, by decide, fun _ => rfl⟩
  · rw [if_neg he]
    refine ⟨he, fun c hc => sanitizeCore_mem l hc, ?_, ?_, ?_, fun hz => absurd hz he⟩
    · unfold sanitizeCore
      exact stripUs_noDouble _ (squashUsGo_noDouble _ _)
    · exact stripUs_head _
    · exact stripUs_last _

/-- Closed witness for sanitize_identifier_spec at a concrete all-punctuation
input, exercising the fallback branch. -/
theorem sanitize_identifier_spec_witness :
    sanitize_identifier ("  !? !".toList) = "col".toList :=
  (sanitize_identifier_spec ("  !? !".toList)).2.2.2.2.2 (by decide)

theorem toLower_sanChar {c : Char} (h : isSanChar c = true) : c.toLower = c := by
  unfold isSanChar at h
  rw [Char.toLower]
  have hv : ¬ (c.toNat ≥ 65 ∧ c.toNat ≤ 90) := by
    rcases Bool.or_eq_true_iff.mp h with h1 | h2
    · rcases Bool.or_eq_true_iff.mp h1 with ha | hd
      · have h3 := Bool.and_eq_true_iff.mp ha
        have l1 : ('a' : Char) ≤ c := of_decide_eq_true h3.1
        rw [Char.le_def] at l1
        have n1 : 97 ≤ c.toNat := l1
        omega
      · have h3 := Bool.and_eq_true_iff.mp hd
        have l2 : c ≤ ('9' : Char) := of_decide_eq_true h3.2
        rw [Char.le_def] at l2
        have n2 : c.toNat ≤ 57 := l2
        omega
    · have : c = '_' := of_decide_eq_true h2
      subst this
      decide
  exact if_neg hv

theorem sanChar_not_ws {c : Char} (h : isSanChar c = true) : isPyWs c = false := by
  unfold isSanChar at h
  unfold isPyWs
  rcases Bool.or_eq_true_iff.mp h with h1 | h2
  · rcases Bool.or_eq_true_iff.mp h1 with ha | hd
    · have h3 := Bool.and_eq_true_iff.mp ha
      have l1 : ('a' : Char) ≤ c := of_decide_eq_true h3.1
      rw [Char.le_def] at l1
      have n1 : 97 ≤ c.toNat := l1
      have : ∀ d : Char, d.toNat ≥ 97 →
          (d = ' ' || d = '\t' || d = '\n' || d = '\r' || d = '\x0b' || d = '\x0c') = false := by
        intro d hd2
        have hne : ∀ e : Char, e.toNat < 97 → d ≠ e := by
          intro e he hde; rw [hde] at hd2; omega
        simp [hne ' ' (by decide), hne '\t' (by decide), hne '\n' (by decide),
          hne '\r' (by decide), hne '\x0b' (by decide), hne '\x0c' (by decide)]
      exact this c n1
    · have h3 := Bool.and_eq_true_iff.mp hd
      have l1 : ('0' : Char) ≤ c := of_decide_eq_true h3.1
      rw [Char.le_def] at l1
      have n1 : 48 ≤ c.toNat := l1
      have hne : ∀ e : Char, e.toNat < 48 → c ≠ e := by
        intro e he hce; rw [hce] at n1; omega
      simp [hne ' ' (by decide), hne '\t' (by decide), hne '\n' (by decide),
        hne '\r' (by decide), hne '\x0b' (by decide), hne '\x0c' (by decide)]
  · have : c = '_' := of_decide_eq_true h2
    subst this
    decide

theorem dropWhile_eq_self_of_all (p : Char → Bool) (l : List Char)
    (h : ∀ c ∈ l, p c = false) : l.dropWhile p = l := by
  cases l with
  | nil => rfl
  | cons a rest =>
    exact List.dropWhile_cons_of_neg (by rw [h a (List.mem_cons_self a rest)]; simp)

theorem pyStripWs_eq_self (l : List Char) (h : ∀ c ∈ l, isPyWs c = false) :
    pyStripWs l = l := by
  unfold pyStripWs
  rw [dropWhile_eq_self_of_all _ _ h]
  rw [dropWhile_eq_self_of_all _ _ (fun c hc => h c (List.mem_reverse.mp hc))]
  exact List.reverse_reverse l

theorem squashWsGo_eq_self (l : List Char) (h : ∀ c ∈ l, isPyWs c = false) :
    ∀ b, squashWsGo b l = l := by
  induction l with
  | nil => intro b; rfl
  | cons a rest ih =>
    intro b
    have ha := h a (List.mem_cons_self a rest)
    simp only [squashWsGo, ha, Bool.false_eq_true, if_false]
    rw [ih (fun c hc => h c (List.mem_cons_of_mem _ hc)) false]

theorem map_eq_self_of (f : Char → Char) (l : List Char)
    (h : ∀ c ∈ l, f c = c) : l.map f = l := by
  induction l with
  | nil => rfl
  | cons a rest ih =>
    simp only [List.map_cons]
    rw [h a (List.mem_cons_self a rest),
      ih (fun c hc => h c (List.mem_cons_of_mem _ hc))]

theorem mapNonSan_eq_self (l : List Char) (h : ∀ c ∈ l, isSanChar c = true) :
    mapNonSan l = l := by
  unfold mapNonSan
  apply map_eq_self_of
  intro c hc
  rw [if_pos (h c hc)]

theorem squashUsGo_us_false (rest : List Char) :
    squashUsGo false ('_' :: rest) = '_' :: squashUsGo true rest := rfl

theorem squashUsGo_us_true (rest : List Char) :
    squashUsGo true ('_' :: rest) = squashUsGo true rest := rfl

theorem squashUsGo_eq_self (l : List Char) (h : hasDoubleUs l = false) :
    squashUsGo false l = l ∧ (l.head? ≠ some '_' → squashUsGo true l = l) := by
  induction l with
  | nil => exact ⟨rfl, fun _ => rfl⟩
  | cons a rest ih =>
    have ihr := ih (hasDoubleUs_tail a rest h)
    by_cases hu : a = '_'
    · subst hu
      have hhead : rest.head? ≠ some '_' := by
        cases rest with
        | nil => simp
        | cons b r2 =>
          have hb : ('_' = '_' && b = '_' || hasDoubleUs (b :: r2)) = false := h
          rcases Bool.or_eq_false_iff.mp hb with ⟨h1, _⟩
          simp only [List.head?_cons]
          intro hsb
          have : b = '_' := by injection hsb
          simp [this] at h1
      constructor
      · rw [squashUsGo_us_false, ihr.2 hhead]
      · intro hcontra
        exact (hcontra rfl).elim
    · constructor
      · simp only [squashUsGo, if_neg hu]
        rw [ihr.1]
      · intro _
        simp only [squashUsGo, if_neg hu]
        rw [ihr.1]

theorem stripUs_eq_self (l : List Char)
    (h1 : l.head? ≠ some '_') (h2 : l.getLast? ≠ some '_') : stripUs l = l := by
  unfold stripUs
  have d1 : l.dropWhile (fun c => c = '_') = l := by
    cases l with
    | nil => rfl
    | cons a rest =>
      apply List.dropWhile_cons_of_neg
      simp only [List.head?_cons] at h1
      simp only [decide_eq_true_eq]
      intro ha; exact h1 (by rw [ha])
  rw [d1]
  have d2 : l.reverse.dropWhile (fun c => c = '_') = l.reverse := by
    cases hrev : l.reverse with
    | nil => rfl
    | cons a rest =>
      apply List.dropWhile_cons_of_neg
      have : l.reverse.head? = some a := by rw [hrev]; rfl
      rw [List.head?_reverse] at this
      simp only [decide_eq_true_eq]
      intro ha
      rw [ha] at this
      exact h2 this
  rw [d2, List.reverse_reverse]

/-- A string satisfying the output characterization of the sanitizer is a
fixed point of sanitize_identifier. -/
theorem sanitize_eq_self (l : List Char) (hne : l ≠ [])
    (hall : ∀ c ∈ l, isSanChar c = true)
    (hdd : hasDoubleUs l = false)
    (hh : l.head? ≠ some '_') (hl : l.getLast? ≠ some '_') :
    sanitize_identifier l = l := by
  have hcore : sanitizeCore l = l := by
    unfold sanitizeCore
    rw [pyStripWs_eq_self l (fun c hc => sanChar_not_ws (hall c hc))]
    have hlow : lowerL l = l := by
      unfold lowerL
      exact map_eq_self_of _ _ (fun c hc => toLower_sanChar (hall c hc))
    rw [hlow]
    rw [squashWsGo_eq_self l (fun c hc => sanChar_not_ws (hall c hc)) false]
    rw [mapNonSan_eq_self l hall]
    rw [(squashUsGo_eq_self l hdd).1]
    exact stripUs_eq_self l hh hl
  unfold sanitize_identifier
  rw [hcore, if_neg hne]

/-- sanitize_identifier output satisfies the fixpoint characterization, hence
the sanitizer is idempotent. -/
theorem sanitize_idem (l : List Char) :
    sanitize_identifier (sanitize_identifier l) = sanitize_identifier l := by
  have h := sanitize_identifier_spec l
  exact sanitize_eq_self _ h.1 h.2.1 h.2.2.1 h.2.2.2.1 h.2.2.2.2.1

theorem char_eq_of_toNat_eq {a b : Char} (h : a.toNat = b.toNat) : a = b :=
  Char.eq_of_val_eq (UInt32.ext h)

theorem char_ne_of_toNat_ne {a b : Char} (h : a.toNat ≠ b.toNat) : a ≠ b :=
  fun he => h (congrArg Char.toNat he)

theorem scanNeutral_of_bounds {c : Char}
    (h : c.toNat ≠ 34 ∧ c.toNat ≠ 123 ∧ c.toNat ≠ 91 ∧ c.toNat ≠ 125 ∧ c.toNat ≠ 93) :
    scanNeutral c = true := by
  unfold scanNeutral
  have h1 : c ≠ '"' := char_ne_of_toNat_ne (by rw [show ('"' : Char).toNat = 34 from rfl]; exact h.1)
  have h2 : c ≠ '{' := char_ne_of_toNat_ne (by rw [show ('{' : Char).toNat = 123 from rfl]; exact h.2.1)
  have h3 : c ≠ '[' := char_ne_of_toNat_ne (by rw [show ('[' : Char).toNat = 91 from rfl]; exact h.2.2.1)
  have h4 : c ≠ '}' := char_ne_of_toNat_ne (by rw [show ('}' : Char).toNat = 125 from rfl]; exact h.2.2.2.1)
  have h5 : c ≠ ']' := char_ne_of_toNat_ne (by rw [show (']' : Char).toNat = 93 from rfl]; exact h.2.2.2.2)
  simp [h1, h2, h3, h4, h5]

theorem scanNeutral_of_numChar {c : Char} (h : numChar c = true) :
    scanNeutral c = true := by
  unfold numChar at h
  rcases Bool.or_eq_true_iff.mp h with h1 | hE
  · rcases Bool.or_eq_true_iff.mp h1 with h2 | he
    · rcases Bool.or_eq_true_iff.mp h2 with h3 | hdot
      · rcases Bool.or_eq_true_iff.mp h3 with h4 | hplus
        · rcases Bool.or_eq_true_iff.mp h4 with hdig | hminus
          · unfold Char.isDigit at hdig
            have hb := Bool.and_eq_true_iff.mp hdig
            have l1 : ('0' : Char) ≤ c := of_decide_eq_true hb.1
            have l2 : c ≤ ('9' : Char) := of_decide_eq_true hb.2
            rw [Char.le_def] at l1 l2
            have n1 : 48 ≤ c.toNat := l1
            have n2 : c.toNat ≤ 57 := l2
            exact scanNeutral_of_bounds (by omega)
          · rw [of_decide_eq_true hminus]; decide
        · rw [of_decide_eq_true hplus]; decide
      · rw [of_decide_eq_true hdot]; decide
    · rw [of_decide_eq_true he]; decide
  · rw [of_decide_eq_true hE]; decide

theorem scanNeutral_of_jsonWs {c : Char} (h : jsonWs c = true) :
    scanNeutral c = true := by
  unfold jsonWs at h
  rcases Bool.or_eq_true_iff.mp h with h1 | h4
  · rcases Bool.or_eq_true_iff.mp h1 with h2 | h3
    · rcases Bool.or_eq_true_iff.mp h2 with h5 | h6
      · rw [of_decide_eq_true h5]; decide
      · rw [of_decide_eq_true h6]; decide
    · rw [of_decide_eq_true h3]; decide
  · rw [of_decide_eq_true h4]; decide

theorem scanNeutral_spec {c : Char} (h : scanNeutral c = true) :
    ¬ c = '"' ∧ ¬ c = '{' ∧ ¬ c = '[' ∧ ¬ c = '}' ∧ ¬ c = ']' := by
  unfold scanNeutral at h
  simp only [Bool.not_eq_eq_eq_not, Bool.not_true, Bool.or_eq_false_iff,
    decide_eq_false_iff_not] at h
  exact ⟨h.1.1.1.1, h.1.1.1.2, h.1.1.2, h.1.2, h.2⟩

theorem optMap_add_add (o : Option Nat) (m n : Nat) :
    (o.map (· + m)).map (· + n) = o.map (· + (m + n)) := by
  cases o with
  | none => rfl
  | some a =>
    simp only [Option.map_some']
    exact congrArg some (by omega)

theorem optMap_zero (o : Option Nat) : o.map (· + 0) = o := by
  cases o <;> rfl

theorem scanGo_neutral (c : Char) (rest stack : List Char)
    (h : scanNeutral c = true) :
    scanGo (c :: rest) stack false false
      = (scanGo rest stack false false).map (· + 1) := by
  obtain ⟨h1, h2, h3, h4, h5⟩ := scanNeutral_spec h
  simp [scanGo, h1, h2, h3, h4, h5]

theorem scanGo_neutralList (l : List Char) (h : ∀ c ∈ l, scanNeutral c = true) :
    ∀ stack rest, scanGo (l ++ rest) stack false false
      = (scanGo rest stack false false).map (· + l.length) := by
  induction l with
  | nil =>
    intro stack rest
    rw [List.nil_append, List.length_nil, optMap_zero]
  | cons a t ih =>
    intro stack rest
    rw [List.cons_append,
      scanGo_neutral a _ _ (h a (List.mem_cons_self a t)),
      ih (fun c hc => h c (List.mem_cons_of_mem _ hc)) stack rest,
      optMap_add_add]
    simp only [List.length_cons]

theorem scanGo_openQuote (rest stack : List Char) :
    scanGo ('"' :: rest) stack false false
      = (scanGo rest stack true false).map (· + 1) := rfl

theorem scanGo_pushBrace (rest stack : List Char) :
    scanGo ('{' :: rest) stack false false
      = (scanGo rest ('{' :: stack) false false).map (· + 1) := rfl

theorem scanGo_pushBracket (rest stack : List Char) :
    scanGo ('[' :: rest) stack false false
      = (scanGo rest ('[' :: stack) false false).map (· + 1) := rfl

theorem scanGo_closeBraceLast (rest : List Char) :
    scanGo ('}' :: rest) ['{'] false false = some 1 := rfl

theorem scanGo_closeBracketLast (rest : List Char) :
    scanGo (']' :: rest) ['['] false false = some 1 := rfl

theorem scanGo_closeBrace (rest stk : List Char) (h : stk ≠ []) :
    scanGo ('}' :: rest) ('{' :: stk) false false
      = (scanGo rest stk false false).map (· + 1) := by
  simp [scanGo, h]

theorem scanGo_closeBracket (rest stk : List Char) (h : stk ≠ []) :
    scanGo (']' :: rest) ('[' :: stk) false false
      = (scanGo rest stk false false).map (· + 1) := by
  simp [scanGo, h]

theorem scanGo_strEsc (c : Char) (rest stack : List Char) :
    scanGo (c :: rest) stack true true
      = (scanGo rest stack true false).map (· + 1) := rfl

theorem scanGo_strBackslash (rest stack : List Char) :
    scanGo ('\\' :: rest) stack true false
      = (scanGo rest stack true true).map (· + 1) := rfl

theorem scanGo_strQuote (rest stack : List Char) :
    scanGo ('"' :: rest) stack true false
      = (scanGo rest stack false false).map (· + 1) := rfl

theorem scanGo_strPlain (c : Char) (rest stack : List Char)
    (h1 : c ≠ '\\') (h2 : c ≠ '"') :
    scanGo (c :: rest) stack true false
      = (scanGo rest stack true false).map (· + 1) := by
  simp [scanGo, h1, h2]

theorem optMap_congr_add (o : Option Nat) {m n : Nat} (h : m = n) :
    o.map (· + m) = o.map (· + n) := by rw [h]

theorem gram_consumes : ∀ {k : GK} {l : List Char}, Gram k l → GramMotive k l := by
  intro k l h
  induction h with
  | nul =>
    intro stack rest _
    exact scanGo_neutralList _ (by decide) stack rest
  | tru =>
    intro stack rest _
    exact scanGo_neutralList _ (by decide) stack rest
  | fls =>
    intro stack rest _
    exact scanGo_neutralList _ (by decide) stack rest
  | num l hne hnum =>
    intro stack rest _
    exact scanGo_neutralList _ (fun c hc => scanNeutral_of_numChar (hnum c hc)) stack rest
  | str b hb ih =>
    intro stack rest _
    simp only [List.append_assoc, List.cons_append, List.singleton_append,
      List.nil_append]
    rw [scanGo_openQuote, ih stack rest, optMap_add_add]
    exact optMap_congr_add _ (by
      simp only [List.length_cons, List.length_append, List.length_nil]; try omega)
  | obj inner hin ih =>
    intro stack rest hne
    simp only [List.append_assoc, List.cons_append, List.singleton_append,
      List.nil_append]
    rw [scanGo_pushBrace, ih ('{' :: stack) ('}' :: rest) (by simp),
      scanGo_closeBrace _ _ hne]
    simp only [optMap_add_add]
    exact optMap_congr_add _ (by
      simp only [List.length_cons, List.length_append, List.length_nil]; omega)
  | arr inner hin ih =>
    intro stack rest hne
    simp only [List.append_assoc, List.cons_append, List.singleton_append,
      List.nil_append]
    rw [scanGo_pushBracket, ih ('[' :: stack) (']' :: rest) (by simp),
      scanGo_closeBracket _ _ hne]
    simp only [optMap_add_add]
    exact optMap_congr_add _ (by
      simp only [List.length_cons, List.length_append, List.length_nil]; omega)
  | sbNil =>
    intro stack rest
    rw [List.nil_append, scanGo_strQuote]
    exact optMap_congr_add _ (by simp)
  | sbPlain c b hq hbs _ ih =>
    intro stack rest
    rw [List.cons_append, scanGo_strPlain c _ _ hbs hq, ih stack rest, optMap_add_add]
    exact optMap_congr_add _ (by
      simp only [List.length_cons]; try omega)
  | sbEsc c b _ ih =>
    intro stack rest
    rw [List.cons_append, List.cons_append, scanGo_strBackslash, scanGo_strEsc,
      ih stack rest]
    simp only [optMap_add_add]
    exact optMap_congr_add _ (by
      simp only [List.length_cons]; try omega)
  | objEmpty w hw =>
    intro stack rest _
    exact scanGo_neutralList _ (fun c hc => scanNeutral_of_jsonWs (hw c hc)) stack rest
  | objMem l _ ih => exact ih
  | memOne w1 s w2 e hw1 hs hw2 he ih1 ih2 =>
    intro stack rest hne
    simp only [List.append_assoc, List.cons_append, List.singleton_append,
      List.nil_append]
    rw [scanGo_neutralList w1 (fun c hc => scanNeutral_of_jsonWs (hw1 c hc)),
      scanGo_openQuote, ih1 stack, scanGo_neutralList w2
        (fun c hc => scanNeutral_of_jsonWs (hw2 c hc)),
      scanGo_neutral ':' _ _ (by decide), ih2 stack rest hne]
    simp only [optMap_add_add]
    exact optMap_congr_add _ (by
      simp only [List.length_cons, List.length_append, List.length_nil]; omega)
  | memCons w1 s w2 e restm hw1 hs hw2 he hrest ih1 ih2 ih3 =>
    intro stack rest hne
    simp only [List.append_assoc, List.cons_append, List.singleton_append,
      List.nil_append]
    rw [scanGo_neutralList w1 (fun c hc => scanNeutral_of_jsonWs (hw1 c hc)),
      scanGo_openQuote, ih1 stack, scanGo_neutralList w2
        (fun c hc => scanNeutral_of_jsonWs (hw2 c hc)),
      scanGo_neutral ':' _ _ (by decide), ih2 stack (',' :: (restm ++ rest)) hne,
      scanGo_neutral ',' _ _ (by decide), ih3 stack rest hne]
    simp only [optMap_add_add]
    exact optMap_congr_add _ (by
      simp only [List.length_cons, List.length_append, List.length_nil]; omega)
  | arrEmpty w hw =>
    intro stack rest _
    exact scanGo_neutralList _ (fun c hc => scanNeutral_of_jsonWs (hw c hc)) stack rest
  | arrElems l _ ih => exact ih
  | elOne e _ ih => exact ih
  | elCons e restE _ _ ih1 ih2 =>
    intro stack rest hne
    simp only [List.append_assoc, List.cons_append, List.singleton_append,
      List.nil_append]
    rw [ih1 stack (',' :: (restE ++ rest)) hne,
      scanGo_neutral ',' _ _ (by decide), ih2 stack rest hne]
    simp only [optMap_add_add]
    exact optMap_congr_add _ (by
      simp only [List.length_cons, List.length_append, List.length_nil]; omega)
  | elemMk w1 v w2 hw1 hv hw2 ih =>
    intro stack rest hne
    simp only [List.append_assoc, List.cons_append, List.singleton_append,
      List.nil_append]
    rw [scanGo_neutralList w1 (fun c hc => scanNeutral_of_jsonWs (hw1 c hc)),
      ih stack (w2 ++ rest) hne,
      scanGo_neutralList w2 (fun c hc => scanNeutral_of_jsonWs (hw2 c hc))]
    simp only [optMap_add_add]
    exact optMap_congr_add _ (by
      simp only [List.length_cons, List.length_append, List.length_nil]; omega)

theorem pyFindChar_append_not_mem (p1 rest : List Char) (c : Char) (h : c ∉ p1) :
    pyFindChar (p1 ++ rest) c = (pyFindChar rest c).map (· + p1.length) := by
  induction p1 with
  | nil =>
    rw [List.nil_append, List.length_nil, optMap_zero]
  | cons a t ih =>
    have ha : ¬ a = c := fun he => h (by rw [he]; exact List.mem_cons_self c t)
    rw [List.cons_append]
    show (if a = c then some 0 else (pyFindChar (t ++ rest) c).map (· + 1)) = _
    rw [if_neg ha, ih (fun hm => h (List.mem_cons_of_mem _ hm)), optMap_add_add]
    exact optMap_congr_add _ (by simp only [List.length_cons]; try omega)

theorem pyFindChar_head (c : Char) (rest : List Char) :
    pyFindChar (c :: rest) c = some 0 := by
  show (if c = c then some 0 else _) = some 0
  rw [if_pos rfl]

theorem eq_cons_of_headQ {c : Char} {l : List Char} (h : l.head? = some c) :
    l = c :: l.tail := by
  cases l with
  | nil => exact Option.noConfusion h
  | cons a t =>
    have ha : a = c := by injection h
    rw [ha]
    rfl

/-- A well-formed JSON object or array is consumed exactly by the balanced
scan started on an empty stack, succeeding at its final closing character. -/
theorem scan_val (j : List Char) (hj : Gram .val j)
    (hh : j.head? = some '{' ∨ j.head? = some '[') :
    ∀ rest, scanGo (j ++ rest) [] false false = some j.length := by
  intro rest
  cases hj with
  | nul => rcases hh with h | h <;> exact absurd h (by decide)
  | tru => rcases hh with h | h <;> exact absurd h (by decide)
  | fls => rcases hh with h | h <;> exact absurd h (by decide)
  | num _ hne hnum =>
    rcases hh with h | h
    · have hcn := hnum '{' (by rw [eq_cons_of_headQ h]; exact List.mem_cons_self _ _)
      exact absurd hcn (by decide)
    · have hcn := hnum '[' (by rw [eq_cons_of_headQ h]; exact List.mem_cons_self _ _)
      exact absurd hcn (by decide)
  | str b hb =>
    rcases hh with h | h
    · have : ('"' : Char) = '{' := by
        have hq : ('"' :: b ++ ['"'] : List Char).head? = some '"' := rfl
        rw [hq] at h
        injection h
      exact absurd this (by decide)
    · have : ('"' : Char) = '[' := by
        have hq : ('"' :: b ++ ['"'] : List Char).head? = some '"' := rfl
        rw [hq] at h
        injection h
      exact absurd this (by decide)
  | obj inner hin =>
    simp only [List.append_assoc, List.cons_append, List.singleton_append,
      List.nil_append]
    rw [scanGo_pushBrace, gram_consumes hin ['{'] ('}' :: rest) (by simp),
      scanGo_closeBraceLast]
    simp only [Option.map_some']
    exact congrArg some (by
      simp only [List.length_cons, List.length_append, List.length_nil]; omega)
  | arr inner hin =>
    simp only [List.append_assoc, List.cons_append, List.singleton_append,
      List.nil_append]
    rw [scanGo_pushBracket, gram_consumes hin ['['] (']' :: rest) (by simp),
      scanGo_closeBracketLast]
    simp only [Option.map_some']
    exact congrArg some (by
      simp only [List.length_cons, List.length_append, List.length_nil]; omega)

/-- Claim C2, amended: the scanner returns exactly the embedded well-formed
JSON value when the prose before the value contains no open brace and no open
bracket (the scan begins at the lowest index of either character, so earlier
bracket characters in the prose displace the candidate); the original claim
with arbitrary prose is refuted by extract_first_json_value_not_exact. -/
theorem extract_first_json_value_amended (p1 j p2 : List Char)
    (hj : Gram .val j) (hh : j.head? = some '{' ∨ j.head? = some '[')
    (hp : ∀ c ∈ p1, ¬ c = '{' ∧ ¬ c = '[') :
    extract_first_json_value (p1 ++ j ++ p2) = some j := by
  have hjne : j ≠ [] := by
    intro he
    rw [he] at hh
    rcases hh with h | h <;> exact Option.noConfusion h
  have htne : p1 ++ j ++ p2 ≠ [] := by
    simp [hjne]
  have hfind : findScanStart (p1 ++ j ++ p2) = some p1.length := by
    rw [List.append_assoc]
    unfold findScanStart
    rcases hh with h | h
    · obtain ⟨jt, hjt⟩ : ∃ jt, j = '{' :: jt := by
        cases j with
        | nil => exact absurd rfl hjne
        | cons a t => exact ⟨t, by rw [show a = '{' by injection h]⟩
      have h1 : pyFindChar (p1 ++ (j ++ p2)) '{' = some p1.length := by
        rw [pyFindChar_append_not_mem _ _ _ (fun hm => (hp _ hm).1 rfl), hjt,
          List.cons_append, pyFindChar_head]
        simp only [Option.map_some']
        exact congrArg some (by omega)
      have h2 := pyFindChar_append_not_mem p1 (j ++ p2) '['
        (fun hm => (hp _ hm).2 rfl)
      rw [h1]
      cases hf : pyFindChar (j ++ p2) '[' with
      | none => rw [h2, hf]; rfl
      | some m =>
        rw [h2, hf]
        show some (min p1.length (m + p1.length)) = some p1.length
        exact congrArg some (by omega)
    · obtain ⟨jt, hjt⟩ : ∃ jt, j = '[' :: jt := by
        cases j with
        | nil => exact absurd rfl hjne
        | cons a t => exact ⟨t, by rw [show a = '[' by injection h]⟩
      have h1 : pyFindChar (p1 ++ (j ++ p2)) '[' = some p1.length := by
        rw [pyFindChar_append_not_mem _ _ _ (fun hm => (hp _ hm).2 rfl), hjt,
          List.cons_append, pyFindChar_head]
        simp only [Option.map_some']
        exact congrArg some (by omega)
      have h2 := pyFindChar_append_not_mem p1 (j ++ p2) '{'
        (fun hm => (hp _ hm).1 rfl)
      rw [h1]
      cases hf : pyFindChar (j ++ p2) '{' with
      | none => rw [h2, hf]; rfl
      | some m =>
        rw [h2, hf]
        show some (min (m + p1.length) p1.length) = some p1.length
        exact congrArg some (by omega)
  have hdrop : (p1 ++ j ++ p2).drop p1.length = j ++ p2 := by
    rw [List.append_assoc]
    exact List.drop_left p1 (j ++ p2)
  unfold extract_first_json_value
  rw [if_neg htne, hfind]
  show (match scanGo ((p1 ++ j ++ p2).drop p1.length) [] false false with
      | some n => some (((p1 ++ j ++ p2).drop p1.length).take n)
      | none => none) = some j
  rw [hdrop, scan_val j hj hh p2]
  show some ((j ++ p2).take j.length) = some j
  rw [List.take_left]

/-- Closed witness for extract_first_json_value_amended: a JSON array embedded
after bracket-free prose is returned byte-for-byte. -/
theorem extract_first_json_value_amended_witness :
    extract_first_json_value ("json: [1, 2] end".toList) = some ("[1, 2]".toList) := by
  have he : "json: [1, 2] end".toList
      = "json: ".toList ++ "[1, 2]".toList ++ " end".toList := by decide
  rw [he]
  exact extract_first_json_value_amended _ _ _
    (Gram.arr _ (Gram.arrElems _ (Gram.elCons _ _
      (Gram.elemMk [] ['1'] [] (by simp)
        (Gram.num ['1'] (by simp) (by decide)) (by simp))
      (Gram.elOne _ (Gram.elemMk [' '] ['2'] [] (by decide)
        (Gram.num ['2'] (by simp) (by decide)) (by simp))))))
    (by decide) (by decide)

/-- Claim C2 counterexample: the text contains the well-formed JSON object
with key a and value 1, embedded in prose, but the scanner returns the
earlier bracket-balanced prose fragment instead of that JSON substring. -/
theorem extract_first_json_value_not_exact :
    Gram .val ("\x7b\"a\":1\x7d".toList) ∧
    extract_first_json_value ("items [a b] then \x7b\"a\":1\x7d".toList)
      = some ("[a b]".toList) ∧
    ¬ ("[a b]".toList = "\x7b\"a\":1\x7d".toList) := by
  refine ⟨?_, by decide, by decide⟩
  exact Gram.obj _ (Gram.objMem _ (Gram.memOne [] ['a'] [] ['1'] (by simp)
    (Gram.sbPlain 'a' [] (by decide) (by decide) Gram.sbNil) (by simp)
    (Gram.elemMk [] ['1'] [] (by simp)
      (Gram.num ['1'] (by simp) (by decide)) (by simp))))

/-- Claim C3: the scanner never ends a candidate inside quoted string
content.  A whole string literal is consumed from any stack without pushing,
popping or terminating (first conjunct); inside a string a backslash escapes
exactly the next character and then the escape flag clears (second and third
conjuncts); only an unescaped double quote closes the string (fourth and
fifth conjuncts). -/
theorem scanner_string_state_safety :
    (∀ b stack rest, Gram .strBody b →
      scanGo (('"' :: b ++ ['"']) ++ rest) stack false false
        = (scanGo rest stack false false).map (· + (b.length + 2)))
    ∧ (∀ (c : Char) rest stack, scanGo (c :: rest) stack true true
        = (scanGo rest stack true false).map (· + 1))
    ∧ (∀ rest stack, scanGo ('\\' :: rest) stack true false
        = (scanGo rest stack true true).map (· + 1))
    ∧ (∀ rest stack, scanGo ('"' :: rest) stack true false
        = (scanGo rest stack false false).map (· + 1))
    ∧ (∀ (c : Char) rest stack, ¬ c = '\\' → ¬ c = '"' →
        scanGo (c :: rest) stack true false
          = (scanGo rest stack true false).map (· + 1)) := by
  refine ⟨?_, fun c rest stack => scanGo_strEsc c rest stack,
    fun rest stack => scanGo_strBackslash rest stack,
    fun rest stack => scanGo_strQuote rest stack,
    fun c rest stack h1 h2 => scanGo_strPlain c rest stack h1 h2⟩
  intro b stack rest hb
  simp only [List.append_assoc, List.cons_append, List.singleton_append,
    List.nil_append]
  rw [scanGo_openQuote, gram_consumes hb stack rest, optMap_add_add]

/-- Closed witness for scanner_string_state_safety: a string body containing
braces, brackets, an escaped quote and an escaped backslash is skipped whole,
leaving the bracket stack untouched. -/
theorem scanner_string_state_safety_witness :
    scanGo (('"' :: ('a' :: '{' :: '}' :: '[' :: ']' :: '\\' :: '"' :: '\\' :: '\\' :: [])
        ++ ['"']) ++ "x".toList) ['{'] false false
      = (scanGo ("x".toList) ['{'] false false).map (· + 11) :=
  scanner_string_state_safety.1 _ ['{'] ("x".toList)
    (Gram.sbPlain 'a' _ (by decide) (by decide)
      (Gram.sbPlain '{' _ (by decide) (by decide)
        (Gram.sbPlain '}' _ (by decide) (by decide)
          (Gram.sbPlain '[' _ (by decide) (by decide)
            (Gram.sbPlain ']' _ (by decide) (by decide)
              (Gram.sbEsc '"' _ (Gram.sbEsc '\\' _ Gram.sbNil)))))))

set_option maxHeartbeats 1000000 in
theorem parse_model_json_response_spec (raw : List Char) :
    (parse_model_json_response raw = .error ("No JSON object found".toList)
      ↔ extract_first_json_value (cleanedPre raw) = none)
    ∧ (∀ cand, extract_first_json_value (cleanedPre raw) = some cand →
        ∃ v, parse_model_json_response raw = .ok v)
    ∧ (∀ cand e1 e2, extract_first_json_value (cleanedPre raw) = some cand →
        pyJsonLoads (unwrapCand cand) = .error e1 →
        pyJsonLoads (repair_common_json_issues (unwrapCand cand)) = .error e2 →
        parse_model_json_response raw = .ok (errorTable e2)
        ∧ pyGet (errorTable e2) ("label".toList) = some (.str ("error_table".toList))
        ∧ pyGet (errorTable e2) ("columns".toList) = some (.arr [])
        ∧ pyGet (errorTable e2) ("suggested_relationships".toList) = some (.arr [])
        ∧ ∃ msg, pyGet (errorTable e2) ("error".toList) = some (.str msg)
            ∧ msg ≠ []) := by
  cases hx : extract_first_json_value (cleanedPre raw) with
  | none =>
    have hp : parse_model_json_response raw
        = .error ("No JSON object found".toList) := by
      unfold parse_model_json_response
      rw [hx]
    refine ⟨⟨fun _ => rfl, fun _ => hp⟩, ?_, ?_⟩
    · intro cand hc
      exact Option.noConfusion hc
    · intro cand e1 e2 hc
      exact Option.noConfusion hc
  | some cand =>
    have hbody : parse_model_json_response raw =
        (match pyJsonLoads (unwrapCand cand) with
        | .ok v => .ok v
        | .error _ =>
          match pyJsonLoads (repair_common_json_issues (unwrapCand cand)) with
          | .ok v => .ok v
          | .error e2 => .ok (errorTable e2)) := by
      unfold parse_model_json_response
      rw [hx]
    have hok : ∃ v, parse_model_json_response raw = .ok v := by
      rw [hbody]
      cases h1 : pyJsonLoads (unwrapCand cand) with
      | ok v => exact ⟨v, rfl⟩
      | error e1 =>
        cases h2 : pyJsonLoads (repair_common_json_issues (unwrapCand cand)) with
        | ok v => exact ⟨v, rfl⟩
        | error e2 => exact ⟨errorTable e2, rfl⟩
    obtain ⟨v, hv⟩ := hok
    refine ⟨⟨fun he => ?_, fun he => ?_⟩, fun cand2 hc => ⟨v, hv⟩, ?_⟩
    · rw [hv] at he
      exact Except.noConfusion he
    · exact Option.noConfusion he
    · intro cand2 e1 e2 hc h1 h2
      cases hc
      have hp : parse_model_json_response raw = .ok (errorTable e2) := by
        rw [hbody, h1, h2]
      refine ⟨hp, rfl, rfl, rfl, "Failed to parse JSON: ".toList ++ e2, rfl, by simp⟩

/-- Closed witness for parse_model_json_response_spec: truncated JSON whose
repair still fails strict parsing degrades to the last-resort structure. -/
theorem parse_model_json_response_spec_witness :
    parse_model_json_response ("\x7binvalid".toList)
      = .ok (errorTable
          ("Expecting property name enclosed in double quotes".toList)) :=
  (((parse_model_json_response_spec ("\x7binvalid".toList)).2.2)
    ("\x7binvalid\x7d".toList)
    ("Expecting property name enclosed in double quotes".toList)
    ("Expecting property name enclosed in double quotes".toList)
    (by decide) (by decide) (by decide)).1

/-- Claim C8 (code bug in rewrite one of validate_and_repair_json): the
regex group-backreference pattern only collapses a token followed by an
underscore and then three or more contiguous copies of the token, so the
underscore-separated repetition named by its own comment
(from_from_from_from) is left unchanged, while the contiguous form
collapses; the placeholder substitution and the brace-deficit append are
exercised by the third conjunct. -/
theorem validate_and_repair_json_behavior :
    validate_and_repair_json ("from_from_from_from".toList)
      = .ok ("from_from_from_from".toList)
    ∧ validate_and_repair_json ("from_fromfromfrom".toList)
      = .ok ("from".toList)
    ∧ validate_and_repair_json ("\x7b\x7btable_name\x7d".toList)
      = .ok ("\x7b\"unknown_table\"\x7d".toList) := by
  exact ⟨by decide, by decide, by decide⟩

/-- Claim C7: decoding the scenario text and normalizing with the given
prompt and existing schema yields label order, a foreign-key column
user_id referencing users.id, an inserted uuid primary-key column id at
the front, appended created_at and updated_at columns, and exactly one
synthesized relationship (order, user_id, users, id, one_to_many). -/
theorem scenario_order_table :
    parse_model_json_response c7input = .ok c7decoded
    ∧ pyGet c7out ("label".toList) = some (.str ("order".toList))
    ∧ (columnsOf c7out).map colNameStr
        = ["id".toList, "user_id".toList, "created_at".toList, "updated_at".toList]
    ∧ (columnsOf c7out).head? = some (mkPkCol ("id".toList) ("id".toList))
    ∧ (columnsOf c7out).get? 1 = some c7fkcol
    ∧ pyGet c7fkcol ("isForeignKey".toList) = some (.bool true)
    ∧ pyGet c7fkcol ("referencedTable".toList) = some (.str ("users".toList))
    ∧ pyGet c7fkcol ("referencedColumn".toList) = some (.str ("id".toList))
    ∧ relsOf c7out = [.obj [("from_table".toList, .str ("order".toList)),
        ("from_column".toList, .str ("user_id".toList)),
        ("to_table".toList, .str ("users".toList)),
        ("to_column".toList, .str ("id".toList)),
        ("relationship_type".toList, .str ("one_to_many".toList)),
        ("confidence".toList, .str ("medium".toList)),
        ("reason".toList,
          .str ("Inferred from *_id column pattern and existing schema".toList))]] := by
  refine ⟨by decide, by decide, by decide, by decide, by decide, by decide,
    by decide, by decide, by decide⟩

theorem lookupJ_setJ (m : List (List Char × JsonV)) (k k2 : List Char)
    (v : JsonV) :
    lookupJ (setJ m k v) k2 = if k = k2 then some v else lookupJ m k2 := by
  induction m with
  | nil =>
    show (if k = k2 then some v else lookupJ [] k2) = _
    rfl
  | cons hd rest ih =>
    obtain ⟨k1, w⟩ := hd
    show lookupJ (if k1 = k then (k1, v) :: rest else (k1, w) :: setJ rest k v) k2 = _
    by_cases h1 : k1 = k
    · rw [if_pos h1]
      show (if k1 = k2 then some v else lookupJ rest k2) = _
      subst h1
      by_cases h2 : k1 = k2
      · rw [if_pos h2, if_pos h2]
      · rw [if_neg h2, if_neg h2]
        show _ = lookupJ ((k1, w) :: rest) k2
        show _ = (if k1 = k2 then some w else lookupJ rest k2)
        rw [if_neg h2]
    · rw [if_neg h1]
      show (if k1 = k2 then some w else lookupJ (setJ rest k v) k2) = _
      by_cases h2 : k1 = k2
      · rw [if_pos h2]
        have hk : ¬ k = k2 := fun he => h1 (by rw [he, h2])
        rw [if_neg hk]
        show _ = (if k1 = k2 then some w else lookupJ rest k2)
        rw [if_pos h2]
      · rw [if_neg h2, ih]
        by_cases h3 : k = k2
        · rw [if_pos h3, if_pos h3]
        · rw [if_neg h3, if_neg h3]
          show _ = (if k1 = k2 then some w else lookupJ rest k2)
          rw [if_neg h2]

theorem lookupJ_fkRefFill (tables : List (List Char)) (name : List Char)
    (is_fk : Bool) (m : List (List Char × JsonV)) (k : List Char)
    (h1 : ¬ ("referencedTable".toList = k))
    (h2 : ¬ ("referencedColumn".toList = k)) :
    lookupJ (fkRefFill tables name is_fk m) k = lookupJ m k := by
  unfold fkRefFill
  split
  · show lookupJ (match List.find? (fun c => decide (c ∈ tables))
        [sanitize_identifier (List.take (name.length - 3) name),
         sanitize_identifier (List.take (name.length - 3) name) ++ "s".toList,
         sanitize_identifier (List.take (name.length - 3) name) ++ "es".toList] with
      | some ref =>
        setJ (setJ m ("referencedTable".toList) (JsonV.str ref))
          ("referencedColumn".toList)
          (pyOrO (lookupJ (setJ m ("referencedTable".toList) (JsonV.str ref))
            ("referencedColumn".toList)) (JsonV.str ("id".toList)))
      | none => m) k = lookupJ m k
    split
    · rw [lookupJ_setJ, if_neg h2, lookupJ_setJ, if_neg h1]
    · rfl
  · rfl

theorem normOneCol_fst (tables : List (List Char)) (idx : Nat)
    (col : List (List Char × JsonV)) (un ui : List (List Char × Nat)) :
    (normOneCol tables idx col un ui).1
      = .obj (fkRefFill tables (colFinalName idx col un)
          (match lookupJ col ("isForeignKey".toList) with
            | some v => pyTruthy v
            | none => ("_id".toList.isSuffixOf (colFinalName idx col un))
                && !(colFinalName idx col un = "id".toList))
          (mergeJ col
            [("id".toList, .str (colFinalId idx col un ui)),
             ("name".toList, .str (colFinalName idx col un)),
             ("type".toList, .str (normalize_column_type (pyStr
               (match lookupJ col ("type".toList) with
                 | some v => v
                 | none => .str [])))),
             ("isPrimaryKey".toList,
               .bool (pyTruthyO (lookupJ col ("isPrimaryKey".toList)))),
             ("isForeignKey".toList,
               .bool (match lookupJ col ("isForeignKey".toList) with
                 | some v => pyTruthy v
                 | none => ("_id".toList.isSuffixOf (colFinalName idx col un))
                     && !(colFinalName idx col un = "id".toList))),
             ("isNullable".toList,
               .bool (if pyTruthyO (lookupJ col ("isPrimaryKey".toList)) then false
                 else match lookupJ col ("isNullable".toList) with
                   | some v => pyTruthy v
                   | none => !(pyTruthyO (lookupJ col ("isPrimaryKey".toList))
                       || (match lookupJ col ("isForeignKey".toList) with
                         | some v => pyTruthy v
                         | none => ("_id".toList.isSuffixOf (colFinalName idx col un))
                             && !(colFinalName idx col un = "id".toList)))))])) := rfl

theorem normOneCol_counters (tables : List (List Char)) (idx : Nat)
    (col : List (List Char × JsonV)) (un ui : List (List Char × Nat)) :
    (normOneCol tables idx col un ui).2.1 = (bumpCount un (colNameBase idx col)).2
    ∧ (normOneCol tables idx col un ui).2.2
      = (bumpCount ui (colIdBase (colFinalName idx col un) col)).2 :=
  ⟨rfl, rfl⟩

theorem pyGet_obj (kvs : List (List Char × JsonV)) (k : List Char) :
    pyGet (.obj kvs) k = lookupJ kvs k := rfl

theorem lookupJ_merge6 (col : List (List Char × JsonV)) (a b c d e f : JsonV)
    (k : List Char) :
    lookupJ (mergeJ col [("id".toList, a), ("name".toList, b),
      ("type".toList, c), ("isPrimaryKey".toList, d),
      ("isForeignKey".toList, e), ("isNullable".toList, f)]) k
    = if "isNullable".toList = k then some f
      else if "isForeignKey".toList = k then some e
      else if "isPrimaryKey".toList = k then some d
      else if "type".toList = k then some c
      else if "name".toList = k then some b
      else if "id".toList = k then some a
      else lookupJ col k := by
  show lookupJ (setJ (setJ (setJ (setJ (setJ (setJ col ("id".toList) a)
    ("name".toList) b) ("type".toList) c) ("isPrimaryKey".toList) d)
    ("isForeignKey".toList) e) ("isNullable".toList) f) k = _
  rw [lookupJ_setJ, lookupJ_setJ, lookupJ_setJ, lookupJ_setJ, lookupJ_setJ,
    lookupJ_setJ]

theorem pkPred_obj (kvs : List (List Char × JsonV)) :
    pkPred (.obj kvs) = pyTruthyO (lookupJ kvs ("isPrimaryKey".toList)) := rfl

theorem normOneCol_isPK (tables : List (List Char)) (idx : Nat)
    (col : List (List Char × JsonV)) (un ui : List (List Char × Nat)) :
    pkPred (normOneCol tables idx col un ui).1
      = pyTruthyO (lookupJ col ("isPrimaryKey".toList)) := by
  rw [normOneCol_fst, pkPred_obj,
    lookupJ_fkRefFill _ _ _ _ _ (by decide) (by decide), lookupJ_merge6]
  have h1 : ¬ ("isNullable".toList = "isPrimaryKey".toList) := by decide
  have h2 : ¬ ("isForeignKey".toList = "isPrimaryKey".toList) := by decide
  rw [if_neg h1, if_neg h2, if_pos rfl]
  rfl

theorem normColsGo_countPk (tables : List (List Char)) (idx : Nat)
    (un ui : List (List Char × Nat)) (cols : List JsonV) :
    (normColsGo tables idx un ui cols).countP pkPred
      = cols.countP isSuppliedPk := by
  induction cols generalizing idx un ui with
  | nil => rfl
  | cons col rest ih =>
    cases col with
    | obj kvs =>
      show (((normOneCol tables idx kvs un ui).1) ::
        normColsGo tables (idx + 1) (normOneCol tables idx kvs un ui).2.1
          (normOneCol tables idx kvs un ui).2.2 rest).countP pkPred = _
      rw [List.countP_cons, List.countP_cons, ih, normOneCol_isPK]
      rfl
    | null =>
      show (normColsGo tables (idx + 1) un ui rest).countP pkPred = _
      rw [ih, List.countP_cons]
      rfl
    | bool b =>
      show (normColsGo tables (idx + 1) un ui rest).countP pkPred = _
      rw [ih, List.countP_cons]
      rfl
    | int n =>
      show (normColsGo tables (idx + 1) un ui rest).countP pkPred = _
      rw [ih, List.countP_cons]
      rfl
    | flt t =>
      show (normColsGo tables (idx + 1) un ui rest).countP pkPred = _
      rw [ih, List.countP_cons]
      rfl
    | str v =>
      show (normColsGo tables (idx + 1) un ui rest).countP pkPred = _
      rw [ih, List.countP_cons]
      rfl
    | arr xs =>
      show (normColsGo tables (idx + 1) un ui rest).countP pkPred = _
      rw [ih, List.countP_cons]
      rfl

theorem suppliedCols_eq (r : JsonV) :
    suppliedCols r = (match lookupJ (coerceKvs r) ("columns".toList) with
      | some (.arr xs) => xs
      | _ => []) := by
  cases r with
  | arr xs =>
    cases xs with
    | nil => rfl
    | cons x rest => cases x <;> rfl
  | null => rfl
  | bool b => rfl
  | int n => rfl
  | flt t => rfl
  | str v => rfl
  | obj kvs => rfl

theorem colsIn_eq_suppliedCols (r : JsonV) (p : List Char) :
    colsIn r p = suppliedCols r := by
  unfold colsIn
  rw [lookupJ_setJ, if_neg (by decide : ¬ ("label".toList = "columns".toList)),
    suppliedCols_eq]

theorem pkPred_mkPkCol (a b : List Char) : pkPred (mkPkCol a b) = true := rfl

theorem pkPred_mkTsCol (a b : List Char) : pkPred (mkTsCol a b) = false := rfl

theorem countPk_tsStep (n : List Char)
    (st : List JsonV × List (List Char) × List (List Char)) :
    (tsStep n st).1.countP pkPred = st.1.countP pkPred := by
  unfold tsStep
  split
  · rfl
  · show (st.1 ++ [mkTsCol (tsFreshId n st.2.2) n]).countP pkPred = _
    rw [List.countP_append, List.countP_cons, pkPred_mkTsCol]
    rfl

theorem countPk_tsInsert (p : List Char)
    (st : List JsonV × List (List Char) × List (List Char)) :
    (tsInsert p st).1.countP pkPred = st.1.countP pkPred := by
  unfold tsInsert
  split
  · rw [countPk_tsStep, countPk_tsStep]
  · rfl

theorem countPk_pkInsert (ncols : List JsonV) :
    (pkInsert ncols).1.countP pkPred = max 1 (ncols.countP pkPred) := by
  unfold pkInsert
  split
  · rename_i h
    have h1 : 0 < ncols.countP pkPred := by
      rcases List.any_eq_true.mp h with ⟨c, hc, hpc⟩
      exact List.countP_pos_iff.mpr ⟨c, hc, hpc⟩
    show ncols.countP pkPred = _
    omega
  · rename_i h
    have h0 : ncols.countP pkPred = 0 := by
      rw [List.countP_eq_zero]
      intro a ha hpa
      exact h (List.any_eq_true.mpr ⟨a, ha, hpa⟩)
    show (mkPkCol (pkFreshName (ncols.map colIdStr))
      (pkFreshName (ncols.map colNameStr)) :: ncols).countP pkPred = _
    rw [List.countP_cons, h0, pkPred_mkPkCol]
    decide

theorem columnsOf_obj_setJ (kvs : List (List Char × JsonV)) (k : List Char)
    (v : JsonV) (h : ¬ (k = "columns".toList)) :
    columnsOf (.obj (setJ kvs k v)) = columnsOf (.obj kvs) := by
  show (match lookupJ (setJ kvs k v) ("columns".toList) with
    | some (.arr xs) => xs
    | _ => []) = columnsOf (.obj kvs)
  rw [lookupJ_setJ, if_neg h]
  rfl

theorem columnsOf_obj_set_columns (kvs : List (List Char × JsonV))
    (xs : List JsonV) :
    columnsOf (.obj (setJ kvs ("columns".toList) (.arr xs))) = xs := by
  show (match lookupJ (setJ kvs ("columns".toList) (.arr xs))
      ("columns".toList) with
    | some (.arr ys) => ys
    | _ => []) = xs
  rw [lookupJ_setJ, if_pos rfl]

theorem columnsOf_normalize (r : JsonV) (p s : List Char) :
    columnsOf (normalize_table_result r p s) = finalColumns r p s := by
  show columnsOf (.obj (setJ (setJ (setJ (coerceKvs r) ("label".toList)
      (.str (tableLabelOf r p))) ("columns".toList)
      (.arr (finalColumns r p s)))
      ("suggested_relationships".toList) (.arr _))) = _
  rw [columnsOf_obj_setJ _ _ _ (by decide), columnsOf_obj_set_columns]

theorem countPk_finalColumns (r : JsonV) (p s : List Char) :
    (finalColumns r p s).countP pkPred = max 1 (suppliedPkCount r) := by
  unfold finalColumns
  rw [countPk_tsInsert, countPk_pkInsert, normColsGo_countPk,
    colsIn_eq_suppliedCols]
  rfl

theorem whileFresh_form (mk : Nat → List Char) (used : List (List Char))
    (fuel : Nat) (cur : List Char) (suffix : Nat) :
    whileFresh mk used fuel cur suffix = cur
    ∨ ∃ k, suffix ≤ k ∧ whileFresh mk used fuel cur suffix = mk k := by
  induction fuel generalizing cur suffix with
  | zero => exact .inl rfl
  | succ n ih =>
    show (if decide (cur ∈ used) then whileFresh mk used n (mk suffix) (suffix + 1)
        else cur) = cur
      ∨ ∃ k, suffix ≤ k
        ∧ (if decide (cur ∈ used) then whileFresh mk used n (mk suffix) (suffix + 1)
          else cur) = mk k
    split
    · rcases ih (mk suffix) (suffix + 1) with h | ⟨k, hk, h⟩
      · exact .inr ⟨suffix, Nat.le_refl _, h⟩
      · exact .inr ⟨k, by omega, h⟩
    · exact .inl rfl

theorem pkFreshName_form (used : List (List Char)) :
    pkFreshName used = "id".toList ∨ pkFreshName used = "id_pk".toList
    ∨ ∃ k, 2 ≤ k ∧ pkFreshName used = "id_pk_".toList ++ natStr k := by
  unfold pkFreshName
  rcases whileFresh_form (fun s => "id_pk_".toList ++ natStr s) used
      (used.length + 2)
      (if decide (("id".toList) ∈ used) then "id_pk".toList else "id".toList) 2
    with h | ⟨k, hk, h⟩
  · rw [h]
    split
    · exact .inr (.inl rfl)
    · exact .inl rfl
  · exact .inr (.inr ⟨k, hk, h⟩)

theorem pkFreshName_form_weak (used : List (List Char)) :
    pkFreshName used = "id".toList ∨ pkFreshName used = "id_pk".toList
    ∨ ∃ k, pkFreshName used = "id_pk_".toList ++ natStr k := by
  rcases pkFreshName_form used with h | h | ⟨k, _, h⟩
  · exact .inl h
  · exact .inr (.inl h)
  · exact .inr (.inr ⟨k, h⟩)

theorem tsStep_cons (n : List Char)
    (st : List JsonV × List (List Char) × List (List Char))
    (a : JsonV) (l : List JsonV) (hst : st.1 = a :: l) :
    ∃ l2, (tsStep n st).1 = a :: l2 := by
  unfold tsStep
  split
  · exact ⟨l, hst⟩
  · refine ⟨l ++ [mkTsCol (tsFreshId n st.2.2) n], ?_⟩
    show st.1 ++ [mkTsCol (tsFreshId n st.2.2) n] = _
    rw [hst]
    rfl

theorem tsInsert_cons (p : List Char)
    (st : List JsonV × List (List Char) × List (List Char))
    (a : JsonV) (l : List JsonV) (hst : st.1 = a :: l) :
    ∃ l2, (tsInsert p st).1 = a :: l2 := by
  unfold tsInsert
  split
  · obtain ⟨l1, h1⟩ := tsStep_cons ("created_at".toList) st a l hst
    obtain ⟨l2, h2⟩ := tsStep_cons ("updated_at".toList) _ a l1 h1
    exact ⟨l2, h2⟩
  · exact ⟨l, hst⟩

/-- Claim C4 counterexample: a decoded table carrying two supplied
primary-key columns normalizes to a table with two primary-key columns,
so the normalized output does not always contain exactly one column with
isPrimaryKey true. -/
theorem normalize_two_supplied_primary_keys :
    pkCount (normalize_table_result (.obj [("columns".toList, .arr
      [.obj [("name".toList, .str ("a".toList)),
             ("isPrimaryKey".toList, .bool true)],
       .obj [("name".toList, .str ("b".toList)),
             ("isPrimaryKey".toList, .bool true)]])]) [] []) = 2 := by
  decide

/-- Claim C4 (amended): when at most one supplied mapping column is marked
primary key, the table returned by normalize_table_result contains exactly
one column with isPrimaryKey true; and when no supplied mapping column is
marked primary key, a non-nullable uuid-typed primary-key column is
inserted at the front of the column list whose name and id are id, id_pk,
or id_pk followed by an underscore and a numeral.  In general the
primary-key count of the output is the number of supplied primary-key
columns when that is positive, and one otherwise. -/
theorem normalize_primary_key_amended (r : JsonV) (p s : List Char)
    (h : suppliedPkCount r ≤ 1) :
    pkCount (normalize_table_result r p s) = 1
    ∧ (suppliedPkCount r = 0 →
        ∃ pk_id pk_name,
          (columnsOf (normalize_table_result r p s)).head?
              = some (mkPkCol pk_id pk_name)
          ∧ (pk_name = "id".toList ∨ pk_name = "id_pk".toList
              ∨ ∃ k, pk_name = "id_pk_".toList ++ natStr k)
          ∧ (pk_id = "id".toList ∨ pk_id = "id_pk".toList
              ∨ ∃ k, pk_id = "id_pk_".toList ++ natStr k)) := by
  constructor
  · show (columnsOf (normalize_table_result r p s)).countP pkPred = 1
    rw [columnsOf_normalize, countPk_finalColumns]
    omega
  · intro h0
    have hc : (normColsGo (extract_schema_table_names s) 0 [] []
        (colsIn r p)).countP pkPred = 0 := by
      rw [normColsGo_countPk, colsIn_eq_suppliedCols]
      exact h0
    have hany : (normColsGo (extract_schema_table_names s) 0 [] []
        (colsIn r p)).any pkPred = false := by
      rw [List.any_eq_false]
      intro x hx
      exact (List.countP_eq_zero.mp hc) x hx
    have h1 : (pkInsert (normColsGo (extract_schema_table_names s) 0 [] []
        (colsIn r p))).1
        = mkPkCol
            (pkFreshName ((normColsGo (extract_schema_table_names s) 0 [] []
              (colsIn r p)).map colIdStr))
            (pkFreshName ((normColsGo (extract_schema_table_names s) 0 [] []
              (colsIn r p)).map colNameStr))
          :: normColsGo (extract_schema_table_names s) 0 [] [] (colsIn r p) := by
      unfold pkInsert
      rw [hany]
      rfl
    obtain ⟨l2, h2⟩ := tsInsert_cons p _ _ _ h1
    refine ⟨pkFreshName ((normColsGo (extract_schema_table_names s) 0 [] []
        (colsIn r p)).map colIdStr),
      pkFreshName ((normColsGo (extract_schema_table_names s) 0 [] []
        (colsIn r p)).map colNameStr),
      ?_, pkFreshName_form_weak _, pkFreshName_form_weak _⟩
    rw [columnsOf_normalize]
    show (tsInsert p (pkInsert (normColsGo (extract_schema_table_names s) 0 [] []
      (colsIn r p)))).1.head? = _
    rw [h2]
    rfl

/-- Witness for the amended C4 theorem at a concrete input with no
supplied primary key. -/
theorem normalize_primary_key_amended_witness :
    suppliedPkCount (.obj []) ≤ 1
    ∧ (pkCount (normalize_table_result (.obj []) [] []) = 1
      ∧ (suppliedPkCount (.obj []) = 0 →
          ∃ pk_id pk_name,
            (columnsOf (normalize_table_result (.obj []) [] [])).head?
                = some (mkPkCol pk_id pk_name)
            ∧ (pk_name = "id".toList ∨ pk_name = "id_pk".toList
                ∨ ∃ k, pk_name = "id_pk_".toList ++ natStr k)
            ∧ (pk_id = "id".toList ∨ pk_id = "id_pk".toList
                ∨ ∃ k, pk_id = "id_pk_".toList ++ natStr k))) :=
  ⟨by decide, normalize_primary_key_amended (.obj []) [] [] (by decide)⟩

theorem lookupJ_merge6_other (col : List (List Char × JsonV))
    (a b c d e f : JsonV) (k : List Char)
    (h1 : ¬ ("id".toList = k)) (h2 : ¬ ("name".toList = k))
    (h3 : ¬ ("type".toList = k)) (h4 : ¬ ("isPrimaryKey".toList = k))
    (h5 : ¬ ("isForeignKey".toList = k)) (h6 : ¬ ("isNullable".toList = k)) :
    lookupJ (mergeJ col [("id".toList, a), ("name".toList, b),
      ("type".toList, c), ("isPrimaryKey".toList, d),
      ("isForeignKey".toList, e), ("isNullable".toList, f)]) k
      = lookupJ col k := by
  rw [lookupJ_merge6, if_neg h6, if_neg h5, if_neg h4, if_neg h3, if_neg h2,
    if_neg h1]

theorem lookupJ_normOneCol_other (tables : List (List Char)) (idx : Nat)
    (col : List (List Char × JsonV)) (un ui : List (List Char × Nat))
    (k : List Char)
    (h1 : ¬ ("id".toList = k)) (h2 : ¬ ("name".toList = k))
    (h3 : ¬ ("type".toList = k)) (h4 : ¬ ("isPrimaryKey".toList = k))
    (h5 : ¬ ("isForeignKey".toList = k)) (h6 : ¬ ("isNullable".toList = k))
    (h7 : ¬ ("referencedTable".toList = k))
    (h8 : ¬ ("referencedColumn".toList = k)) :
    pyGet (normOneCol tables idx col un ui).1 k = lookupJ col k := by
  rw [normOneCol_fst, pyGet_obj, lookupJ_fkRefFill _ _ _ _ _ h7 h8,
    lookupJ_merge6, if_neg h6, if_neg h5, if_neg h4, if_neg h3, if_neg h2,
    if_neg h1]

theorem fkRefFill_eq_of_truthy (tables : List (List Char)) (name : List Char)
    (is_fk : Bool) (m : List (List Char × JsonV))
    (h : pyTruthyO (lookupJ m ("referencedTable".toList)) = true) :
    fkRefFill tables name is_fk m = m := by
  unfold fkRefFill
  split
  · rename_i hcond
    rw [h] at hcond
    simp at hcond
  · rfl

theorem normOneCol_ref_preserved (tables : List (List Char)) (idx : Nat)
    (col : List (List Char × JsonV)) (un ui : List (List Char × Nat))
    (h : pyTruthyO (lookupJ col ("referencedTable".toList)) = true) :
    pyGet (normOneCol tables idx col un ui).1 ("referencedTable".toList)
      = lookupJ col ("referencedTable".toList)
    ∧ pyGet (normOneCol tables idx col un ui).1 ("referencedColumn".toList)
      = lookupJ col ("referencedColumn".toList) := by
  constructor
  · rw [normOneCol_fst, pyGet_obj, fkRefFill_eq_of_truthy,
      lookupJ_merge6_other col _ _ _ _ _ _ ("referencedTable".toList)
        (by decide) (by decide) (by decide) (by decide) (by decide) (by decide)]
    rw [lookupJ_merge6_other col _ _ _ _ _ _ ("referencedTable".toList)
      (by decide) (by decide) (by decide) (by decide) (by decide) (by decide)]
    exact h
  · rw [normOneCol_fst, pyGet_obj, fkRefFill_eq_of_truthy,
      lookupJ_merge6_other col _ _ _ _ _ _ ("referencedColumn".toList)
        (by decide) (by decide) (by decide) (by decide) (by decide) (by decide)]
    rw [lookupJ_merge6_other col _ _ _ _ _ _ ("referencedTable".toList)
      (by decide) (by decide) (by decide) (by decide) (by decide) (by decide)]
    exact h

theorem normColsGo_mem (tables : List (List Char)) (idx : Nat)
    (un ui : List (List Char × Nat)) (cols : List JsonV)
    (kvs : List (List Char × JsonV)) (hm : JsonV.obj kvs ∈ cols) :
    ∃ i un2 ui2, (normOneCol tables i kvs un2 ui2).1
      ∈ normColsGo tables idx un ui cols := by
  induction cols generalizing idx un ui with
  | nil => cases hm
  | cons col rest ih =>
    rcases List.mem_cons.mp hm with he | hr
    · rw [← he]
      exact ⟨idx, un, ui, List.mem_cons_self _ _⟩
    · cases col with
      | obj kvs2 =>
        obtain ⟨i, un2, ui2, hmem⟩ := ih (idx + 1)
          (normOneCol tables idx kvs2 un ui).2.1
          (normOneCol tables idx kvs2 un ui).2.2 hr
        exact ⟨i, un2, ui2, List.mem_cons_of_mem _ hmem⟩
      | null => exact ih (idx + 1) un ui hr
      | bool b => exact ih (idx + 1) un ui hr
      | int n => exact ih (idx + 1) un ui hr
      | flt t => exact ih (idx + 1) un ui hr
      | str v => exact ih (idx + 1) un ui hr
      | arr xs => exact ih (idx + 1) un ui hr

theorem pkInsert_mem (ncols : List JsonV) (c : JsonV) (h : c ∈ ncols) :
    c ∈ (pkInsert ncols).1 := by
  unfold pkInsert
  split
  · exact h
  · exact List.mem_cons_of_mem _ h

theorem tsStep_mem (n : List Char)
    (st : List JsonV × List (List Char) × List (List Char)) (c : JsonV)
    (h : c ∈ st.1) : c ∈ (tsStep n st).1 := by
  unfold tsStep
  split
  · exact h
  · show c ∈ st.1 ++ [mkTsCol (tsFreshId n st.2.2) n]
    exact List.mem_append_left _ h

theorem tsInsert_mem (p : List Char)
    (st : List JsonV × List (List Char) × List (List Char)) (c : JsonV)
    (h : c ∈ st.1) : c ∈ (tsInsert p st).1 := by
  unfold tsInsert
  split
  · exact tsStep_mem _ _ _ (tsStep_mem _ _ _ h)
  · exact h

/-- Claim C10: every supplied mapping column survives into the normalized
column list as a column in which every key other than id, name, type,
isPrimaryKey, isForeignKey, isNullable, referencedTable and
referencedColumn keeps its supplied value; and when the supplied
referencedTable is truthy, the referencedTable and referencedColumn
values are also kept unchanged (the reference-inference of lines 520-526
only fills them when the supplied referencedTable is missing or falsy). -/
theorem normalize_preserves_extra_fields (r : JsonV) (p s : List Char)
    (kvs : List (List Char × JsonV)) (hm : JsonV.obj kvs ∈ suppliedCols r) :
    ∃ c ∈ columnsOf (normalize_table_result r p s),
      (∀ k : List Char, ¬ ("id".toList = k) → ¬ ("name".toList = k) →
        ¬ ("type".toList = k) → ¬ ("isPrimaryKey".toList = k) →
        ¬ ("isForeignKey".toList = k) → ¬ ("isNullable".toList = k) →
        ¬ ("referencedTable".toList = k) → ¬ ("referencedColumn".toList = k) →
        pyGet c k = lookupJ kvs k)
      ∧ (pyTruthyO (lookupJ kvs ("referencedTable".toList)) = true →
          pyGet c ("referencedTable".toList)
              = lookupJ kvs ("referencedTable".toList)
          ∧ pyGet c ("referencedColumn".toList)
              = lookupJ kvs ("referencedColumn".toList)) := by
  obtain ⟨i, un2, ui2, hmem⟩ := normColsGo_mem (extract_schema_table_names s)
    0 [] [] (colsIn r p) kvs (by rw [colsIn_eq_suppliedCols]; exact hm)
  refine ⟨(normOneCol (extract_schema_table_names s) i kvs un2 ui2).1,
    ?_, ?_, ?_⟩
  · rw [columnsOf_normalize]
    exact tsInsert_mem _ _ _ (pkInsert_mem _ _ hmem)
  · intro k h1 h2 h3 h4 h5 h6 h7 h8
    exact lookupJ_normOneCol_other _ _ _ _ _ _ h1 h2 h3 h4 h5 h6 h7 h8
  · intro ht
    exact normOneCol_ref_preserved _ _ _ _ _ ht

/-- Witness for the C10 theorem: a supplied column with an extra note
field and a truthy referencedTable. -/
theorem normalize_preserves_extra_fields_witness :
    (JsonV.obj [("name".toList, .str ("a".toList)),
        ("note".toList, .str ("keep".toList)),
        ("referencedTable".toList, .str ("users".toList))]
      ∈ suppliedCols (.obj [("columns".toList, .arr
          [.obj [("name".toList, .str ("a".toList)),
                 ("note".toList, .str ("keep".toList)),
                 ("referencedTable".toList, .str ("users".toList))]])]))
    ∧ (∃ c ∈ columnsOf (normalize_table_result
          (.obj [("columns".toList, .arr
            [.obj [("name".toList, .str ("a".toList)),
                   ("note".toList, .str ("keep".toList)),
                   ("referencedTable".toList, .str ("users".toList))]])]) [] []),
        (∀ k : List Char, ¬ ("id".toList = k) → ¬ ("name".toList = k) →
          ¬ ("type".toList = k) → ¬ ("isPrimaryKey".toList = k) →
          ¬ ("isForeignKey".toList = k) → ¬ ("isNullable".toList = k) →
          ¬ ("referencedTable".toList = k) → ¬ ("referencedColumn".toList = k) →
          pyGet c k = lookupJ [("name".toList, .str ("a".toList)),
            ("note".toList, .str ("keep".toList)),
            ("referencedTable".toList, .str ("users".toList))] k)
        ∧ (pyTruthyO (lookupJ [("name".toList, .str ("a".toList)),
              ("note".toList, .str ("keep".toList)),
              ("referencedTable".toList, .str ("users".toList))]
              ("referencedTable".toList)) = true →
            pyGet c ("referencedTable".toList)
                = lookupJ [("name".toList, .str ("a".toList)),
                    ("note".toList, .str ("keep".toList)),
                    ("referencedTable".toList, .str ("users".toList))]
                    ("referencedTable".toList)
            ∧ pyGet c ("referencedColumn".toList)
                = lookupJ [("name".toList, .str ("a".toList)),
                    ("note".toList, .str ("keep".toList)),
                    ("referencedTable".toList, .str ("users".toList))]
                    ("referencedColumn".toList))) :=
  ⟨by decide, normalize_preserves_extra_fields
    (.obj [("columns".toList, .arr
      [.obj [("name".toList, .str ("a".toList)),
             ("note".toList, .str ("keep".toList)),
             ("referencedTable".toList, .str ("users".toList))]])]) [] []
    [("name".toList, .str ("a".toList)),
     ("note".toList, .str ("keep".toList)),
     ("referencedTable".toList, .str ("users".toList))] (by decide)⟩

theorem digitChar_inj_lt : ∀ a < 10, ∀ b < 10,
    Nat.digitChar a = Nat.digitChar b → a = b := by decide

theorem digitChar_isDigit : ∀ d < 10, (Nat.digitChar d).isDigit = true := by
  decide

theorem natStrGo_eq (fuel : Nat) : ∀ n, n ≤ fuel →
    natStrGo fuel n = ((Nat.digits 10 n).map Nat.digitChar).reverse := by
  induction fuel with
  | zero =>
    intro n hn
    have hz : n = 0 := by omega
    rw [hz, Nat.digits_zero]
    rfl
  | succ f ih =>
    intro n hn
    cases n with
    | zero =>
      rw [Nat.digits_zero]
      rfl
    | succ m =>
      show natStrGo f ((m + 1) / 10) ++ [Nat.digitChar ((m + 1) % 10)] = _
      rw [Nat.digits_def' (by norm_num : (1:ℕ) < 10) (Nat.succ_pos m),
        List.map_cons, List.reverse_cons]
      have hdiv : (m + 1) / 10 < m + 1 :=
        Nat.div_lt_self (Nat.succ_pos m) (by norm_num)
      rw [ih ((m + 1) / 10) (by omega)]

theorem natStr_eq_digits (n : Nat) :
    natStr n = if n = 0 then ['0']
      else ((Nat.digits 10 n).map Nat.digitChar).reverse := by
  unfold natStr
  by_cases hn : n = 0
  · rw [if_pos hn, if_pos hn]
  · rw [if_neg hn, if_neg hn, natStrGo_eq n n (Nat.le_refl n)]

theorem natStr_ne_nil (n : Nat) : natStr n ≠ [] := by
  rw [natStr_eq_digits]
  split
  · exact fun h => List.noConfusion h
  · rename_i hn
    intro h
    have h2 : (Nat.digits 10 n).map Nat.digitChar = [] := by
      have := congrArg List.reverse h
      simpa using this
    have h3 : Nat.digits 10 n = [] := List.map_eq_nil_iff.mp h2
    exact hn (Nat.digits_eq_nil_iff_eq_zero.mp h3)

theorem natStr_all_digits (n : Nat) : ∀ c ∈ natStr n, c.isDigit = true := by
  intro c hc
  rw [natStr_eq_digits] at hc
  split at hc
  · have : c = '0' := List.mem_singleton.mp hc
    rw [this]
    decide
  · rw [List.mem_reverse] at hc
    rcases List.mem_map.mp hc with ⟨d, hd, hdc⟩
    have hlt : d < 10 := Nat.digits_lt_base (by norm_num) hd
    rw [← hdc]
    exact digitChar_isDigit d hlt

theorem map_digitChar_inj (l1 : List Nat) : ∀ (l2 : List Nat),
    (∀ d ∈ l1, d < 10) → (∀ d ∈ l2, d < 10) →
    l1.map Nat.digitChar = l2.map Nat.digitChar → l1 = l2 := by
  induction l1 with
  | nil =>
    intro l2 _ _ h
    cases l2 with
    | nil => rfl
    | cons b t => cases h
  | cons a t ih =>
    intro l2 h1 h2 h
    cases l2 with
    | nil => cases h
    | cons b t2 =>
      have hab : Nat.digitChar a = Nat.digitChar b
          ∧ t.map Nat.digitChar = t2.map Nat.digitChar := by
        simpa using h
      have ha : a = b := digitChar_inj_lt a (h1 a (List.mem_cons_self _ _)) b
        (h2 b (List.mem_cons_self _ _)) hab.1
      rw [ha, ih t2 (fun d hd => h1 d (List.mem_cons_of_mem _ hd))
        (fun d hd => h2 d (List.mem_cons_of_mem _ hd)) hab.2]

theorem digits_map_ne_zero_singleton (n : Nat) (hn : ¬ n = 0) :
    ¬ ((Nat.digits 10 n).map Nat.digitChar = ['0']) := by
  intro h2
  cases hd : Nat.digits 10 n with
  | nil => rw [hd] at h2; cases h2
  | cons d ds =>
    rw [hd] at h2
    cases ds with
    | nil =>
      have hdc : Nat.digitChar d = '0' := by simpa using h2
      have hlt : d < 10 := Nat.digits_lt_base (by norm_num)
        (by rw [hd]; exact List.mem_cons_self _ _)
      have hd0 : d = 0 := digitChar_inj_lt d hlt 0 (by norm_num)
        (by rw [hdc]; rfl)
      have he : n = Nat.ofDigits 10 (Nat.digits 10 n) :=
        (Nat.ofDigits_digits 10 n).symm
      rw [hd, hd0] at he
      simp [Nat.ofDigits] at he
      exact hn he
    | cons d2 ds2 => simp at h2

theorem natStr_inj (m n : Nat) (h : natStr m = natStr n) : m = n := by
  rw [natStr_eq_digits, natStr_eq_digits] at h
  by_cases hm : m = 0 <;> by_cases hn : n = 0
  · rw [hm, hn]
  · rw [if_pos hm, if_neg hn] at h
    exfalso
    refine digits_map_ne_zero_singleton n hn ?_
    have := congrArg List.reverse h
    simpa using this.symm
  · rw [if_neg hm, if_pos hn] at h
    exfalso
    refine digits_map_ne_zero_singleton m hm ?_
    have := congrArg List.reverse h
    simpa using this
  · rw [if_neg hm, if_neg hn] at h
    have h2 : (Nat.digits 10 m).map Nat.digitChar
        = (Nat.digits 10 n).map Nat.digitChar := by
      have := congrArg List.reverse h
      simpa using this
    have h3 : Nat.digits 10 m = Nat.digits 10 n :=
      map_digitChar_inj _ _ (fun d hd => Nat.digits_lt_base (by norm_num) hd)
        (fun d hd => Nat.digits_lt_base (by norm_num) hd) h2
    have h4 := congrArg (Nat.ofDigits 10) h3
    simpa [Nat.ofDigits_digits] using h4

theorem takeWhile_append_all (p : Char → Bool) (l1 l2 : List Char)
    (h : ∀ x ∈ l1, p x = true) :
    (l1 ++ l2).takeWhile p = l1 ++ l2.takeWhile p := by
  induction l1 with
  | nil => rfl
  | cons a t ih =>
    show List.takeWhile p (a :: (t ++ l2)) = _
    rw [List.takeWhile_cons, h a (List.mem_cons_self _ _)]
    rw [if_pos rfl, ih (fun x hx => h x (List.mem_cons_of_mem _ hx))]
    rfl

theorem endsUD_suffix (b : List Char) (i : Nat) :
    endsUD (b ++ '_' :: natStr i) = true := by
  have hrev : (b ++ '_' :: natStr i).reverse
      = (natStr i).reverse ++ '_' :: b.reverse := by
    rw [List.reverse_append, List.reverse_cons, List.append_assoc]
    rfl
  have htw : (b ++ '_' :: natStr i).reverse.takeWhile Char.isDigit
      = (natStr i).reverse := by
    rw [hrev, takeWhile_append_all _ _ _ (fun x hx =>
      natStr_all_digits i x (List.mem_reverse.mp hx))]
    rw [List.takeWhile_cons, if_neg (by decide : ¬ (('_').isDigit = true))]
    rw [List.append_nil]
  unfold endsUD
  rw [htw, hrev, List.drop_left]
  have hne : ¬ ((natStr i).reverse = []) := by
    intro hh
    exact natStr_ne_nil i (by simpa using hh)
  simp [hne]

theorem append_natStr_inj (b1 : List Char) : ∀ (b2 : List Char) (i1 i2 : Nat),
    b1 ++ '_' :: natStr i1 = b2 ++ '_' :: natStr i2 → b1 = b2 ∧ i1 = i2 := by
  induction b1 with
  | nil =>
    intro b2 i1 i2 h
    cases b2 with
    | nil =>
      have h2 : natStr i1 = natStr i2 := by simpa using h
      exact ⟨rfl, natStr_inj _ _ h2⟩
    | cons c t =>
      exfalso
      have hh : '_' = c ∧ natStr i1 = t ++ '_' :: natStr i2 := by simpa using h
      have hmem : '_' ∈ natStr i1 := by
        rw [hh.2]
        exact List.mem_append_right _ (List.mem_cons_self _ _)
      exact absurd (natStr_all_digits i1 '_' hmem) (by decide)
  | cons a t ih =>
    intro b2 i1 i2 h
    cases b2 with
    | nil =>
      exfalso
      have hh : a = '_' ∧ t ++ '_' :: natStr i1 = natStr i2 := by simpa using h
      have hmem : '_' ∈ natStr i2 := by
        rw [← hh.2]
        exact List.mem_append_right _ (List.mem_cons_self _ _)
      exact absurd (natStr_all_digits i2 '_' hmem) (by decide)
    | cons c t2 =>
      have hh : a = c ∧ t ++ '_' :: natStr i1 = t2 ++ '_' :: natStr i2 := by
        simpa using h
      obtain ⟨he, hi⟩ := ih t2 i1 i2 hh.2
      exact ⟨by rw [hh.1, he], hi⟩

theorem suffixIf_one (b : List Char) : suffixIf b 1 = b := by
  unfold suffixIf
  rw [if_neg (by omega)]

theorem suffixIf_inj (b1 b2 : List Char) (i1 i2 : Nat)
    (hb1 : endsUD b1 = false) (hb2 : endsUD b2 = false)
    (hi1 : 1 ≤ i1) (hi2 : 1 ≤ i2)
    (h : suffixIf b1 i1 = suffixIf b2 i2) : b1 = b2 ∧ i1 = i2 := by
  unfold suffixIf at h
  by_cases h1 : 1 < i1 <;> by_cases h2 : 1 < i2
  · rw [if_pos h1, if_pos h2] at h
    exact append_natStr_inj b1 b2 i1 i2 h
  · rw [if_pos h1, if_neg h2] at h
    exfalso
    have hud := endsUD_suffix b1 i1
    rw [h, hb2] at hud
    cases hud
  · rw [if_neg h1, if_pos h2] at h
    exfalso
    have hud := endsUD_suffix b2 i2
    rw [← h, hb1] at hud
    cases hud
  · rw [if_neg h1, if_neg h2] at h
    exact ⟨h, by omega⟩

theorem bumpCount_fst (un : List (List Char × Nat)) (b : List Char) :
    (bumpCount un b).1 = getCount un b + 1 := by
  induction un with
  | nil => rfl
  | cons hd rest ih =>
    obtain ⟨k, n⟩ := hd
    show (if k = b then ((n + 1 : Nat), (k, n + 1) :: rest)
      else ((bumpCount rest b).1, (k, n) :: (bumpCount rest b).2)).1
      = (if k = b then n else getCount rest b) + 1
    by_cases hk : k = b
    · rw [if_pos hk, if_pos hk]
    · rw [if_neg hk, if_neg hk]
      exact ih

theorem getCount_bumpCount (un : List (List Char × Nat)) (b x : List Char) :
    getCount (bumpCount un b).2 x
      = getCount un x + (if x = b then 1 else 0) := by
  induction un with
  | nil =>
    show (if b = x then 1 else getCount [] x)
      = getCount [] x + (if x = b then 1 else 0)
    by_cases hb : b = x
    · rw [if_pos hb, if_pos hb.symm]
      rfl
    · rw [if_neg hb, if_neg (fun hh => hb hh.symm)]
      rfl
  | cons hd rest ih =>
    obtain ⟨k, n⟩ := hd
    show getCount ((if k = b then ((n + 1 : Nat), (k, n + 1) :: rest)
      else ((bumpCount rest b).1, (k, n) :: (bumpCount rest b).2)).2) x = _
    by_cases hk : k = b
    · rw [if_pos hk]
      show (if k = x then n + 1 else getCount rest x)
        = (if k = x then n else getCount rest x) + (if x = b then 1 else 0)
      by_cases hx : k = x
      · rw [if_pos hx, if_pos hx, if_pos (hx.symm.trans hk)]
      · have hxb : ¬ (x = b) := fun hxb => hx (hk.trans hxb.symm)
        rw [if_neg hx, if_neg hx, if_neg hxb]
        rfl
    · rw [if_neg hk]
      show (if k = x then n else getCount (bumpCount rest b).2 x)
        = (if k = x then n else getCount rest x) + (if x = b then 1 else 0)
      by_cases hx : k = x
      · have hxb : ¬ (x = b) := fun hxb => hk (hx.trans hxb)
        rw [if_pos hx, if_pos hx, if_neg hxb]
        rfl
      · rw [if_neg hx, if_neg hx, ih]

theorem pyOrO_truthy_eq (o : Option JsonV) (d : JsonV)
    (h : pyTruthyO o = true) : pyOrO o d = o.getD JsonV.null := by
  cases o with
  | none => cases h
  | some v =>
    show (if pyTruthy v then v else d) = v
    rw [if_pos (show pyTruthy v = true from h)]

theorem pyOrO_falsy_eq (o : Option JsonV) (d : JsonV)
    (h : pyTruthyO o = false) : pyOrO o d = d := by
  cases o with
  | none => rfl
  | some v =>
    show (if pyTruthy v then v else d) = d
    rw [if_neg (by rw [show pyTruthy v = pyTruthyO (some v) from rfl, h]; exact
      Bool.false_ne_true)]

theorem colNameBase_const (idx : Nat) (col : List (List Char × JsonV))
    (h : pyTruthyO (lookupJ col ("name".toList)) = true
      ∨ pyTruthyO (lookupJ col ("id".toList)) = true) :
    colNameBase idx col = colNameBase 0 col := by
  unfold colNameBase
  by_cases hn : pyTruthyO (lookupJ col ("name".toList)) = true
  · rw [pyOrO_truthy_eq _ _ hn, pyOrO_truthy_eq _ _ hn]
  · have hn' : pyTruthyO (lookupJ col ("name".toList)) = false :=
      Bool.eq_false_iff.mpr hn
    have hid : pyTruthyO (lookupJ col ("id".toList)) = true := by
      rcases h with h | h
      · exact absurd h hn
      · exact h
    rw [pyOrO_falsy_eq _ _ hn', pyOrO_falsy_eq _ _ hn',
      pyOrO_truthy_eq _ _ hid, pyOrO_truthy_eq _ _ hid]

theorem colIdBase_const (name : List Char) (col : List (List Char × JsonV))
    (h : pyTruthyO (lookupJ col ("id".toList)) = true) :
    colIdBase name col = colIdBase [] col := by
  unfold colIdBase
  rw [pyOrO_truthy_eq _ _ h, pyOrO_truthy_eq _ _ h]

theorem colIdBase_of_falsy (name : List Char) (col : List (List Char × JsonV))
    (h : pyTruthyO (lookupJ col ("id".toList)) = false) :
    colIdBase name col = sanitize_identifier name := by
  unfold colIdBase
  rw [pyOrO_falsy_eq _ _ h]
  rfl

theorem colFinalName_eq (idx : Nat) (col : List (List Char × JsonV))
    (un : List (List Char × Nat)) :
    colFinalName idx col un
      = suffixIf (colNameBase idx col) (getCount un (colNameBase idx col) + 1) := by
  unfold colFinalName
  rw [bumpCount_fst]

theorem colFinalId_eq (idx : Nat) (col : List (List Char × JsonV))
    (un ui : List (List Char × Nat)) :
    colFinalId idx col un ui
      = suffixIf (colIdBase (colFinalName idx col un) col)
          (getCount ui (colIdBase (colFinalName idx col un) col) + 1) := by
  unfold colFinalId
  rw [bumpCount_fst]

theorem lookupJ_normOneCol_name (tables : List (List Char)) (idx : Nat)
    (col : List (List Char × JsonV)) (un ui : List (List Char × Nat)) :
    pyGet (normOneCol tables idx col un ui).1 ("name".toList)
      = some (.str (colFinalName idx col un)) := by
  rw [normOneCol_fst, pyGet_obj,
    lookupJ_fkRefFill _ _ _ _ _ (by decide) (by decide), lookupJ_merge6]
  have h1 : ¬ ("isNullable".toList = "name".toList) := by decide
  have h2 : ¬ ("isForeignKey".toList = "name".toList) := by decide
  have h3 : ¬ ("isPrimaryKey".toList = "name".toList) := by decide
  have h4 : ¬ ("type".toList = "name".toList) := by decide
  rw [if_neg h1, if_neg h2, if_neg h3, if_neg h4, if_pos rfl]

theorem lookupJ_normOneCol_id (tables : List (List Char)) (idx : Nat)
    (col : List (List Char × JsonV)) (un ui : List (List Char × Nat)) :
    pyGet (normOneCol tables idx col un ui).1 ("id".toList)
      = some (.str (colFinalId idx col un ui)) := by
  rw [normOneCol_fst, pyGet_obj,
    lookupJ_fkRefFill _ _ _ _ _ (by decide) (by decide), lookupJ_merge6]
  have h1 : ¬ ("isNullable".toList = "id".toList) := by decide
  have h2 : ¬ ("isForeignKey".toList = "id".toList) := by decide
  have h3 : ¬ ("isPrimaryKey".toList = "id".toList) := by decide
  have h4 : ¬ ("type".toList = "id".toList) := by decide
  have h5 : ¬ ("name".toList = "id".toList) := by decide
  rw [if_neg h1, if_neg h2, if_neg h3, if_neg h4, if_neg h5, if_pos rfl]

theorem normOneCol_nameStr (tables : List (List Char)) (idx : Nat)
    (col : List (List Char × JsonV)) (un ui : List (List Char × Nat)) :
    colNameStr (normOneCol tables idx col un ui).1 = colFinalName idx col un := by
  unfold colNameStr
  rw [lookupJ_normOneCol_name]

theorem normOneCol_idStr (tables : List (List Char)) (idx : Nat)
    (col : List (List Char × JsonV)) (un ui : List (List Char × Nat)) :
    colIdStr (normOneCol tables idx col un ui).1 = colFinalId idx col un ui := by
  unfold colIdStr
  rw [lookupJ_normOneCol_id]

theorem normColsGo_names (tables : List (List Char)) :
    ∀ (cols : List JsonV) (idx : Nat) (un ui : List (List Char × Nat)),
    cols.all goodNameCol = true →
    (((normColsGo tables idx un ui cols).map colNameStr).Nodup
    ∧ ∀ x ∈ (normColsGo tables idx un ui cols).map colNameStr,
        ∃ b i, endsUD b = false ∧ 1 ≤ i ∧ getCount un b < i ∧ x = suffixIf b i) := by
  intro cols
  induction cols with
  | nil =>
    intro idx un ui _
    exact ⟨List.nodup_nil, by intro x hx; cases hx⟩
  | cons col rest ih =>
    intro idx un ui hall
    have hall2 : goodNameCol col = true ∧ rest.all goodNameCol = true := by
      simpa using hall
    cases col with
    | obj kvs =>
      have hg := hall2.1
      rw [show goodNameCol (.obj kvs)
        = ((pyTruthyO (lookupJ kvs ("name".toList))
            || pyTruthyO (lookupJ kvs ("id".toList)))
          && !(endsUD (colNameBase 0 kvs))) from rfl] at hg
      rw [Bool.and_eq_true] at hg
      obtain ⟨hg1, hg2⟩ := hg
      have hb0 : endsUD (colNameBase idx kvs) = false := by
        rw [colNameBase_const idx kvs (by simpa using hg1)]
        simpa using hg2
      have hlist : normColsGo tables idx un ui (JsonV.obj kvs :: rest)
          = (normOneCol tables idx kvs un ui).1
            :: normColsGo tables (idx + 1) (normOneCol tables idx kvs un ui).2.1
                 (normOneCol tables idx kvs un ui).2.2 rest := rfl
      obtain ⟨hnd, hprop⟩ := ih (idx + 1) (normOneCol tables idx kvs un ui).2.1
        (normOneCol tables idx kvs un ui).2.2 hall2.2
      rw [hlist, List.map_cons]
      constructor
      · rw [List.nodup_cons]
        refine ⟨?_, hnd⟩
        intro hmem
        obtain ⟨b, i, hbe, hi1, hcount, hx⟩ := hprop _ hmem
        rw [normOneCol_nameStr, colFinalName_eq] at hx
        obtain ⟨hbb, hii⟩ := suffixIf_inj _ _ _ _ hb0 hbe (by omega) hi1 hx
        rw [(normOneCol_counters tables idx kvs un ui).1, getCount_bumpCount,
          if_pos hbb.symm, ← hbb] at hcount
        omega
      · intro x hx2
        rcases List.mem_cons.mp hx2 with he | ht
        · refine ⟨colNameBase idx kvs, getCount un (colNameBase idx kvs) + 1,
            hb0, by omega, by omega, ?_⟩
          rw [he, normOneCol_nameStr, colFinalName_eq]
        · obtain ⟨b, i, hbe, hi1, hcount, hxx⟩ := hprop x ht
          refine ⟨b, i, hbe, hi1, ?_, hxx⟩
          rw [(normOneCol_counters tables idx kvs un ui).1,
            getCount_bumpCount] at hcount
          by_cases hbb : b = colNameBase idx kvs
          · rw [if_pos hbb] at hcount; omega
          · rw [if_neg hbb] at hcount; omega
    | null => exact ih (idx + 1) un ui hall2.2
    | bool b => exact ih (idx + 1) un ui hall2.2
    | int n => exact ih (idx + 1) un ui hall2.2
    | flt t => exact ih (idx + 1) un ui hall2.2
    | str v => exact ih (idx + 1) un ui hall2.2
    | arr xs => exact ih (idx + 1) un ui hall2.2

theorem normColsGo_ids_truthy (tables : List (List Char)) :
    ∀ (cols : List JsonV) (idx : Nat) (un ui : List (List Char × Nat)),
    cols.all goodIdCol = true →
    (((normColsGo tables idx un ui cols).map colIdStr).Nodup
    ∧ ∀ x ∈ (normColsGo tables idx un ui cols).map colIdStr,
        ∃ b i, endsUD b = false ∧ 1 ≤ i ∧ getCount ui b < i ∧ x = suffixIf b i) := by
  intro cols
  induction cols with
  | nil =>
    intro idx un ui _
    exact ⟨List.nodup_nil, by intro x hx; cases hx⟩
  | cons col rest ih =>
    intro idx un ui hall
    have hall2 : goodIdCol col = true ∧ rest.all goodIdCol = true := by
      simpa using hall
    cases col with
    | obj kvs =>
      have hg := hall2.1
      rw [show goodIdCol (.obj kvs)
        = (pyTruthyO (lookupJ kvs ("id".toList))
          && !(endsUD (colIdBase [] kvs))) from rfl] at hg
      rw [Bool.and_eq_true] at hg
      obtain ⟨hg1, hg2⟩ := hg
      have hbase : colIdBase (colFinalName idx kvs un) kvs = colIdBase [] kvs :=
        colIdBase_const _ _ hg1
      have hb0 : endsUD (colIdBase (colFinalName idx kvs un) kvs) = false := by
        rw [hbase]
        simpa using hg2
      have hlist : normColsGo tables idx un ui (JsonV.obj kvs :: rest)
          = (normOneCol tables idx kvs un ui).1
            :: normColsGo tables (idx + 1) (normOneCol tables idx kvs un ui).2.1
                 (normOneCol tables idx kvs un ui).2.2 rest := rfl
      obtain ⟨hnd, hprop⟩ := ih (idx + 1) (normOneCol tables idx kvs un ui).2.1
        (normOneCol tables idx kvs un ui).2.2 hall2.2
      rw [hlist, List.map_cons]
      constructor
      · rw [List.nodup_cons]
        refine ⟨?_, hnd⟩
        intro hmem
        obtain ⟨b, i, hbe, hi1, hcount, hx⟩ := hprop _ hmem
        rw [normOneCol_idStr, colFinalId_eq] at hx
        obtain ⟨hbb, hii⟩ := suffixIf_inj _ _ _ _ hb0 hbe (by omega) hi1 hx
        rw [(normOneCol_counters tables idx kvs un ui).2, getCount_bumpCount,
          if_pos hbb.symm, ← hbb] at hcount
        omega
      · intro x hx2
        rcases List.mem_cons.mp hx2 with he | ht
        · refine ⟨colIdBase (colFinalName idx kvs un) kvs,
            getCount ui (colIdBase (colFinalName idx kvs un) kvs) + 1,
            hb0, by omega, by omega, ?_⟩
          rw [he, normOneCol_idStr, colFinalId_eq]
        · obtain ⟨b, i, hbe, hi1, hcount, hxx⟩ := hprop x ht
          refine ⟨b, i, hbe, hi1, ?_, hxx⟩
          rw [(normOneCol_counters tables idx kvs un ui).2,
            getCount_bumpCount] at hcount
          by_cases hbb : b = colIdBase (colFinalName idx kvs un) kvs
          · rw [if_pos hbb] at hcount; omega
          · rw [if_neg hbb] at hcount; omega
    | null => exact ih (idx + 1) un ui hall2.2
    | bool b => exact ih (idx + 1) un ui hall2.2
    | int n => exact ih (idx + 1) un ui hall2.2
    | flt t => exact ih (idx + 1) un ui hall2.2
    | str v => exact ih (idx + 1) un ui hall2.2
    | arr xs => exact ih (idx + 1) un ui hall2.2

theorem digit_sanChar (c : Char) (h : c.isDigit = true) : isSanChar c = true := by
  unfold Char.isDigit at h
  rw [Bool.and_eq_true] at h
  obtain ⟨h1, h2⟩ := h
  unfold isSanChar
  rw [Bool.or_eq_true]
  left
  rw [Bool.or_eq_true]
  right
  rw [Bool.and_eq_true]
  constructor
  · exact decide_eq_true (show ('0' : Char) ≤ c from of_decide_eq_true h1)
  · exact decide_eq_true (show c ≤ '9' from of_decide_eq_true h2)

theorem digit_ne_us (c : Char) (h : c.isDigit = true) : ¬ (c = '_') := by
  intro he
  rw [he] at h
  exact absurd h (by decide)

theorem hasDoubleUs_of_no_us (l : List Char) (h : ∀ c ∈ l, ¬ c = '_') :
    hasDoubleUs l = false := by
  induction l with
  | nil => rfl
  | cons a rest ih =>
    cases rest with
    | nil => rfl
    | cons b t =>
      show (decide (a = '_') && decide (b = '_') || hasDoubleUs (b :: t)) = false
      rw [ih (fun c hc => h c (List.mem_cons_of_mem _ hc)), Bool.or_false,
        decide_eq_false (h a (List.mem_cons_self _ _))]
      rfl

theorem hasDoubleUs_append (l1 l2 : List Char) :
    hasDoubleUs l1 = false → hasDoubleUs l2 = false →
    ¬ (l1.getLast? = some '_' ∧ l2.head? = some '_') →
    hasDoubleUs (l1 ++ l2) = false := by
  induction l1 with
  | nil => exact fun _ h2 _ => h2
  | cons a t ih =>
    intro h1 h2 hj
    cases t with
    | nil =>
      apply hasDoubleUs_cons_of
      · intro ha hh
        exact hj ⟨by rw [show ([a] : List Char).getLast? = some a from rfl, ha],
          hh⟩
      · exact h2
    | cons b t2 =>
      apply hasDoubleUs_cons_of
      · intro ha
        show ¬ ((b :: (t2 ++ l2)).head? = some '_')
        intro hb
        have hb' : b = '_' := by simpa using hb
        have hfst : (decide (a = '_') && decide (b = '_')
            || hasDoubleUs (b :: t2)) = false := h1
        have hand := (Bool.or_eq_false_iff.mp hfst).1
        rw [decide_eq_true ha, decide_eq_true hb'] at hand
        cases hand
      · apply ih (hasDoubleUs_tail a _ h1) h2
        rintro ⟨hlast, hhead⟩
        exact hj ⟨by rw [List.getLast?_cons_cons]; exact hlast, hhead⟩

theorem head?_append_left (l1 l2 : List Char) (h : l1 ≠ []) :
    (l1 ++ l2).head? = l1.head? := by
  cases l1 with
  | nil => exact absurd rfl h
  | cons a t => rfl

theorem getLast?_append_ne (l1 l2 : List Char) (h : l2 ≠ []) :
    (l1 ++ l2).getLast? = l2.getLast? := by
  induction l1 with
  | nil => rfl
  | cons a t ih =>
    have hne : t ++ l2 ≠ [] := fun hh => h (List.append_eq_nil.mp hh).2
    cases hcl : t ++ l2 with
    | nil => exact absurd hcl hne
    | cons x xs =>
      rw [List.cons_append, hcl, List.getLast?_cons_cons, ← hcl, ih]

theorem mem_of_getLast?_eq (l : List Char) (a : Char) (h : l.getLast? = some a) :
    a ∈ l := by
  induction l with
  | nil => cases h
  | cons x t ih =>
    cases t with
    | nil =>
      have hx : x = a := by simpa using h
      exact List.mem_singleton.mpr hx.symm
    | cons y t2 =>
      rw [List.getLast?_cons_cons] at h
      exact List.mem_cons_of_mem _ (ih h)

theorem natStr_getLast_ne_us (k : Nat) : ¬ ((natStr k).getLast? = some '_') := by
  intro h
  exact digit_ne_us '_' (natStr_all_digits k '_' (mem_of_getLast?_eq _ _ h)) rfl

theorem hasDoubleUs_us_natStr (k : Nat) :
    hasDoubleUs ('_' :: natStr k) = false := by
  apply hasDoubleUs_cons_of
  · intro _ hh
    have hmem : '_' ∈ natStr k := by
      cases hnk : natStr k with
      | nil => rw [hnk] at hh; cases hh
      | cons c t =>
        have hc : c = '_' := by rw [hnk] at hh; simpa using hh
        rw [hc]
        exact List.mem_cons_self _ _
    exact digit_ne_us '_' (natStr_all_digits k '_' hmem) rfl
  · exact hasDoubleUs_of_no_us _
      (fun c hc => digit_ne_us c (natStr_all_digits k c hc))

theorem colNameBase_sanitized (idx : Nat) (col : List (List Char × JsonV)) :
    ∃ y, colNameBase idx col = sanitize_identifier y :=
  ⟨_, rfl⟩

theorem sanitize_suffixIf (y : List Char) (k : Nat) (hk : 1 ≤ k) :
    sanitize_identifier (suffixIf (sanitize_identifier y) k)
      = suffixIf (sanitize_identifier y) k := by
  by_cases h1 : 1 < k
  · obtain ⟨hne, hall, hdd, hh, hl, _⟩ := sanitize_identifier_spec y
    unfold suffixIf
    rw [if_pos h1]
    have hnk : natStr k ≠ [] := natStr_ne_nil k
    apply sanitize_eq_self
    · intro hz
      exact List.noConfusion (List.append_eq_nil.mp hz).2
    · intro c hc
      rcases List.mem_append.mp hc with hc1 | hc2
      · exact hall c hc1
      · rcases List.mem_cons.mp hc2 with hc3 | hc4
        · rw [hc3]; decide
        · exact digit_sanChar c (natStr_all_digits k c hc4)
    · exact hasDoubleUs_append _ _ hdd (hasDoubleUs_us_natStr k)
        (fun hp => hl hp.1)
    · rw [head?_append_left _ _ hne]
      exact hh
    · rw [getLast?_append_ne _ _ (List.cons_ne_nil _ _)]
      cases hnk2 : natStr k with
      | nil => exact absurd hnk2 hnk
      | cons c t =>
        rw [List.getLast?_cons_cons, ← hnk2]
        exact natStr_getLast_ne_us k
  · have hk1 : k = 1 := by omega
    rw [hk1, suffixIf_one]
    exact sanitize_idem y

theorem normColsGo_ids_none (tables : List (List Char)) :
    ∀ (cols : List JsonV) (idx : Nat) (un ui : List (List Char × Nat)),
    cols.all goodNameCol = true →
    cols.all noIdCol = true →
    (∀ x, 0 < getCount ui x →
      ∃ b i, endsUD b = false ∧ 1 ≤ i ∧ i ≤ getCount un b ∧ x = suffixIf b i) →
    (normColsGo tables idx un ui cols).map colIdStr
      = (normColsGo tables idx un ui cols).map colNameStr := by
  intro cols
  induction cols with
  | nil => intro idx un ui _ _ _; rfl
  | cons col rest ih =>
    intro idx un ui hgAll hnAll hinv
    have hga : goodNameCol col = true ∧ rest.all goodNameCol = true := by
      simpa using hgAll
    have hna : noIdCol col = true ∧ rest.all noIdCol = true := by
      simpa using hnAll
    cases col with
    | obj kvs =>
      have hg := hga.1
      rw [show goodNameCol (.obj kvs)
        = ((pyTruthyO (lookupJ kvs ("name".toList))
            || pyTruthyO (lookupJ kvs ("id".toList)))
          && !(endsUD (colNameBase 0 kvs))) from rfl] at hg
      rw [Bool.and_eq_true] at hg
      obtain ⟨hg1, hg2⟩ := hg
      have hfalsy : pyTruthyO (lookupJ kvs ("id".toList)) = false := by
        have hn := hna.1
        rw [show noIdCol (.obj kvs)
          = !(pyTruthyO (lookupJ kvs ("id".toList))) from rfl] at hn
        simpa using hn
      have hb0 : endsUD (colNameBase idx kvs) = false := by
        rw [colNameBase_const idx kvs (by simpa using hg1)]
        simpa using hg2
      have hname : colFinalName idx kvs un
          = suffixIf (colNameBase idx kvs)
              (getCount un (colNameBase idx kvs) + 1) :=
        colFinalName_eq idx kvs un
      have hsan : sanitize_identifier (colFinalName idx kvs un)
          = colFinalName idx kvs un := by
        obtain ⟨y, hy⟩ := colNameBase_sanitized idx kvs
        rw [hname, hy]
        exact sanitize_suffixIf y _ (by omega)
      have hidbase : colIdBase (colFinalName idx kvs un) kvs
          = colFinalName idx kvs un := by
        rw [colIdBase_of_falsy _ _ hfalsy, hsan]
      have hcnt0 : getCount ui (colFinalName idx kvs un) = 0 := by
        by_contra hpos
        obtain ⟨b, i, hbe, hi1, hle, hxe⟩ := hinv _ (Nat.pos_of_ne_zero hpos)
        rw [hname] at hxe
        obtain ⟨hbb, hii⟩ := suffixIf_inj _ _ _ _ hb0 hbe (by omega) hi1 hxe
        rw [← hbb] at hle
        omega
      have hhead : colIdStr (normOneCol tables idx kvs un ui).1
          = colNameStr (normOneCol tables idx kvs un ui).1 := by
        rw [normOneCol_idStr, normOneCol_nameStr, colFinalId_eq, hidbase, hcnt0,
          Nat.zero_add, suffixIf_one]
      have hinv' : ∀ x, 0 < getCount (normOneCol tables idx kvs un ui).2.2 x →
          ∃ b i, endsUD b = false ∧ 1 ≤ i
            ∧ i ≤ getCount (normOneCol tables idx kvs un ui).2.1 b
            ∧ x = suffixIf b i := by
        intro x hx
        rw [(normOneCol_counters tables idx kvs un ui).2,
          getCount_bumpCount] at hx
        rw [(normOneCol_counters tables idx kvs un ui).1]
        by_cases hxn : x = colIdBase (colFinalName idx kvs un) kvs
        · refine ⟨colNameBase idx kvs, getCount un (colNameBase idx kvs) + 1,
            hb0, by omega, ?_, ?_⟩
          · rw [getCount_bumpCount, if_pos rfl]
          · rw [hxn, hidbase, hname]
        · rw [if_neg hxn] at hx
          obtain ⟨b, i, hbe, hi1, hle, hxe⟩ := hinv x (by omega)
          refine ⟨b, i, hbe, hi1, ?_, hxe⟩
          rw [getCount_bumpCount]
          by_cases hbb : b = colNameBase idx kvs
          · rw [if_pos hbb]; omega
          · rw [if_neg hbb]; omega
      have hlist : normColsGo tables idx un ui (JsonV.obj kvs :: rest)
          = (normOneCol tables idx kvs un ui).1
            :: normColsGo tables (idx + 1) (normOneCol tables idx kvs un ui).2.1
                 (normOneCol tables idx kvs un ui).2.2 rest := rfl
      rw [hlist, List.map_cons, List.map_cons, hhead,
        ih (idx + 1) (normOneCol tables idx kvs un ui).2.1
          (normOneCol tables idx kvs un ui).2.2 hga.2 hna.2 hinv']
    | null => exact ih (idx + 1) un ui hga.2 hna.2 hinv
    | bool b => exact ih (idx + 1) un ui hga.2 hna.2 hinv
    | int n => exact ih (idx + 1) un ui hga.2 hna.2 hinv
    | flt t => exact ih (idx + 1) un ui hga.2 hna.2 hinv
    | str v => exact ih (idx + 1) un ui hga.2 hna.2 hinv
    | arr xs => exact ih (idx + 1) un ui hga.2 hna.2 hinv

theorem whileFresh_not_mem (mk : Nat → List Char) (used : List (List Char)) :
    ∀ (fuel : Nat) (cur : List Char) (suffix : Nat),
    (∃ j < fuel, (if j = 0 then cur else mk (suffix + j - 1)) ∉ used) →
    whileFresh mk used fuel cur suffix ∉ used := by
  intro fuel
  induction fuel with
  | zero =>
    rintro cur suffix ⟨j, hj, _⟩
    omega
  | succ n ih =>
    rintro cur suffix ⟨j, hj, hfree⟩
    show (if decide (cur ∈ used) then whileFresh mk used n (mk suffix) (suffix + 1)
      else cur) ∉ used
    split
    · rename_i hcur
      apply ih (mk suffix) (suffix + 1)
      have hj0 : ¬ j = 0 := by
        intro h0
        rw [h0, if_pos rfl] at hfree
        exact hfree (of_decide_eq_true hcur)
      refine ⟨j - 1, by omega, ?_⟩
      by_cases hj1 : j - 1 = 0
      · rw [if_pos hj1]
        have hj2 : j = 1 := by omega
        rw [hj2, if_neg (by omega)] at hfree
        simpa using hfree
      · rw [if_neg hj1]
        rw [if_neg hj0] at hfree
        rw [show suffix + 1 + (j - 1) - 1 = suffix + j - 1 by omega]
        exact hfree
    · rename_i hcur
      exact fun hmem => hcur (decide_eq_true hmem)

theorem whileFresh_exists_fresh (mk : Nat → List Char) (used : List (List Char))
    (init : List Char)
    (hinj : ∀ j1 j2, mk j1 = mk j2 → j1 = j2)
    (hinit : ∀ j, ¬ (init = mk j)) :
    ∃ j < used.length + 2,
      (if j = 0 then init else mk (j + 1)) ∉ used := by
  by_contra hall
  push_neg at hall
  have hsub : ((List.range (used.length + 2)).map
      (fun j => if j = 0 then init else mk (j + 1))) ⊆ used := by
    intro x hx
    rcases List.mem_map.mp hx with ⟨j, hj, hxe⟩
    rw [List.mem_range] at hj
    rw [← hxe]
    exact hall j hj
  have hnd : ((List.range (used.length + 2)).map
      (fun j => if j = 0 then init else mk (j + 1))).Nodup := by
    refine List.Nodup.map_on ?_ (List.nodup_range _)
    intro j1 _ j2 _ he
    by_cases hj1 : j1 = 0 <;> by_cases hj2 : j2 = 0
    · rw [hj1, hj2]
    · rw [if_pos hj1, if_neg hj2] at he
      exact absurd he (hinit _)
    · rw [if_neg hj1, if_pos hj2] at he
      exact absurd he.symm (hinit _)
    · rw [if_neg hj1, if_neg hj2] at he
      have := hinj _ _ he
      omega
  have hlen := List.Subperm.length_le (List.subperm_of_subset hnd hsub)
  simp at hlen

theorem pkFreshName_fresh (used : List (List Char)) :
    pkFreshName used ∉ used := by
  unfold pkFreshName
  apply whileFresh_not_mem
  obtain ⟨j, hj, hfree⟩ := whileFresh_exists_fresh
    (fun s => "id_pk_".toList ++ natStr s) used
    (if decide (("id".toList) ∈ used) then "id_pk".toList else "id".toList)
    (fun j1 j2 he => natStr_inj j1 j2 (by simpa using he))
    (fun j => by
      split
      · intro he
        have hlen := congrArg List.length he
        rw [List.length_append] at hlen
        have hpos : 0 < (natStr j).length :=
          List.length_pos.mpr (natStr_ne_nil j)
        have h5 : ("id_pk".toList).length = 5 := by decide
        have h6 : ("id_pk_".toList).length = 6 := by decide
        omega
      · intro he
        have hlen := congrArg List.length he
        rw [List.length_append] at hlen
        have hpos : 0 < (natStr j).length :=
          List.length_pos.mpr (natStr_ne_nil j)
        have h2 : ("id".toList).length = 2 := by decide
        have h6 : ("id_pk_".toList).length = 6 := by decide
        omega)
  refine ⟨j, hj, ?_⟩
  by_cases hj0 : j = 0
  · rw [if_pos hj0]
    rw [if_pos hj0] at hfree
    exact hfree
  · rw [if_neg hj0]
    rw [if_neg hj0] at hfree
    rw [show 2 + j - 1 = j + 1 by omega]
    exact hfree

theorem tsFreshId_fresh (ts_name : List Char) (ids : List (List Char)) :
    tsFreshId ts_name ids ∉ ids := by
  unfold tsFreshId
  apply whileFresh_not_mem
  obtain ⟨j, hj, hfree⟩ := whileFresh_exists_fresh
    (fun s => ts_name ++ '_' :: natStr s) ids ts_name
    (fun j1 j2 he => by
      have h2 : ('_' :: natStr j1) = ('_' :: natStr j2) :=
        List.append_cancel_left he
      exact natStr_inj j1 j2 (by simpa using h2))
    (fun j he => by
      have hlen := congrArg List.length he
      rw [List.length_append] at hlen
      have hpos : 0 < (natStr j).length :=
        List.length_pos.mpr (natStr_ne_nil j)
      simp at hlen)
  refine ⟨j, hj, ?_⟩
  by_cases hj0 : j = 0
  · rw [if_pos hj0]
    rw [if_pos hj0] at hfree
    exact hfree
  · rw [if_neg hj0]
    rw [if_neg hj0] at hfree
    rw [show 2 + j - 1 = j + 1 by omega]
    exact hfree

theorem colNameStr_mkPkCol (a b : List Char) : colNameStr (mkPkCol a b) = b := rfl

theorem colIdStr_mkPkCol (a b : List Char) : colIdStr (mkPkCol a b) = a := rfl

theorem colNameStr_mkTsCol (a b : List Char) : colNameStr (mkTsCol a b) = b := rfl

theorem colIdStr_mkTsCol (a b : List Char) : colIdStr (mkTsCol a b) = a := rfl

theorem pkInsert_nodup (ncols : List JsonV)
    (hndn : (ncols.map colNameStr).Nodup)
    (hndi : (ncols.map colIdStr).Nodup) :
    (∀ x, x ∈ (pkInsert ncols).2.1 ↔ x ∈ (pkInsert ncols).1.map colNameStr)
    ∧ (∀ x, x ∈ (pkInsert ncols).2.2 ↔ x ∈ (pkInsert ncols).1.map colIdStr)
    ∧ ((pkInsert ncols).1.map colNameStr).Nodup
    ∧ ((pkInsert ncols).1.map colIdStr).Nodup := by
  unfold pkInsert
  split
  · exact ⟨fun x => Iff.rfl, fun x => Iff.rfl, hndn, hndi⟩
  · refine ⟨?_, ?_, ?_, ?_⟩
    · intro x
      show x ∈ ncols.map colNameStr ++ [pkFreshName (ncols.map colNameStr)]
        ↔ x ∈ (mkPkCol (pkFreshName (ncols.map colIdStr))
            (pkFreshName (ncols.map colNameStr)) :: ncols).map colNameStr
      rw [List.map_cons, colNameStr_mkPkCol]
      simp [List.mem_append, or_comm]
    · intro x
      show x ∈ ncols.map colIdStr ++ [pkFreshName (ncols.map colIdStr)]
        ↔ x ∈ (mkPkCol (pkFreshName (ncols.map colIdStr))
            (pkFreshName (ncols.map colNameStr)) :: ncols).map colIdStr
      rw [List.map_cons, colIdStr_mkPkCol]
      simp [List.mem_append, or_comm]
    · rw [List.map_cons, colNameStr_mkPkCol, List.nodup_cons]
      exact ⟨pkFreshName_fresh _, hndn⟩
    · rw [List.map_cons, colIdStr_mkPkCol, List.nodup_cons]
      exact ⟨pkFreshName_fresh _, hndi⟩

theorem tsStep_nodup (n : List Char)
    (st : List JsonV × List (List Char) × List (List Char))
    (hn : ∀ x, x ∈ st.2.1 ↔ x ∈ st.1.map colNameStr)
    (hi : ∀ x, x ∈ st.2.2 ↔ x ∈ st.1.map colIdStr)
    (hndn : (st.1.map colNameStr).Nodup)
    (hndi : (st.1.map colIdStr).Nodup) :
    (∀ x, x ∈ (tsStep n st).2.1 ↔ x ∈ (tsStep n st).1.map colNameStr)
    ∧ (∀ x, x ∈ (tsStep n st).2.2 ↔ x ∈ (tsStep n st).1.map colIdStr)
    ∧ ((tsStep n st).1.map colNameStr).Nodup
    ∧ ((tsStep n st).1.map colIdStr).Nodup := by
  unfold tsStep
  split
  · exact ⟨hn, hi, hndn, hndi⟩
  · rename_i hmem
    have hnm : n ∉ st.1.map colNameStr :=
      fun hx => hmem (decide_eq_true ((hn n).mpr hx))
    have hfresh := tsFreshId_fresh n st.2.2
    have hid : tsFreshId n st.2.2 ∉ st.1.map colIdStr :=
      fun hx => hfresh ((hi _).mpr hx)
    refine ⟨?_, ?_, ?_, ?_⟩
    · intro x
      show x ∈ st.2.1 ++ [n]
        ↔ x ∈ (st.1 ++ [mkTsCol (tsFreshId n st.2.2) n]).map colNameStr
      rw [List.map_append, List.map_cons]
      simp only [List.mem_append, hn x, List.map_nil, colNameStr_mkTsCol]
    · intro x
      show x ∈ st.2.2 ++ [tsFreshId n st.2.2]
        ↔ x ∈ (st.1 ++ [mkTsCol (tsFreshId n st.2.2) n]).map colIdStr
      rw [List.map_append, List.map_cons]
      simp only [List.mem_append, hi x, List.map_nil, colIdStr_mkTsCol]
    · show ((st.1 ++ [mkTsCol (tsFreshId n st.2.2) n]).map colNameStr).Nodup
      rw [List.map_append, List.map_cons, List.map_nil, colNameStr_mkTsCol,
        List.nodup_append]
      refine ⟨hndn, List.nodup_singleton _, ?_⟩
      intro a ha hb
      rw [List.mem_singleton.mp hb] at ha
      exact hnm ha
    · show ((st.1 ++ [mkTsCol (tsFreshId n st.2.2) n]).map colIdStr).Nodup
      rw [List.map_append, List.map_cons, List.map_nil, colIdStr_mkTsCol,
        List.nodup_append]
      refine ⟨hndi, List.nodup_singleton _, ?_⟩
      intro a ha hb
      rw [List.mem_singleton.mp hb] at ha
      exact hid ha

theorem tsInsert_nodup (p : List Char)
    (st : List JsonV × List (List Char) × List (List Char))
    (hn : ∀ x, x ∈ st.2.1 ↔ x ∈ st.1.map colNameStr)
    (hi : ∀ x, x ∈ st.2.2 ↔ x ∈ st.1.map colIdStr)
    (hndn : (st.1.map colNameStr).Nodup)
    (hndi : (st.1.map colIdStr).Nodup) :
    ((tsInsert p st).1.map colNameStr).Nodup
    ∧ ((tsInsert p st).1.map colIdStr).Nodup := by
  unfold tsInsert
  split
  · obtain ⟨a1, b1, c1, d1⟩ := tsStep_nodup ("created_at".toList) st hn hi hndn hndi
    obtain ⟨_, _, c2, d2⟩ := tsStep_nodup ("updated_at".toList) _ a1 b1 c1 d1
    exact ⟨c2, d2⟩
  · exact ⟨hndn, hndi⟩

theorem normColsGo_nodup_both (r : JsonV) (p s : List Char)
    (hgood : (colsIn r p).all goodNameCol = true)
    (hids : (colsIn r p).all noIdCol = true
      ∨ (colsIn r p).all goodIdCol = true) :
    ((normColsGo (extract_schema_table_names s) 0 [] []
        (colsIn r p)).map colNameStr).Nodup
    ∧ ((normColsGo (extract_schema_table_names s) 0 [] []
        (colsIn r p)).map colIdStr).Nodup := by
  have hndn : ((normColsGo (extract_schema_table_names s) 0 [] []
      (colsIn r p)).map colNameStr).Nodup :=
    (normColsGo_names (extract_schema_table_names s) (colsIn r p) 0 [] []
      hgood).1
  refine ⟨hndn, ?_⟩
  rcases hids with h | h
  · have hinv : ∀ x, 0 < getCount ([] : List (List Char × Nat)) x →
        ∃ b i, endsUD b = false ∧ 1 ≤ i
          ∧ i ≤ getCount ([] : List (List Char × Nat)) b
          ∧ x = suffixIf b i := by
      intro x hx
      have h0 : getCount ([] : List (List Char × Nat)) x = 0 := rfl
      rw [h0] at hx
      exact absurd hx (Nat.lt_irrefl 0)
    rw [normColsGo_ids_none (extract_schema_table_names s) (colsIn r p)
      0 [] [] hgood h hinv]
    exact hndn
  · exact (normColsGo_ids_truthy (extract_schema_table_names s) (colsIn r p)
      0 [] [] h).1

theorem tsInsert_state (p : List Char)
    (st : List JsonV × List (List Char) × List (List Char))
    (hn : ∀ x, x ∈ st.2.1 ↔ x ∈ st.1.map colNameStr)
    (hi : ∀ x, x ∈ st.2.2 ↔ x ∈ st.1.map colIdStr)
    (hndn : (st.1.map colNameStr).Nodup)
    (hndi : (st.1.map colIdStr).Nodup) :
    (∀ x, x ∈ (tsInsert p st).2.1 ↔ x ∈ (tsInsert p st).1.map colNameStr)
    ∧ (∀ x, x ∈ (tsInsert p st).2.2 ↔ x ∈ (tsInsert p st).1.map colIdStr)
    ∧ ((tsInsert p st).1.map colNameStr).Nodup
    ∧ ((tsInsert p st).1.map colIdStr).Nodup := by
  unfold tsInsert
  split
  · obtain ⟨a1, b1, c1, d1⟩ := tsStep_nodup ("created_at".toList) st hn hi
      hndn hndi
    exact tsStep_nodup ("updated_at".toList) _ a1 b1 c1 d1
  · exact ⟨hn, hi, hndn, hndi⟩

theorem finalState_facts (r : JsonV) (p s : List Char)
    (hgood : (colsIn r p).all goodNameCol = true)
    (hids : (colsIn r p).all noIdCol = true
      ∨ (colsIn r p).all goodIdCol = true) :
    (∀ x, x ∈ (tsInsert p (pkInsert (normColsGo (extract_schema_table_names s)
        0 [] [] (colsIn r p)))).2.1
      ↔ x ∈ (tsInsert p (pkInsert (normColsGo (extract_schema_table_names s)
        0 [] [] (colsIn r p)))).1.map colNameStr)
    ∧ (∀ x, x ∈ (tsInsert p (pkInsert (normColsGo (extract_schema_table_names s)
        0 [] [] (colsIn r p)))).2.2
      ↔ x ∈ (tsInsert p (pkInsert (normColsGo (extract_schema_table_names s)
        0 [] [] (colsIn r p)))).1.map colIdStr)
    ∧ ((tsInsert p (pkInsert (normColsGo (extract_schema_table_names s)
        0 [] [] (colsIn r p)))).1.map colNameStr).Nodup
    ∧ ((tsInsert p (pkInsert (normColsGo (extract_schema_table_names s)
        0 [] [] (colsIn r p)))).1.map colIdStr).Nodup := by
  obtain ⟨hndn, hndi⟩ := normColsGo_nodup_both r p s hgood hids
  obtain ⟨a1, b1, c1, d1⟩ := pkInsert_nodup _ hndn hndi
  exact tsInsert_state p _ a1 b1 c1 d1

/-- Claim C5 counterexample: supplied column names a, a, a_2 normalize to
name values a, a_2, a_2 — the second column collides with the first and
is renamed a_2, while the third column's base a_2 is first-seen and gets
no suffix — so the name values of the normalized table are not pairwise
distinct. -/
theorem normalize_duplicate_names :
    ¬ ((columnsOf (normalize_table_result (.obj [("columns".toList, .arr
        [.obj [("name".toList, .str ("a".toList))],
         .obj [("name".toList, .str ("a".toList))],
         .obj [("name".toList, .str ("a_2".toList))]])]) [] [])).map
        colNameStr).Nodup := by
  decide

/-- Claim C5 (amended): when every supplied mapping column resolves its
name without the positional fallback and its sanitized name base carries
no trailing underscore-digit suffix, and either no supplied column has a
truthy id or every supplied column has a truthy id whose sanitized base
also carries no such suffix, the name values of the normalized columns
are pairwise distinct and the id values are pairwise distinct, collisions
being resolved by appending an underscore and the occurrence count; in
particular two supplied columns both named User Name normalize to
user_name and user_name_2. -/
theorem normalize_unique_names_ids_amended (r : JsonV) (p s : List Char)
    (hgood : (colsIn r p).all goodNameCol = true)
    (hids : (colsIn r p).all noIdCol = true
      ∨ (colsIn r p).all goodIdCol = true) :
    ((columnsOf (normalize_table_result r p s)).map colNameStr).Nodup
    ∧ ((columnsOf (normalize_table_result r p s)).map colIdStr).Nodup
    ∧ (columnsOf (normalize_table_result (.obj [("columns".toList, .arr
          [.obj [("name".toList, .str ("User Name".toList))],
           .obj [("name".toList, .str ("User Name".toList))]])]) [] [])).map
        colNameStr
      = ["id".toList, "user_name".toList, "user_name_2".toList,
         "created_at".toList, "updated_at".toList] := by
  obtain ⟨_, _, hc2, hd2⟩ := finalState_facts r p s hgood hids
  rw [columnsOf_normalize]
  exact ⟨hc2, hd2, by decide⟩

/-- Witness for the amended C5 theorem at the two User Name columns. -/
theorem normalize_unique_names_ids_amended_witness :
    ((colsIn (.obj [("columns".toList, .arr
        [.obj [("name".toList, .str ("User Name".toList))],
         .obj [("name".toList, .str ("User Name".toList))]])]) []).all
      goodNameCol = true)
    ∧ ((colsIn (.obj [("columns".toList, .arr
        [.obj [("name".toList, .str ("User Name".toList))],
         .obj [("name".toList, .str ("User Name".toList))]])]) []).all
      noIdCol = true)
    ∧ (((columnsOf (normalize_table_result (.obj [("columns".toList, .arr
          [.obj [("name".toList, .str ("User Name".toList))],
           .obj [("name".toList, .str ("User Name".toList))]])]) [] [])).map
        colNameStr).Nodup
      ∧ ((columnsOf (normalize_table_result (.obj [("columns".toList, .arr
          [.obj [("name".toList, .str ("User Name".toList))],
           .obj [("name".toList, .str ("User Name".toList))]])]) [] [])).map
        colIdStr).Nodup
      ∧ (columnsOf (normalize_table_result (.obj [("columns".toList, .arr
          [.obj [("name".toList, .str ("User Name".toList))],
           .obj [("name".toList, .str ("User Name".toList))]])]) [] [])).map
        colNameStr
      = ["id".toList, "user_name".toList, "user_name_2".toList,
         "created_at".toList, "updated_at".toList]) :=
  ⟨by decide, by decide,
    normalize_unique_names_ids_amended
      (.obj [("columns".toList, .arr
        [.obj [("name".toList, .str ("User Name".toList))],
         .obj [("name".toList, .str ("User Name".toList))]])]) [] []
      (by decide) (.inl (by decide))⟩

theorem normColsGo_mem_inv (tables : List (List Char)) :
    ∀ (cols : List JsonV) (idx : Nat) (un ui : List (List Char × Nat)) (c : JsonV),
    c ∈ normColsGo tables idx un ui cols →
    ∃ i kvs un2 ui2, c = (normOneCol tables i kvs un2 ui2).1 := by
  intro cols
  induction cols with
  | nil => intro idx un ui c hc; cases hc
  | cons col rest ih =>
    intro idx un ui c hc
    cases col with
    | obj kvs =>
      have hc2 : c ∈ (normOneCol tables idx kvs un ui).1
          :: normColsGo tables (idx + 1) (normOneCol tables idx kvs un ui).2.1
               (normOneCol tables idx kvs un ui).2.2 rest := hc
      rcases List.mem_cons.mp hc2 with he | ht
      · exact ⟨idx, kvs, un, ui, he⟩
      · exact ih (idx + 1) _ _ c ht
    | null => exact ih (idx + 1) un ui c hc
    | bool b => exact ih (idx + 1) un ui c hc
    | int n => exact ih (idx + 1) un ui c hc
    | flt t => exact ih (idx + 1) un ui c hc
    | str v => exact ih (idx + 1) un ui c hc
    | arr xs => exact ih (idx + 1) un ui c hc

theorem pkInsert_mem_inv (nc : List JsonV) (c : JsonV)
    (h : c ∈ (pkInsert nc).1) :
    c ∈ nc ∨ c = mkPkCol (pkFreshName (nc.map colIdStr))
      (pkFreshName (nc.map colNameStr)) := by
  revert h
  unfold pkInsert
  split
  · exact fun h => .inl h
  · intro h
    rcases List.mem_cons.mp h with he | h2
    · exact .inr he
    · exact .inl h2

theorem tsStep_mem_inv (n : List Char)
    (st : List JsonV × List (List Char) × List (List Char)) (c : JsonV)
    (h : c ∈ (tsStep n st).1) :
    c ∈ st.1 ∨ c = mkTsCol (tsFreshId n st.2.2) n := by
  revert h
  unfold tsStep
  split
  · exact fun h => .inl h
  · intro h
    rcases List.mem_append.mp h with h1 | h2
    · exact .inl h1
    · exact .inr (List.mem_singleton.mp h2)

theorem tsInsert_mem_inv (p : List Char)
    (st : List JsonV × List (List Char) × List (List Char)) (c : JsonV)
    (h : c ∈ (tsInsert p st).1) :
    c ∈ st.1
    ∨ (∃ l, c = mkTsCol (tsFreshId ("created_at".toList) l) ("created_at".toList))
    ∨ (∃ l, c = mkTsCol (tsFreshId ("updated_at".toList) l)
        ("updated_at".toList)) := by
  revert h
  unfold tsInsert
  split
  · intro h
    rcases tsStep_mem_inv _ _ _ h with h1 | he
    · rcases tsStep_mem_inv _ _ _ h1 with h2 | he
      · exact .inl h2
      · exact .inr (.inl ⟨_, he⟩)
    · exact .inr (.inr ⟨_, he⟩)
  · exact fun h => .inl h

theorem toNat_ofNat_small (m : Nat) (h : m < 55296) :
    (Char.ofNat m).toNat = m := by
  unfold Char.ofNat
  rw [dif_pos (Or.inl h)]
  rfl

theorem toLower_fix_of_not_upper (d : Char)
    (hd : ¬ (Char.toNat d ≥ 65 ∧ Char.toNat d ≤ 90)) : Char.toLower d = d := by
  show (if Char.toNat d ≥ 65 ∧ Char.toNat d ≤ 90
    then Char.ofNat (Char.toNat d + 32) else d) = d
  rw [if_neg hd]

theorem toLower_toLower (c : Char) :
    Char.toLower (Char.toLower c) = Char.toLower c := by
  by_cases h : Char.toNat c ≥ 65 ∧ Char.toNat c ≤ 90
  · have h1 : Char.toLower c = Char.ofNat (Char.toNat c + 32) := by
      show (if Char.toNat c ≥ 65 ∧ Char.toNat c ≤ 90
        then Char.ofNat (Char.toNat c + 32) else c) = _
      rw [if_pos h]
    have h2 : Char.toNat (Char.ofNat (Char.toNat c + 32)) = Char.toNat c + 32 :=
      toNat_ofNat_small _ (by omega)
    rw [h1]
    apply toLower_fix_of_not_upper
    rw [h2]
    omega
  · rw [toLower_fix_of_not_upper c h, toLower_fix_of_not_upper c h]

theorem lowerL_idem (l : List Char) : lowerL (lowerL l) = lowerL l := by
  unfold lowerL
  rw [List.map_map]
  exact List.map_congr_left (fun c _ => toLower_toLower c)

theorem intStr_ne_nil (n : Int) : ¬ (intStr n = []) := by
  unfold intStr
  split
  · exact fun he => List.cons_ne_nil _ _ he
  · exact natStr_ne_nil _

theorem pyStr_truthy_ne_nil (v : JsonV) (h : pyTruthy v = true) :
    ¬ (pyStr v = []) := by
  cases v with
  | null => exact Bool.noConfusion h
  | bool b =>
    cases b with
    | false => exact Bool.noConfusion h
    | true => exact by decide
  | int n => exact intStr_ne_nil n
  | flt t =>
    intro he
    have ht : t = [] := he
    rw [ht] at h
    exact Bool.noConfusion h
  | str s =>
    intro he
    rw [show pyStr (.str s) = s from rfl] at he
    rw [he] at h
    exact Bool.noConfusion h
  | arr xs => exact fun he => List.cons_ne_nil _ _ he
  | obj kvs => exact fun he => List.cons_ne_nil _ _ he

theorem pyTruthyO_some (o : Option JsonV) (h : pyTruthyO o = true) :
    ∃ v, o = some v ∧ pyTruthy v = true := by
  cases o with
  | none => exact Bool.noConfusion h
  | some v => exact ⟨v, rfl, h⟩

theorem synthQual_obj (kvs : List (List Char × JsonV)) :
    synthQual (.obj kvs) = (pyTruthyO (lookupJ kvs ("isForeignKey".toList))
      && pyTruthyO (lookupJ kvs ("referencedTable".toList))) := rfl

theorem fkRefFill_eq (tables : List (List Char)) (name : List Char)
    (is_fk : Bool) (m : List (List Char × JsonV)) :
    fkRefFill tables name is_fk m =
      if is_fk && !(pyTruthyO (lookupJ m ("referencedTable".toList)))
          && !(decide (tables = [])) then
        match fkProbe tables name with
        | some ref =>
          setJ (setJ m ("referencedTable".toList) (.str ref))
            ("referencedColumn".toList)
            (pyOrO (lookupJ (setJ m ("referencedTable".toList) (.str ref))
              ("referencedColumn".toList)) (.str ("id".toList)))
        | none => m
      else m := rfl

theorem fkRefFill_id_of_disj (tables : List (List Char)) (name : List Char)
    (is_fk : Bool) (m : List (List Char × JsonV))
    (h : is_fk = false ∨ pyTruthyO (lookupJ m ("referencedTable".toList)) = true
      ∨ tables = [] ∨ fkProbe tables name = none) :
    fkRefFill tables name is_fk m = m := by
  rw [fkRefFill_eq]
  rcases h with h | h | h | h
  · rw [h, Bool.false_and, Bool.false_and]
    rfl
  · rw [h, Bool.not_true, Bool.and_false, Bool.false_and]
    rfl
  · rw [h, decide_eq_true (rfl : ([] : List (List Char)) = []), Bool.not_true,
      Bool.and_false]
    rfl
  · split
    · rw [h]
    · rfl

theorem fkRefFill_refT_dichotomy (tables : List (List Char)) (name : List Char)
    (m : List (List Char × JsonV)) (hne : ∀ t ∈ tables, ¬ (t = []))
    (hf : pyTruthyO (lookupJ (fkRefFill tables name true m)
      ("referencedTable".toList)) = false) :
    tables = [] ∨ fkProbe tables name = none := by
  by_cases hnil : tables = []
  · exact Or.inl hnil
  · right
    by_cases hrt : pyTruthyO (lookupJ m ("referencedTable".toList)) = true
    · rw [fkRefFill_eq_of_truthy _ _ _ _ hrt, hrt] at hf
      exact Bool.noConfusion hf
    · have hrtf : pyTruthyO (lookupJ m ("referencedTable".toList)) = false := by
        cases h2 : pyTruthyO (lookupJ m ("referencedTable".toList)) with
        | false => rfl
        | true => exact absurd h2 hrt
      have hcond : (true && !(pyTruthyO (lookupJ m ("referencedTable".toList)))
          && !(decide (tables = []))) = true := by
        rw [hrtf, decide_eq_false hnil]
        rfl
      cases hp : fkProbe tables name with
      | none => rfl
      | some ref =>
        rw [fkRefFill_eq, if_pos hcond, hp] at hf
        rw [lookupJ_setJ,
          if_neg (by decide :
            ¬ ("referencedColumn".toList = "referencedTable".toList)),
          lookupJ_setJ, if_pos rfl] at hf
        have hrefnil : ref = [] := by
          have h3 : (!(decide (ref = []))) = false := hf
          have h4 : decide (ref = []) = true := by
            cases h5 : decide (ref = []) with
            | true => rfl
            | false => rw [h5] at h3; exact Bool.noConfusion h3
          exact of_decide_eq_true h4
        have hmem : ref ∈ tables := by
          dsimp only [fkProbe] at hp
          have h6 := List.find?_some hp
          exact of_decide_eq_true h6
        exact absurd hrefnil (hne ref hmem)

theorem lookupJ_normOneCol_isFK (tables : List (List Char)) (idx : Nat)
    (col : List (List Char × JsonV)) (un ui : List (List Char × Nat)) :
    pyGet (normOneCol tables idx col un ui).1 ("isForeignKey".toList)
      = some (.bool (match lookupJ col ("isForeignKey".toList) with
          | some v => pyTruthy v
          | none => ("_id".toList.isSuffixOf (colFinalName idx col un))
              && !(colFinalName idx col un = "id".toList))) := by
  rw [normOneCol_fst, pyGet_obj,
    lookupJ_fkRefFill _ _ _ _ _ (by decide) (by decide), lookupJ_merge6]
  rw [if_neg (by decide : ¬ ("isNullable".toList = "isForeignKey".toList)),
    if_pos rfl]

theorem lineTableName_props (ln g : List Char) (h : lineTableName ln = some g) :
    sanitize_identifier g = g ∧ ¬ (g = []) := by
  dsimp only [lineTableName] at h
  split at h
  · split at h
    · exact Option.noConfusion h
    · split at h
      · exact Option.noConfusion h
      · split at h
        · have hg := Option.some.inj h
          rw [← hg]
          exact ⟨sanitize_idem _, (sanitize_identifier_spec _).1⟩
        · exact Option.noConfusion h
  · exact Option.noConfusion h

theorem extract_schema_table_names_nonempty (s : List Char) :
    ∀ t ∈ extract_schema_table_names s, ¬ (t = []) := by
  intro t ht
  unfold extract_schema_table_names at ht
  split at ht
  · exact absurd ht (List.not_mem_nil t)
  · obtain ⟨ln, _, he⟩ := List.mem_filterMap.mp ht
    exact (lineTableName_props ln t he).2

theorem normColsGo_map_pk (tables : List (List Char)) :
    ∀ (cols : List JsonV) (idx : Nat) (un ui : List (List Char × Nat)),
    (∀ c ∈ cols, ∃ kvs, c = JsonV.obj kvs) →
    (normColsGo tables idx un ui cols).map pkPred = cols.map pkPred := by
  intro cols
  induction cols with
  | nil => intro idx un ui _; rfl
  | cons col rest ih =>
    intro idx un ui hobj
    obtain ⟨kvs, he⟩ := hobj col (List.mem_cons_self _ _)
    subst he
    show (((normOneCol tables idx kvs un ui).1) ::
      normColsGo tables (idx + 1) (normOneCol tables idx kvs un ui).2.1
        (normOneCol tables idx kvs un ui).2.2 rest).map pkPred = _
    rw [List.map_cons, List.map_cons, normOneCol_isPK,
      ih _ _ _ (fun c hc => hobj c (List.mem_cons_of_mem _ hc))]
    rfl

theorem normOneCol_fk_facts (tables : List (List Char)) (idx : Nat)
    (col : List (List Char × JsonV)) (un ui : List (List Char × Nat))
    (hne : ∀ t ∈ tables, ¬ (t = [])) :
    (∃ b, pyGet (normOneCol tables idx col un ui).1 ("isForeignKey".toList)
        = some (.bool b))
    ∧ (pyTruthyO (pyGet (normOneCol tables idx col un ui).1
          ("isForeignKey".toList)) = true →
       pyTruthyO (pyGet (normOneCol tables idx col un ui).1
          ("referencedTable".toList)) = false →
       tables = []
       ∨ fkProbe tables (colNameStr (normOneCol tables idx col un ui).1)
           = none) := by
  constructor
  · exact ⟨_, lookupJ_normOneCol_isFK tables idx col un ui⟩
  · intro hfk hrt
    rw [normOneCol_nameStr]
    rw [lookupJ_normOneCol_isFK] at hfk
    have hisfk : (match lookupJ col ("isForeignKey".toList) with
        | some v => pyTruthy v
        | none => ("_id".toList.isSuffixOf (colFinalName idx col un))
            && !(colFinalName idx col un = "id".toList)) = true := hfk
    rw [normOneCol_fst, pyGet_obj, hisfk] at hrt
    exact fkRefFill_refT_dichotomy tables (colFinalName idx col un) _ hne hrt

theorem finalColumns_fk_facts (r : JsonV) (p s : List Char) :
    ∀ c ∈ finalColumns r p s,
      (∃ b, pyGet c ("isForeignKey".toList) = some (.bool b))
      ∧ (pyTruthyO (pyGet c ("isForeignKey".toList)) = true →
         pyTruthyO (pyGet c ("referencedTable".toList)) = false →
         extract_schema_table_names s = []
         ∨ fkProbe (extract_schema_table_names s) (colNameStr c) = none) := by
  intro c hc
  have hc2 : c ∈ (tsInsert p (pkInsert (normColsGo (extract_schema_table_names s)
      0 [] [] (colsIn r p)))).1 := hc
  rcases tsInsert_mem_inv _ _ _ hc2 with hin | ⟨l, he⟩ | ⟨l, he⟩
  · rcases pkInsert_mem_inv _ _ hin with hin2 | he
    · obtain ⟨i, kvs0, un2, ui2, he⟩ := normColsGo_mem_inv _ _ _ _ _ _ hin2
      rw [he]
      exact normOneCol_fk_facts _ _ _ _ _
        (extract_schema_table_names_nonempty s)
    · rw [he]
      exact ⟨⟨false, rfl⟩, fun h1 _ => absurd h1 Bool.false_ne_true⟩
  · rw [he]
    exact ⟨⟨false, rfl⟩, fun h1 _ => absurd h1 Bool.false_ne_true⟩
  · rw [he]
    exact ⟨⟨false, rfl⟩, fun h1 _ => absurd h1 Bool.false_ne_true⟩

theorem normOneCol_synthQual (tables : List (List Char)) (idx : Nat)
    (col : List (List Char × JsonV)) (un ui : List (List Char × Nat))
    (b : Bool) (hb : lookupJ col ("isForeignKey".toList) = some (.bool b))
    (hname : colFinalName idx col un = colNameStr (.obj col))
    (hprov : pyTruthyO (lookupJ col ("isForeignKey".toList)) = true →
      pyTruthyO (lookupJ col ("referencedTable".toList)) = false →
      tables = [] ∨ fkProbe tables (colNameStr (.obj col)) = none) :
    synthQual (normOneCol tables idx col un ui).1 = synthQual (.obj col) := by
  have hfkout : pyGet (normOneCol tables idx col un ui).1 ("isForeignKey".toList)
      = some (.bool b) := by
    rw [lookupJ_normOneCol_isFK, hb]
    rfl
  have hq : synthQual (normOneCol tables idx col un ui).1
      = (b && pyTruthyO (pyGet (normOneCol tables idx col un ui).1
          ("referencedTable".toList))) := by
    rw [normOneCol_fst]
    rw [normOneCol_fst, pyGet_obj] at hfkout
    rw [synthQual_obj, hfkout]
    rfl
  have hqin : synthQual (.obj col)
      = (b && pyTruthyO (lookupJ col ("referencedTable".toList))) := by
    rw [synthQual_obj, hb]
    rfl
  cases b with
  | false =>
    rw [hq, hqin, Bool.false_and, Bool.false_and]
  | true =>
    rw [hq, hqin, Bool.true_and, Bool.true_and]
    by_cases hrt : pyTruthyO (lookupJ col ("referencedTable".toList)) = true
    · rw [(normOneCol_ref_preserved tables idx col un ui hrt).1, hrt]
    · have hrtf : pyTruthyO (lookupJ col ("referencedTable".toList)) = false := by
        cases h2 : pyTruthyO (lookupJ col ("referencedTable".toList)) with
        | false => rfl
        | true => exact absurd h2 hrt
      have hdisj := hprov (by rw [hb]; rfl) hrtf
      have hdisj2 : (match lookupJ col ("isForeignKey".toList) with
          | some v => pyTruthy v
          | none => ("_id".toList.isSuffixOf (colFinalName idx col un))
              && !(colFinalName idx col un = "id".toList)) = false
          ∨ pyTruthyO (lookupJ (mergeJ col
              [("id".toList, .str (colFinalId idx col un ui)),
               ("name".toList, .str (colFinalName idx col un)),
               ("type".toList, .str (normalize_column_type (pyStr
                 (match lookupJ col ("type".toList) with
                   | some v => v
                   | none => .str [])))),
               ("isPrimaryKey".toList,
                 .bool (pyTruthyO (lookupJ col ("isPrimaryKey".toList)))),
               ("isForeignKey".toList,
                 .bool (match lookupJ col ("isForeignKey".toList) with
                   | some v => pyTruthy v
                   | none => ("_id".toList.isSuffixOf (colFinalName idx col un))
                       && !(colFinalName idx col un = "id".toList))),
               ("isNullable".toList,
                 .bool (if pyTruthyO (lookupJ col ("isPrimaryKey".toList))
                     then false
                   else match lookupJ col ("isNullable".toList) with
                     | some v => pyTruthy v
                     | none => !(pyTruthyO (lookupJ col ("isPrimaryKey".toList))
                         || (match lookupJ col ("isForeignKey".toList) with
                           | some v => pyTruthy v
                           | none => ("_id".toList.isSuffixOf
                                 (colFinalName idx col un))
                               && !(colFinalName idx col un = "id".toList)))))])
              ("referencedTable".toList)) = true
          ∨ tables = []
          ∨ fkProbe tables (colFinalName idx col un) = none := by
        rcases hdisj with h | h
        · exact Or.inr (Or.inr (Or.inl h))
        · refine Or.inr (Or.inr (Or.inr ?_))
          rw [hname]
          exact h
      have hident : pyGet (normOneCol tables idx col un ui).1
          ("referencedTable".toList)
          = lookupJ col ("referencedTable".toList) := by
        rw [normOneCol_fst, pyGet_obj, fkRefFill_id_of_disj _ _ _ _ hdisj2]
        exact lookupJ_merge6_other col _ _ _ _ _ _ _ (by decide) (by decide)
          (by decide) (by decide) (by decide) (by decide)
      rw [hident]

theorem normColsGo_synthQual (tables : List (List Char)) :
    ∀ (cols : List JsonV) (idx : Nat) (un ui : List (List Char × Nat)),
    (∀ c ∈ cols, ∃ nm idv, (∃ kvs, c = JsonV.obj kvs)
      ∧ pyGet c ("name".toList) = some (.str nm)
      ∧ pyGet c ("id".toList) = some (.str idv)
      ∧ ¬ (nm = []) ∧ sanitize_identifier nm = nm
      ∧ ¬ (idv = []) ∧ sanitize_identifier idv = idv) →
    (∀ c ∈ cols, (∃ b, pyGet c ("isForeignKey".toList) = some (.bool b))
      ∧ (pyTruthyO (pyGet c ("isForeignKey".toList)) = true →
         pyTruthyO (pyGet c ("referencedTable".toList)) = false →
         tables = [] ∨ fkProbe tables (colNameStr c) = none)) →
    (cols.map colNameStr).Nodup →
    (∀ c ∈ cols, getCount un (colNameStr c) = 0) →
    (normColsGo tables idx un ui cols).map synthQual = cols.map synthQual := by
  intro cols
  induction cols with
  | nil => intro idx un ui _ _ _ _; rfl
  | cons col rest ih =>
    intro idx un ui hform hfk hndn hzn
    obtain ⟨nm, idv, ⟨kvs, hobj⟩, hnm, hidv, hnm0, hnmf, hid0, hidf⟩ :=
      hform col (List.mem_cons_self _ _)
    subst hobj
    have hcn : colNameStr (JsonV.obj kvs) = nm := by
      unfold colNameStr
      rw [hnm]
    have hnmL : lookupJ kvs ("name".toList) = some (.str nm) := hnm
    have htr : pyTruthyO (lookupJ kvs ("name".toList)) = true := by
      rw [hnmL]
      show (!(decide (nm = []))) = true
      rw [decide_eq_false hnm0]
      rfl
    have hbase : colNameBase idx kvs = nm := by
      unfold colNameBase
      rw [pyOrO_truthy_eq _ _ htr, hnmL]
      exact hnmf
    have hz1 : getCount un nm = 0 := by
      have h0 := hzn (JsonV.obj kvs) (List.mem_cons_self _ _)
      rwa [hcn] at h0
    have hfname : colFinalName idx kvs un = nm := by
      rw [colFinalName_eq, hbase, hz1, Nat.zero_add, suffixIf_one]
    obtain ⟨⟨b, hb⟩, hprov⟩ := hfk (JsonV.obj kvs) (List.mem_cons_self _ _)
    have hhead : synthQual (normOneCol tables idx kvs un ui).1
        = synthQual (JsonV.obj kvs) :=
      normOneCol_synthQual tables idx kvs un ui b hb
        (by rw [hfname, hcn]) hprov
    have hnotin : nm ∉ rest.map colNameStr := by
      have h0 := hndn
      rw [List.map_cons, hcn] at h0
      exact (List.nodup_cons.mp h0).1
    have hzn2 : ∀ c ∈ rest, getCount (normOneCol tables idx kvs un ui).2.1
        (colNameStr c) = 0 := by
      intro c hcr
      rw [(normOneCol_counters tables idx kvs un ui).1, hbase,
        getCount_bumpCount]
      have h0 := hzn c (List.mem_cons_of_mem _ hcr)
      have hne2 : ¬ (colNameStr c = nm) := by
        intro heq
        exact hnotin (List.mem_map.mpr ⟨c, hcr, heq⟩)
      rw [if_neg hne2, h0]
    have hndn2 : (rest.map colNameStr).Nodup := by
      have h0 := hndn
      rw [List.map_cons] at h0
      exact (List.nodup_cons.mp h0).2
    show (((normOneCol tables idx kvs un ui).1) ::
      normColsGo tables (idx + 1) (normOneCol tables idx kvs un ui).2.1
        (normOneCol tables idx kvs un ui).2.2 rest).map synthQual = _
    rw [List.map_cons, List.map_cons, hhead,
      ih (idx + 1) (normOneCol tables idx kvs un ui).2.1
        (normOneCol tables idx kvs un ui).2.2
        (fun c hcr => hform c (List.mem_cons_of_mem _ hcr))
        (fun c hcr => hfk c (List.mem_cons_of_mem _ hcr))
        hndn2 hzn2]

theorem relConf_props (kvs : List (List Char × JsonV)) :
    ¬ (relConf kvs = []) ∧ lowerL (relConf kvs) = relConf kvs := by
  unfold relConf
  cases hvv : lookupJ kvs ("confidence".toList) with
  | none => exact ⟨by decide, by decide⟩
  | some v =>
    show ¬ ((if pyTruthy v = true then lowerL (pyStr v)
        else "medium".toList) = [])
      ∧ lowerL (if pyTruthy v = true then lowerL (pyStr v)
          else "medium".toList)
        = (if pyTruthy v = true then lowerL (pyStr v) else "medium".toList)
    by_cases ht : pyTruthy v = true
    · rw [if_pos ht]
      exact ⟨fun hnil => pyStr_truthy_ne_nil v ht (List.map_eq_nil_iff.mp hnil),
        lowerL_idem _⟩
    · rw [if_neg ht]
      exact ⟨by decide, by decide⟩

theorem relRsn_props (kvs : List (List Char × JsonV)) :
    ¬ (relRsn kvs = []) := by
  unfold relRsn
  cases hvv : lookupJ kvs ("reason".toList) with
  | none => exact by decide
  | some v =>
    show ¬ ((if pyTruthy v = true then pyStr v
        else "Inferred relationship".toList) = [])
    by_cases ht : pyTruthy v = true
    · rw [if_pos ht]
      exact pyStr_truthy_ne_nil v ht
    · rw [if_neg ht]
      exact by decide

set_option maxHeartbeats 2000000 in
theorem relEntry_canon (kvs : List (List Char × JsonV))
    (hc : relCond kvs = true) : canonRel (relEntry kvs) := by
  have hc5 : pyTruthyO (lookupJ kvs ("relationship_type".toList)) = true := by
    unfold relCond at hc
    rw [Bool.and_eq_true] at hc
    exact hc.2
  obtain ⟨v, hv, hvt⟩ := pyTruthyO_some _ hc5
  have ht1 : ¬ ((relKeyOf kvs).2.2.2.2 = []) := by
    show ¬ (lowerL (pyStr
      ((lookupJ kvs ("relationship_type".toList)).getD .null)) = [])
    rw [hv]
    intro hnil
    exact pyStr_truthy_ne_nil v hvt (List.map_eq_nil_iff.mp hnil)
  have ht2 : lowerL (relKeyOf kvs).2.2.2.2 = (relKeyOf kvs).2.2.2.2 :=
    lowerL_idem (pyStr ((lookupJ kvs ("relationship_type".toList)).getD .null))
  obtain ⟨hf1, hf2⟩ := relConf_props kvs
  exact ⟨(relKeyOf kvs).1, (relKeyOf kvs).2.1, (relKeyOf kvs).2.2.1,
    (relKeyOf kvs).2.2.2.1, (relKeyOf kvs).2.2.2.2, relConf kvs, relRsn kvs,
    rfl,
    (sanitize_identifier_spec
      (pyStr ((lookupJ kvs ("from_table".toList)).getD .null))).1,
    sanitize_idem (pyStr ((lookupJ kvs ("from_table".toList)).getD .null)),
    (sanitize_identifier_spec
      (pyStr ((lookupJ kvs ("from_column".toList)).getD .null))).1,
    sanitize_idem (pyStr ((lookupJ kvs ("from_column".toList)).getD .null)),
    (sanitize_identifier_spec
      (pyStr ((lookupJ kvs ("to_table".toList)).getD .null))).1,
    sanitize_idem (pyStr ((lookupJ kvs ("to_table".toList)).getD .null)),
    (sanitize_identifier_spec
      (pyStr ((lookupJ kvs ("to_column".toList)).getD .null))).1,
    sanitize_idem (pyStr ((lookupJ kvs ("to_column".toList)).getD .null)),
    ht1, ht2, hf1, hf2, relRsn_props kvs⟩

set_option maxHeartbeats 2000000 in
theorem entryKey_relEntry (kvs : List (List Char × JsonV)) :
    entryKey (relEntry kvs) = relKeyOf kvs := by
  show (sanitize_identifier (pyStr (JsonV.str (relKeyOf kvs).1)),
    sanitize_identifier (pyStr (JsonV.str (relKeyOf kvs).2.1)),
    sanitize_identifier (pyStr (JsonV.str (relKeyOf kvs).2.2.1)),
    sanitize_identifier (pyStr (JsonV.str (relKeyOf kvs).2.2.2.1)),
    lowerL (pyStr (JsonV.str (relKeyOf kvs).2.2.2.2))) = relKeyOf kvs
  have h1 : sanitize_identifier (pyStr (JsonV.str (relKeyOf kvs).1))
      = (relKeyOf kvs).1 :=
    sanitize_idem (pyStr ((lookupJ kvs ("from_table".toList)).getD .null))
  have h2 : sanitize_identifier (pyStr (JsonV.str (relKeyOf kvs).2.1))
      = (relKeyOf kvs).2.1 :=
    sanitize_idem (pyStr ((lookupJ kvs ("from_column".toList)).getD .null))
  have h3 : sanitize_identifier (pyStr (JsonV.str (relKeyOf kvs).2.2.1))
      = (relKeyOf kvs).2.2.1 :=
    sanitize_idem (pyStr ((lookupJ kvs ("to_table".toList)).getD .null))
  have h4 : sanitize_identifier (pyStr (JsonV.str (relKeyOf kvs).2.2.2.1))
      = (relKeyOf kvs).2.2.2.1 :=
    sanitize_idem (pyStr ((lookupJ kvs ("to_column".toList)).getD .null))
  have h5 : lowerL (pyStr (JsonV.str (relKeyOf kvs).2.2.2.2))
      = (relKeyOf kvs).2.2.2.2 :=
    lowerL_idem (pyStr ((lookupJ kvs ("relationship_type".toList)).getD .null))
  rw [h1, h2, h3, h4, h5]
  rfl

set_option maxHeartbeats 2000000 in
theorem canon_step (e : JsonV) (hcanon : canonRel e) :
    ∃ kvs, e = JsonV.obj kvs ∧ relCond kvs = true ∧ relEntry kvs = e := by
  obtain ⟨a, b, c, d, t, f, g, he, ha1, ha2, hb1, hb2, hc1, hc2, hd1, hd2,
    ht1, ht2, hf1, hf2, hg1⟩ := hcanon
  subst he
  refine ⟨_, rfl, ?_, ?_⟩
  · show (!(decide (a = [])) && !(decide (b = [])) && !(decide (c = []))
      && !(decide (d = [])) && !(decide (t = []))) = true
    rw [decide_eq_false ha1, decide_eq_false hb1, decide_eq_false hc1,
      decide_eq_false hd1, decide_eq_false ht1]
    rfl
  · have htf : pyTruthy (JsonV.str f) = true := by
      show (!(decide (f = []))) = true
      rw [decide_eq_false hf1]
      rfl
    have htg : pyTruthy (JsonV.str g) = true := by
      show (!(decide (g = []))) = true
      rw [decide_eq_false hg1]
      rfl
    show JsonV.obj [("from_table".toList, .str (sanitize_identifier a)),
      ("from_column".toList, .str (sanitize_identifier b)),
      ("to_table".toList, .str (sanitize_identifier c)),
      ("to_column".toList, .str (sanitize_identifier d)),
      ("relationship_type".toList, .str (lowerL t)),
      ("confidence".toList, .str (if pyTruthy (JsonV.str f) = true
        then lowerL (pyStr (JsonV.str f)) else "medium".toList)),
      ("reason".toList, .str (if pyTruthy (JsonV.str g) = true
        then pyStr (JsonV.str g) else "Inferred relationship".toList))] = _
    rw [if_pos htf, if_pos htg, ha2, hb2, hc2, hd2, ht2]
    show JsonV.obj [("from_table".toList, JsonV.str a),
      ("from_column".toList, JsonV.str b), ("to_table".toList, JsonV.str c),
      ("to_column".toList, JsonV.str d),
      ("relationship_type".toList, JsonV.str t),
      ("confidence".toList, JsonV.str (lowerL f)),
      ("reason".toList, JsonV.str g)] = _
    rw [hf2]

theorem normRelsGo_cons_obj (acc : List JsonV) (keys : List RelKey)
    (kvs : List (List Char × JsonV)) (rest : List JsonV) :
    normRelsGo acc keys (JsonV.obj kvs :: rest)
      = if relCond kvs = true then
          (if decide (relKeyOf kvs ∈ keys) = true then normRelsGo acc keys rest
           else normRelsGo (acc ++ [relEntry kvs])
             (keys ++ [relKeyOf kvs]) rest)
        else normRelsGo acc keys rest := rfl

theorem normRelsGo_len :
    ∀ (xs : List JsonV) (acc : List JsonV) (keys : List RelKey),
    (normRelsGo acc keys xs).1.length + keys.length
      = (normRelsGo acc keys xs).2.length + acc.length := by
  intro xs
  induction xs with
  | nil =>
    intro acc keys
    show acc.length + keys.length = keys.length + acc.length
    omega
  | cons s rest ih =>
    intro acc keys
    cases s with
    | obj kvs =>
      rw [normRelsGo_cons_obj]
      by_cases h1 : relCond kvs = true
      · rw [if_pos h1]
        by_cases h2 : decide (relKeyOf kvs ∈ keys) = true
        · rw [if_pos h2]
          exact ih acc keys
        · rw [if_neg h2]
          have h3 := ih (acc ++ [relEntry kvs]) (keys ++ [relKeyOf kvs])
          rw [List.length_append, List.length_append, List.length_singleton,
            List.length_singleton] at h3
          omega
      · rw [if_neg h1]
        exact ih acc keys
    | null => exact ih acc keys
    | bool b => exact ih acc keys
    | int n => exact ih acc keys
    | flt t => exact ih acc keys
    | str v => exact ih acc keys
    | arr xs2 => exact ih acc keys

theorem normRelsGo_nil_keys (xs : List JsonV)
    (h : (normRelsGo [] [] xs).1 = []) : (normRelsGo [] [] xs).2 = [] := by
  have hlen := normRelsGo_len xs [] []
  rw [h] at hlen
  simp only [List.length_nil] at hlen
  exact List.eq_nil_of_length_eq_zero (by omega)

theorem normRelsGo_canon :
    ∀ (xs : List JsonV) (acc : List JsonV) (keys : List RelKey),
    (∀ e ∈ acc, canonRel e) → keys = acc.map entryKey → keys.Nodup →
    (∀ e ∈ (normRelsGo acc keys xs).1, canonRel e)
    ∧ (normRelsGo acc keys xs).2 = (normRelsGo acc keys xs).1.map entryKey
    ∧ ((normRelsGo acc keys xs).1.map entryKey).Nodup := by
  intro xs
  induction xs with
  | nil =>
    intro acc keys h1 h2 h3
    refine ⟨h1, h2, ?_⟩
    show (List.map entryKey acc).Nodup
    rw [← h2]
    exact h3
  | cons s rest ih =>
    intro acc keys h1 h2 h3
    cases s with
    | obj kvs =>
      rw [normRelsGo_cons_obj]
      by_cases hcnd : relCond kvs = true
      · rw [if_pos hcnd]
        by_cases hmem : decide (relKeyOf kvs ∈ keys) = true
        · rw [if_pos hmem]
          exact ih acc keys h1 h2 h3
        · rw [if_neg hmem]
          apply ih
          · intro e he
            rcases List.mem_append.mp he with he1 | he2
            · exact h1 e he1
            · rw [List.mem_singleton.mp he2]
              exact relEntry_canon kvs hcnd
          · rw [List.map_append, ← h2, List.map_cons, List.map_nil,
              entryKey_relEntry]
          · rw [List.nodup_append]
            refine ⟨h3, List.nodup_singleton _, ?_⟩
            intro a ha hb
            rw [List.mem_singleton.mp hb] at ha
            exact hmem (decide_eq_true ha)
      · rw [if_neg hcnd]
        exact ih acc keys h1 h2 h3
    | null => exact ih acc keys h1 h2 h3
    | bool b => exact ih acc keys h1 h2 h3
    | int n => exact ih acc keys h1 h2 h3
    | flt t => exact ih acc keys h1 h2 h3
    | str v => exact ih acc keys h1 h2 h3
    | arr xs2 => exact ih acc keys h1 h2 h3

theorem normRelsGo_roundtrip :
    ∀ (es : List JsonV) (acc : List JsonV) (keys : List RelKey),
    (∀ e ∈ es, canonRel e) → (∀ e ∈ es, entryKey e ∉ keys) →
    (es.map entryKey).Nodup →
    normRelsGo acc keys es = (acc ++ es, keys ++ es.map entryKey) := by
  intro es
  induction es with
  | nil =>
    intro acc keys _ _ _
    show (acc, keys) = (acc ++ [], keys ++ [])
    rw [List.append_nil, List.append_nil]
  | cons e rest ih =>
    intro acc keys hcanon hnot hnd
    obtain ⟨kvs, he, hcond, hentry⟩ :=
      canon_step e (hcanon e (List.mem_cons_self _ _))
    subst he
    have hm : ¬ (decide (relKeyOf kvs ∈ keys) = true) := fun hdec =>
      hnot _ (List.mem_cons_self _ _) (of_decide_eq_true hdec)
    have hnd2 : (rest.map entryKey).Nodup := by
      have h0 := hnd
      rw [List.map_cons] at h0
      exact (List.nodup_cons.mp h0).2
    have hnotin : entryKey (JsonV.obj kvs) ∉ rest.map entryKey := by
      have h0 := hnd
      rw [List.map_cons] at h0
      exact (List.nodup_cons.mp h0).1
    have hn : ∀ e2 ∈ rest, entryKey e2 ∉ keys ++ [relKeyOf kvs] := by
      intro e2 he2 hmem2
      rcases List.mem_append.mp hmem2 with hk | hk
      · exact hnot e2 (List.mem_cons_of_mem _ he2) hk
      · have h4 : entryKey e2 = relKeyOf kvs := List.mem_singleton.mp hk
        have h5 : entryKey e2 ∈ rest.map entryKey :=
          List.mem_map_of_mem entryKey he2
        rw [h4] at h5
        exact hnotin h5
    rw [normRelsGo_cons_obj, if_pos hcond, if_neg hm, hentry,
      ih _ _ (fun e2 he2 => hcanon e2 (List.mem_cons_of_mem _ he2)) hn hnd2]
    show ((acc ++ [JsonV.obj kvs]) ++ rest,
      (keys ++ [relKeyOf kvs]) ++ rest.map entryKey) = _
    rw [List.append_assoc, List.append_assoc, List.singleton_append,
      List.singleton_append, List.map_cons]
    rfl

theorem bool_eq_false_of_not (b : Bool) (h : ¬ b = true) : b = false := by
  cases b with
  | false => rfl
  | true => exact absurd rfl h

theorem synthRelsGo_cons_obj (tl : List Char) (acc : List JsonV)
    (keys : List RelKey) (kvs : List (List Char × JsonV)) (rest : List JsonV) :
    synthRelsGo tl acc keys (JsonV.obj kvs :: rest)
      = if pyTruthyO (lookupJ kvs ("isForeignKey".toList)) = true then
          (if pyTruthyO (lookupJ kvs ("referencedTable".toList)) = true then
            (if decide (synthKey tl kvs ∈ keys) = true
             then synthRelsGo tl acc keys rest
             else synthRelsGo tl (acc ++ [synthEntry tl kvs])
               (keys ++ [synthKey tl kvs]) rest)
           else synthRelsGo tl acc keys rest)
        else synthRelsGo tl acc keys rest := rfl

set_option maxHeartbeats 2000000 in
theorem synthEntry_canon (tl : List Char) (kvs : List (List Char × JsonV))
    (htl1 : ¬ (tl = [])) (htl2 : sanitize_identifier tl = tl) :
    canonRel (synthEntry tl kvs) :=
  ⟨tl, synthFromCol kvs, (synthKey tl kvs).2.2.1, (synthKey tl kvs).2.2.2.1,
    "one_to_many".toList, "medium".toList,
    "Inferred from *_id column pattern and existing schema".toList,
    rfl, htl1, htl2,
    (sanitize_identifier_spec (pyStr (pyOrO (lookupJ kvs ("name".toList))
      (pyOrO (lookupJ kvs ("id".toList)) (.str []))))).1,
    sanitize_idem (pyStr (pyOrO (lookupJ kvs ("name".toList))
      (pyOrO (lookupJ kvs ("id".toList)) (.str [])))),
    (sanitize_identifier_spec
      (pyStr ((lookupJ kvs ("referencedTable".toList)).getD .null))).1,
    sanitize_idem (pyStr ((lookupJ kvs ("referencedTable".toList)).getD .null)),
    (sanitize_identifier_spec (pyStr (pyOrO
      (lookupJ kvs ("referencedColumn".toList)) (.str ("id".toList))))).1,
    sanitize_idem (pyStr (pyOrO (lookupJ kvs ("referencedColumn".toList))
      (.str ("id".toList)))),
    by decide, by decide, by decide, by decide, by decide⟩

set_option maxHeartbeats 2000000 in
theorem entryKey_synthEntry (tl : List Char) (kvs : List (List Char × JsonV))
    (htl2 : sanitize_identifier tl = tl) :
    entryKey (synthEntry tl kvs) = synthKey tl kvs := by
  show (sanitize_identifier (pyStr (JsonV.str tl)),
    sanitize_identifier (pyStr (JsonV.str (synthFromCol kvs))),
    sanitize_identifier (pyStr (JsonV.str (synthKey tl kvs).2.2.1)),
    sanitize_identifier (pyStr (JsonV.str (synthKey tl kvs).2.2.2.1)),
    lowerL (pyStr (JsonV.str ("one_to_many".toList)))) = synthKey tl kvs
  have h1 : sanitize_identifier (pyStr (JsonV.str tl)) = tl := htl2
  have h2 : sanitize_identifier (pyStr (JsonV.str (synthFromCol kvs)))
      = synthFromCol kvs :=
    sanitize_idem (pyStr (pyOrO (lookupJ kvs ("name".toList))
      (pyOrO (lookupJ kvs ("id".toList)) (.str []))))
  have h3 : sanitize_identifier (pyStr (JsonV.str (synthKey tl kvs).2.2.1))
      = (synthKey tl kvs).2.2.1 :=
    sanitize_idem (pyStr ((lookupJ kvs ("referencedTable".toList)).getD .null))
  have h4 : sanitize_identifier (pyStr (JsonV.str (synthKey tl kvs).2.2.2.1))
      = (synthKey tl kvs).2.2.2.1 :=
    sanitize_idem (pyStr (pyOrO (lookupJ kvs ("referencedColumn".toList))
      (.str ("id".toList))))
  have h5 : lowerL (pyStr (JsonV.str ("one_to_many".toList)))
      = "one_to_many".toList := by decide
  rw [h1, h2, h3, h4, h5]
  rfl

theorem synthRelsGo_extends (tl : List Char) :
    ∀ (cols : List JsonV) (acc : List JsonV) (keys : List RelKey),
    ∃ l, synthRelsGo tl acc keys cols = acc ++ l := by
  intro cols
  induction cols with
  | nil => intro acc keys; exact ⟨[], (List.append_nil acc).symm⟩
  | cons col rest ih =>
    intro acc keys
    cases col with
    | obj kvs =>
      rw [synthRelsGo_cons_obj]
      by_cases h1 : pyTruthyO (lookupJ kvs ("isForeignKey".toList)) = true
      · rw [if_pos h1]
        by_cases h2 : pyTruthyO (lookupJ kvs ("referencedTable".toList)) = true
        · rw [if_pos h2]
          by_cases h3 : decide (synthKey tl kvs ∈ keys) = true
          · rw [if_pos h3]
            exact ih acc keys
          · rw [if_neg h3]
            obtain ⟨l, hl⟩ := ih (acc ++ [synthEntry tl kvs])
              (keys ++ [synthKey tl kvs])
            exact ⟨[synthEntry tl kvs] ++ l, by rw [hl, List.append_assoc]⟩
        · rw [if_neg h2]
          exact ih acc keys
      · rw [if_neg h1]
        exact ih acc keys
    | null => exact ih acc keys
    | bool b2 => exact ih acc keys
    | int n2 => exact ih acc keys
    | flt t2 => exact ih acc keys
    | str v2 => exact ih acc keys
    | arr xs2 => exact ih acc keys

theorem synthRelsGo_nil_qual :
    ∀ (cols : List JsonV) (tl : List Char),
    synthRelsGo tl [] [] cols = [] → ∀ c ∈ cols, synthQual c = false := by
  intro cols
  induction cols with
  | nil => intro tl _ c hc; exact absurd hc (List.not_mem_nil c)
  | cons col rest ih =>
    intro tl h c hc
    cases col with
    | obj kvs =>
      rw [synthRelsGo_cons_obj] at h
      by_cases h1 : pyTruthyO (lookupJ kvs ("isForeignKey".toList)) = true
      · rw [if_pos h1] at h
        by_cases h2 : pyTruthyO (lookupJ kvs ("referencedTable".toList)) = true
        · rw [if_pos h2] at h
          have h3 : ¬ (decide (synthKey tl kvs ∈ ([] : List RelKey)) = true) :=
            fun hd => absurd (of_decide_eq_true hd) (List.not_mem_nil _)
          rw [if_neg h3] at h
          obtain ⟨l, hl⟩ := synthRelsGo_extends tl rest
            (([] : List JsonV) ++ [synthEntry tl kvs])
            (([] : List RelKey) ++ [synthKey tl kvs])
          rw [hl, List.nil_append, List.singleton_append] at h
          exact absurd h (List.cons_ne_nil _ _)
        · rw [if_neg h2] at h
          rcases List.mem_cons.mp hc with hh | hh
          · rw [hh, synthQual_obj, bool_eq_false_of_not _ h2, Bool.and_false]
          · exact ih tl h c hh
      · rw [if_neg h1] at h
        rcases List.mem_cons.mp hc with hh | hh
        · rw [hh, synthQual_obj, bool_eq_false_of_not _ h1, Bool.false_and]
        · exact ih tl h c hh
    | null =>
      rcases List.mem_cons.mp hc with hh | hh
      · rw [hh]
        rfl
      · exact ih tl h c hh
    | bool b2 =>
      rcases List.mem_cons.mp hc with hh | hh
      · rw [hh]
        rfl
      · exact ih tl h c hh
    | int n2 =>
      rcases List.mem_cons.mp hc with hh | hh
      · rw [hh]
        rfl
      · exact ih tl h c hh
    | flt t2 =>
      rcases List.mem_cons.mp hc with hh | hh
      · rw [hh]
        rfl
      · exact ih tl h c hh
    | str v2 =>
      rcases List.mem_cons.mp hc with hh | hh
      · rw [hh]
        rfl
      · exact ih tl h c hh
    | arr xs2 =>
      rcases List.mem_cons.mp hc with hh | hh
      · rw [hh]
        rfl
      · exact ih tl h c hh

theorem synthRelsGo_all_false (tl : List Char) :
    ∀ (cols : List JsonV) (acc : List JsonV) (keys : List RelKey),
    (∀ c ∈ cols, synthQual c = false) →
    synthRelsGo tl acc keys cols = acc := by
  intro cols
  induction cols with
  | nil => intro acc keys _; rfl
  | cons col rest ih =>
    intro acc keys hq
    cases col with
    | obj kvs =>
      rw [synthRelsGo_cons_obj]
      have hqh := hq (JsonV.obj kvs) (List.mem_cons_self _ _)
      rw [synthQual_obj] at hqh
      by_cases h1 : pyTruthyO (lookupJ kvs ("isForeignKey".toList)) = true
      · rw [if_pos h1]
        have h2 : pyTruthyO (lookupJ kvs ("referencedTable".toList)) = false := by
          rw [h1, Bool.true_and] at hqh
          exact hqh
        rw [if_neg (by
          intro hcontra
          rw [h2] at hcontra
          exact Bool.noConfusion hcontra)]
        exact ih acc keys (fun c hc => hq c (List.mem_cons_of_mem _ hc))
      · rw [if_neg h1]
        exact ih acc keys (fun c hc => hq c (List.mem_cons_of_mem _ hc))
    | null => exact ih acc keys (fun c hc => hq c (List.mem_cons_of_mem _ hc))
    | bool b2 => exact ih acc keys (fun c hc => hq c (List.mem_cons_of_mem _ hc))
    | int n2 => exact ih acc keys (fun c hc => hq c (List.mem_cons_of_mem _ hc))
    | flt t2 => exact ih acc keys (fun c hc => hq c (List.mem_cons_of_mem _ hc))
    | str v2 => exact ih acc keys (fun c hc => hq c (List.mem_cons_of_mem _ hc))
    | arr xs2 => exact ih acc keys (fun c hc => hq c (List.mem_cons_of_mem _ hc))

theorem synthRelsGo_canon (tl : List Char) (htl1 : ¬ (tl = []))
    (htl2 : sanitize_identifier tl = tl) :
    ∀ (cols : List JsonV) (acc : List JsonV) (keys : List RelKey),
    (∀ e ∈ acc, canonRel e) → keys = acc.map entryKey → keys.Nodup →
    (∀ e ∈ synthRelsGo tl acc keys cols, canonRel e)
    ∧ ((synthRelsGo tl acc keys cols).map entryKey).Nodup := by
  intro cols
  induction cols with
  | nil =>
    intro acc keys h1 h2 h3
    refine ⟨h1, ?_⟩
    show (List.map entryKey acc).Nodup
    rw [← h2]
    exact h3
  | cons col rest ih =>
    intro acc keys h1 h2 h3
    cases col with
    | obj kvs =>
      rw [synthRelsGo_cons_obj]
      by_cases hf : pyTruthyO (lookupJ kvs ("isForeignKey".toList)) = true
      · rw [if_pos hf]
        by_cases hr : pyTruthyO (lookupJ kvs ("referencedTable".toList)) = true
        · rw [if_pos hr]
          by_cases hk : decide (synthKey tl kvs ∈ keys) = true
          · rw [if_pos hk]
            exact ih acc keys h1 h2 h3
          · rw [if_neg hk]
            apply ih
            · intro e he
              rcases List.mem_append.mp he with he1 | he2
              · exact h1 e he1
              · rw [List.mem_singleton.mp he2]
                exact synthEntry_canon tl kvs htl1 htl2
            · rw [List.map_append, ← h2, List.map_cons, List.map_nil,
                entryKey_synthEntry tl kvs htl2]
            · rw [List.nodup_append]
              refine ⟨h3, List.nodup_singleton _, ?_⟩
              intro a ha hb
              rw [List.mem_singleton.mp hb] at ha
              exact hk (decide_eq_true ha)
        · rw [if_neg hr]
          exact ih acc keys h1 h2 h3
      · rw [if_neg hf]
        exact ih acc keys h1 h2 h3
    | null => exact ih acc keys h1 h2 h3
    | bool b2 => exact ih acc keys h1 h2 h3
    | int n2 => exact ih acc keys h1 h2 h3
    | flt t2 => exact ih acc keys h1 h2 h3
    | str v2 => exact ih acc keys h1 h2 h3
    | arr xs2 => exact ih acc keys h1 h2 h3

theorem suggIn_normalize (r : JsonV) (p s p2 s2 : List Char) :
    suggIn (normalize_table_result r p s) p2 s2 = finalSugs r p s := by
  unfold suggIn
  rw [lookupJ_setJ,
    if_neg (by decide :
      ¬ ("columns".toList = "suggested_relationships".toList)),
    lookupJ_setJ,
    if_neg (by decide : ¬ ("label".toList = "suggested_relationships".toList))]
  show (match lookupJ (setJ (setJ (setJ (coerceKvs r) ("label".toList)
      (.str (tableLabelOf r p))) ("columns".toList)
      (.arr (finalColumns r p s))) ("suggested_relationships".toList)
      (.arr (finalSugs r p s))) ("suggested_relationships".toList) with
    | some (.arr xs) => xs
    | _ => ([] : List JsonV)) = finalSugs r p s
  rw [lookupJ_setJ, if_pos rfl]

theorem relsOf_normalize (r : JsonV) (p s : List Char) :
    relsOf (normalize_table_result r p s) = finalSugs r p s := by
  unfold relsOf
  show (match lookupJ (setJ (setJ (setJ (coerceKvs r) ("label".toList)
      (.str (tableLabelOf r p))) ("columns".toList)
      (.arr (finalColumns r p s))) ("suggested_relationships".toList)
      (.arr (finalSugs r p s))) ("suggested_relationships".toList) with
    | some (.arr xs) => xs
    | _ => ([] : List JsonV)) = finalSugs r p s
  rw [lookupJ_setJ, if_pos rfl]

theorem tl2Of_props (r : JsonV) (p s : List Char) :
    ¬ (tl2Of r p s = []) ∧ sanitize_identifier (tl2Of r p s) = tl2Of r p s :=
  ⟨(sanitize_identifier_spec (pyStr (pyOrO (lookupJ (setJ (setJ
      (coerceKvs r) ("label".toList) (.str (tableLabelOf r p)))
      ("columns".toList) (.arr (finalColumns r p s))) ("label".toList))
      (.str (infer_table_label_from_prompt p))))).1,
    sanitize_idem (pyStr (pyOrO (lookupJ (setJ (setJ
      (coerceKvs r) ("label".toList) (.str (tableLabelOf r p)))
      ("columns".toList) (.arr (finalColumns r p s))) ("label".toList))
      (.str (infer_table_label_from_prompt p))))⟩

end SchemaFlow

